import Mathlib

/-!
# Bank management system: account store and account behaviour

A shallow embedding of `bank_management.cpp`.

Conventions of the embedding:

* `float` is IEEE 754 binary32 (`F32`): every operation gives the exact result
  rounded to the nearest value of the format, ties to even, with overflow to an
  infinity and not-a-number where the standard says so, and every expression is
  evaluated in the format itself. A finite value is kept as the rational it
  denotes. The sign of a zero and the sign of a not-a-number are not kept: they
  show only in the text `std::to_string` gives for such a value.
* `long long` account numbers and `int` PINs are integers; the counter
  `nextAccNo` is only ever incremented by one from `200001`.
* An `Account*` is the position of the account's node in the linked list
  (`Ptr`); the list is written head first.
* Timestamps (`time(nullptr)`) are left out of `Transaction` and `Account`.
* Console input is a parameter of each operation; reading from an exhausted
  input never returns, which is the result `none`.
-/

namespace BankManagement

/-! ## Binary32 numbers

The type `float` of the source: IEEE 754 binary32 with round to nearest, ties to
even. A finite value is kept as the rational it denotes; the sign of a zero is
not kept (it shows only in the text of a zero and in a division by zero, and the
program divides by `100.0f` alone). -/

/-- The nearest integer, the even one of the two at a tie. -/
def roundEven (t : ℚ) : Int :=
  if t - Rat.floor t < 1 / 2 then Rat.floor t
  else if 1 / 2 < t - Rat.floor t then Rat.floor t + 1
  else if Rat.floor t % 2 = 0 then Rat.floor t else Rat.floor t + 1

/-- The power `2 ^ k` of two for an integer `k`, as a quotient of whole numbers. -/
def pow2 (k : Int) : ℚ :=
  if 0 ≤ k then ((2 ^ k.toNat : Nat) : ℚ) else 1 / ((2 ^ (-k).toNat : Nat) : ℚ)

/-- The test `a < 2 ^ e` for a rational `a` and an integer `e`, on the numerator
and the denominator of `a`. -/
def ltPow2 (a : ℚ) (e : Int) : Bool :=
  if 0 ≤ e then decide (a.num < (a.den : Int) * ((2 ^ e.toNat : Nat) : Int))
  else decide (a.num * ((2 ^ (-e).toNat : Nat) : Int) < (a.den : Int))

/-- The search for the exponent of the spacing: the least `k` from `k0` on with
`a < 2 ^ (k + 24)`, at most `fuel` steps up. -/
def ulpFrom (a : ℚ) : Nat → Int → Int
  | 0, k => k
  | fuel + 1, k => if ltPow2 a (k + 24) then k else ulpFrom a fuel (k + 1)

/-- The exponent of the spacing of the binary32 values around `q`: `-149` below
`2 ^ -125` (subnormal numbers and the first binade), `e - 23` in the binade
`2 ^ e ≤ |q| < 2 ^ (e + 1)` (24 significant bits). It is the least `k` from `-149`
on with `|q| < 2 ^ (k + 24)`, and `105` when there is none up to there; for
`|q| ≥ 1` the search may start at `-23`. -/
def ulpExp (q : ℚ) : Int :=
  if ltPow2 |q| 0 then ulpFrom |q| 254 (-149) else ulpFrom |q| 128 (-23)

/-- Rounding to the nearest multiple of the spacing, ties to even. -/
def roundQ (q : ℚ) : ℚ := (roundEven (q / pow2 (ulpExp q)) : ℚ) * pow2 (ulpExp q)

/-- The values of a binary32 number: a finite one, the two infinities, not-a-number. -/
inductive F32Val where
  | fin (q : ℚ)
  | pinf
  | ninf
  | nan
  deriving DecidableEq, Repr

/-- A finite value is well formed when it is one of the binary32 grid (rounding
leaves it alone) and below the overflow threshold `2 ^ 128`. -/
def F32Val.wf : F32Val → Bool
  | F32Val.fin q => decide (roundQ q = q ∧ |q| < (2 : ℚ) ^ (128 : Nat))
  | _ => true

/-- A binary32 number. -/
structure F32 where
  val : F32Val
  wf : val.wf = true
  deriving DecidableEq

def F32.pinf : F32 := ⟨F32Val.pinf, rfl⟩

def F32.ninf : F32 := ⟨F32Val.ninf, rfl⟩

def F32.nan : F32 := ⟨F32Val.nan, rfl⟩

/-- The binary32 number nearest to the rational `q`: the result of an operation
whose exact result is `q`, and the value read for a decimal numeral. A magnitude
that rounds to `2 ^ 128` or more overflows to an infinity. The last branch is
never taken (`ofRat_val`). -/
def F32.ofRat (q : ℚ) : F32 :=
  if (2 : ℚ) ^ (128 : Nat) ≤ roundQ q then F32.pinf
  else if roundQ q ≤ -(2 : ℚ) ^ (128 : Nat) then F32.ninf
  else if h : (F32Val.fin (roundQ q)).wf = true then ⟨F32Val.fin (roundQ q), h⟩
  else F32.nan

instance : OfNat F32 n := ⟨F32.ofRat n⟩

/-- The operation `-x`. -/
def F32.neg (x : F32) : F32 :=
  match x.val with
  | F32Val.fin a => F32.ofRat (-a)
  | F32Val.pinf => F32.ninf
  | F32Val.ninf => F32.pinf
  | F32Val.nan => F32.nan

/-- The operation `x + y`. -/
def F32.add (x y : F32) : F32 :=
  match x.val, y.val with
  | F32Val.nan, _ => F32.nan
  | _, F32Val.nan => F32.nan
  | F32Val.fin a, F32Val.fin b => F32.ofRat (a + b)
  | F32Val.pinf, F32Val.ninf => F32.nan
  | F32Val.ninf, F32Val.pinf => F32.nan
  | F32Val.pinf, _ => F32.pinf
  | _, F32Val.pinf => F32.pinf
  | F32Val.ninf, _ => F32.ninf
  | _, F32Val.ninf => F32.ninf

/-- The operation `x - y`. -/
def F32.sub (x y : F32) : F32 :=
  match x.val, y.val with
  | F32Val.nan, _ => F32.nan
  | _, F32Val.nan => F32.nan
  | F32Val.fin a, F32Val.fin b => F32.ofRat (a - b)
  | F32Val.pinf, F32Val.pinf => F32.nan
  | F32Val.ninf, F32Val.ninf => F32.nan
  | F32Val.pinf, _ => F32.pinf
  | _, F32Val.ninf => F32.pinf
  | F32Val.ninf, _ => F32.ninf
  | _, F32Val.pinf => F32.ninf

/-- An infinity of the sign of `neg`. -/
def F32.infOf (neg : Bool) : F32 := if neg then F32.ninf else F32.pinf

/-- The operation `x * y`. -/
def F32.mul (x y : F32) : F32 :=
  match x.val, y.val with
  | F32Val.nan, _ => F32.nan
  | _, F32Val.nan => F32.nan
  | F32Val.fin a, F32Val.fin b => F32.ofRat (a * b)
  | F32Val.fin a, F32Val.pinf => if a = 0 then F32.nan else F32.infOf (decide (a < 0))
  | F32Val.fin a, F32Val.ninf => if a = 0 then F32.nan else F32.infOf (decide (0 < a))
  | F32Val.pinf, F32Val.fin b => if b = 0 then F32.nan else F32.infOf (decide (b < 0))
  | F32Val.ninf, F32Val.fin b => if b = 0 then F32.nan else F32.infOf (decide (0 < b))
  | F32Val.pinf, F32Val.pinf => F32.pinf
  | F32Val.ninf, F32Val.ninf => F32.pinf
  | F32Val.pinf, F32Val.ninf => F32.ninf
  | F32Val.ninf, F32Val.pinf => F32.ninf

/-- The operation `x / y`. -/
def F32.div (x y : F32) : F32 :=
  match x.val, y.val with
  | F32Val.nan, _ => F32.nan
  | _, F32Val.nan => F32.nan
  | F32Val.fin a, F32Val.fin b =>
    if b = 0 then (if a = 0 then F32.nan else F32.infOf (decide (a < 0)))
    else F32.ofRat (a / b)
  | F32Val.fin _, F32Val.pinf => F32.ofRat 0
  | F32Val.fin _, F32Val.ninf => F32.ofRat 0
  | F32Val.pinf, F32Val.fin b => F32.infOf (decide (b < 0))
  | F32Val.ninf, F32Val.fin b => F32.infOf (decide (0 ≤ b))
  | _, _ => F32.nan

instance : Neg F32 := ⟨F32.neg⟩

instance : Add F32 := ⟨F32.add⟩

instance : Sub F32 := ⟨F32.sub⟩

instance : Mul F32 := ⟨F32.mul⟩

instance : Div F32 := ⟨F32.div⟩

/-- The comparison `x < y`; false when either side is not a number. -/
def F32.blt (x y : F32) : Bool :=
  match x.val, y.val with
  | F32Val.fin a, F32Val.fin b => decide (a < b)
  | F32Val.ninf, F32Val.fin _ => true
  | F32Val.ninf, F32Val.pinf => true
  | F32Val.fin _, F32Val.pinf => true
  | _, _ => false

/-- The comparison `x <= y`; false when either side is not a number. -/
def F32.ble (x y : F32) : Bool :=
  match x.val, y.val with
  | F32Val.fin a, F32Val.fin b => decide (a ≤ b)
  | F32Val.ninf, F32Val.fin _ => true
  | F32Val.ninf, F32Val.pinf => true
  | F32Val.fin _, F32Val.pinf => true
  | F32Val.ninf, F32Val.ninf => true
  | F32Val.pinf, F32Val.pinf => true
  | _, _ => false

instance : LT F32 := ⟨fun x y => F32.blt x y = true⟩

instance : LE F32 := ⟨fun x y => F32.ble x y = true⟩

instance (x y : F32) : Decidable (x < y) := inferInstanceAs (Decidable (F32.blt x y = true))

instance (x y : F32) : Decidable (x ≤ y) := inferInstanceAs (Decidable (F32.ble x y = true))


/-- Whether the rational `q` is a finite binary32 number: an operation whose exact
result is `q` then gives `q` itself. -/
def F32.isValue (q : ℚ) : Bool := (F32Val.fin q).wf

/-! ## Transactions and accounts -/

/-- The dynamic type of an account object: `SavingsAccount` or `CurrentAccount`. -/
inductive Kind where
  | Savings
  | Current
  deriving DecidableEq, Repr

/-- The record `Transaction`, without its time stamp. -/
structure Transaction where
  detail : String
  deriving DecidableEq, Repr

/-- The data members of `class Account`, with the dynamic type as `kind`. -/
structure Account where
  kind : Kind
  name : String
  accNo : Int
  balance : F32
  pin : Int
  blocked : Bool
  history : List Transaction
  deriving DecidableEq

/-- Left padding with zeros up to six digits, as `%f` prints the fraction. -/
def pad6 (s : String) : String :=
  String.mk (List.replicate (6 - s.length) '0') ++ s

/-- The text of `std::to_string(float)`: format `%f` of the value, six decimals,
ties to even; `inf`, `-inf` and `nan` for a value that is not finite. -/
def to_string_float (x : F32) : String :=
  match x.val with
  | F32Val.fin q =>
    let scaled : ℚ := |q| * 1000000
    let fl : Int := Rat.floor scaled
    let frac : ℚ := scaled - fl
    let n : Nat :=
      (if 1 / 2 < frac then fl + 1
       else if frac < 1 / 2 then fl
       else if fl % 2 = 0 then fl else fl + 1).toNat
    (if q < 0 then "-" else "") ++ toString (n / 1000000) ++ "." ++ pad6 (toString (n % 1000000))
  | F32Val.pinf => "inf"
  | F32Val.ninf => "-inf"
  | F32Val.nan => "nan"

/-- The text of `std::to_string(long long)`. -/
def to_string_ll (n : Int) : String := toString n

/-- The constructor `Account()` for an object of dynamic type `k`. -/
def Account.new (k : Kind) : Account :=
  { kind := k, name := "", accNo := 0, balance := 0, pin := 0, blocked := false, history := [] }

/-- The method `Account::initNew(n, p)`; the static counter `nextAccNo` is passed in
and its new value is returned. The flag `blocked` is not assigned. -/
def Account.initNew (a : Account) (n : String) (p : Int) (nextAccNo : Int) : Account × Int :=
  ({ a with name := n, pin := p, accNo := nextAccNo, balance := 0, history := [] }, nextAccNo + 1)

def Account.getAccNo (a : Account) : Int := a.accNo

def Account.getName (a : Account) : String := a.name

def Account.getBalance (a : Account) : F32 := a.balance

def Account.isBlocked (a : Account) : Bool := a.blocked

def Account.checkPin (a : Account) (p : Int) : Bool := decide (a.pin = p)

def Account.block (a : Account) : Account := { a with blocked := true }

def Account.unblock (a : Account) : Account := { a with blocked := false }

def Account.changePin (a : Account) (newPin : Int) : Account := { a with pin := newPin }

/-- The method `Account::addHistory(d)`: `history.emplace_back(d)`. -/
def Account.addHistory (a : Account) (d : String) : Account :=
  { a with history := a.history ++ [⟨d⟩] }

def Account.getHistory (a : Account) : List Transaction := a.history

/-- The body of `Account::deposit` (lines 58-61), the one `CurrentAccount` inherits. -/
def Account.deposit (a : Account) (amt : F32) : Account :=
  let a1 := { a with balance := a.balance + amt }
  a1.addHistory ("+ " ++ to_string_float amt ++ " Deposit")

/-- The body of `Account::withdraw` (lines 62-69); both subclasses override it. -/
def Account.withdraw (a : Account) (amt : F32) : Bool × Account :=
  if a.balance ≥ amt then
    let a1 := { a with balance := a.balance - amt }
    (true, a1.addHistory ("- " ++ to_string_float amt ++ " Withdraw"))
  else (false, a)

/-- The override `SavingsAccount::deposit` (lines 95-100). -/
def SavingsAccount.deposit (a : Account) (amt : F32) : Account :=
  let a1 := { a with balance := a.balance + amt }
  let interest : F32 := (a1.balance * 2) / 100
  let a2 := { a1 with balance := a1.balance + interest }
  a2.addHistory ("+ " ++ to_string_float amt ++ " Deposit (interest "
    ++ to_string_float interest ++ ")")

/-- The override `SavingsAccount::withdraw` (lines 101-108). -/
def SavingsAccount.withdraw (a : Account) (amt : F32) : Bool × Account :=
  if a.balance > amt then
    let a1 := { a with balance := a.balance - amt }
    (true, a1.addHistory ("- " ++ to_string_float amt ++ " Withdraw"))
  else (false, a)

/-- The override `CurrentAccount::withdraw` (lines 114-121). -/
def CurrentAccount.withdraw (a : Account) (amt : F32) : Bool × Account :=
  if a.balance - amt ≥ 1000 then
    let a1 := { a with balance := a.balance - amt }
    (true, a1.addHistory ("- " ++ to_string_float amt ++ " Withdraw"))
  else (false, a)

/-- The virtual call `a->deposit(amt)`. -/
def Account.callDeposit (a : Account) (amt : F32) : Account :=
  match a.kind with
  | Kind.Savings => SavingsAccount.deposit a amt
  | Kind.Current => Account.deposit a amt

/-- The virtual call `a->withdraw(amt)`. -/
def Account.callWithdraw (a : Account) (amt : F32) : Bool × Account :=
  match a.kind with
  | Kind.Savings => SavingsAccount.withdraw a amt
  | Kind.Current => CurrentAccount.withdraw a amt

/-! ## The store: a singly linked list of accounts -/

/-- The linked list of `Bank`, from `head` on. -/
abbrev Bank := List Account

/-- An `Account*` into the store: the position of its node, counted from `head`. -/
abbrev Ptr := Nat

/-- The method `Bank::addAccount`: the new node becomes the head. -/
def Bank.addAccount (b : Bank) (a : Account) : Bank := a :: b

/-- The method `Bank::search`: the first node whose account has the number. -/
def Bank.search : Bank → Int → Option Ptr
  | [], _ => none
  | a :: t, accNo =>
    if a.getAccNo = accNo then some 0 else (Bank.search t accNo).map Nat.succ

/-- Dereferencing a pointer into the store. -/
def Bank.deref (b : Bank) (p : Ptr) : Option Account := b[p]?

/-- A mutation `f` of the account object behind a pointer; the nodes stay as they are. -/
def Bank.update : Bank → Ptr → (Account → Account) → Bank
  | [], _, _ => []
  | a :: t, 0, f => f a :: t
  | a :: t, p + 1, f => a :: Bank.update t p f

/-- The method `Bank::deleteAccount`: unlinks the first node whose account has the number. -/
def Bank.deleteAccount : Bank → Int → Bool × Bank
  | [], _ => (false, [])
  | a :: t, accNo =>
    if a.getAccNo ≠ accNo then
      let r := Bank.deleteAccount t accNo
      (r.1, a :: r.2)
    else (true, t)

/-- The method `Bank::toVector`: the accounts in list order. -/
def Bank.toVector (b : Bank) : List Account := b

/-- The method `Bank::rebuildFromVector`: every element of `v` in turn becomes the head. -/
def Bank.rebuildFromVector (v : List Account) : Bank :=
  v.foldl (fun head a => a :: head) []

/-- One insertion of the straight insertion sort: `val` goes before the first
element that `comp` puts after it. -/
def sortInsert {α : Type} (comp : α → α → Bool) (val : α) : List α → List α
  | [] => [val]
  | x :: rest => if comp val x then val :: x :: rest else x :: sortInsert comp val rest

/-- A model of `std::sort(first, last, comp)`: straight insertion from left to right.
The standard promises a permutation of the range ordered by `comp` and nothing
about the order of equivalent elements. -/
def std_sort {α : Type} (comp : α → α → Bool) (v : List α) : List α :=
  v.foldl (fun sorted val => sortInsert comp val sorted) []

/-- The comparator of `sortByName`. -/
def compName (a b : Account) : Bool := decide (a.getName < b.getName)

/-- The comparator of `sortByBalanceDesc`. -/
def compBalanceDesc (a b : Account) : Bool := decide (a.getBalance > b.getBalance)

/-- The comparator of `sortByAccNo`. -/
def compAccNo (a b : Account) : Bool := decide (a.getAccNo < b.getAccNo)

def Bank.sortByName (b : Bank) : Bank :=
  Bank.rebuildFromVector (std_sort compName (Bank.toVector b))

def Bank.sortByBalanceDesc (b : Bank) : Bank :=
  Bank.rebuildFromVector (std_sort compBalanceDesc (Bank.toVector b))

def Bank.sortByAccNo (b : Bank) : Bank :=
  Bank.rebuildFromVector (std_sort compAccNo (Bank.toVector b))

/-- The method `Bank::totalBankBalance`. -/
def Bank.totalBankBalance (b : Bank) : F32 :=
  b.foldl (fun s a => s + a.getBalance) 0

/-- The method `Bank::accountsList`. -/
def Bank.accountsList (b : Bank) : List Account := Bank.toVector b

/-! ## The mini statement -/

/-- The pieces `showMiniStatement` writes to `cout`: the notice "No transactions
yet.", the header with the number of records shown, one line per record
(`h[i].toString()`), and the closing rule. -/
inductive MiniOutput where
  | noTransactions
  | header (shown : Int)
  | record (t : Transaction)
  | footer
  deriving DecidableEq, Repr

/-- The function `showMiniStatement(a, n)`: its output. The account is read through
`getHistory()`, which returns a copy, and is not written. The loop
`for (i = start; i < sz; ++i)` visits the `sz - start` indices from `start` on. For
`n ≥ 0` the `int` subtraction `sz - n` stays in range. -/
def showMiniStatement (a : Account) (n : Int) : List MiniOutput :=
  let h := a.getHistory
  let sz : Int := h.length
  let start : Int := max 0 (sz - n)
  if sz = 0 then [MiniOutput.noTransactions]
  else
    [MiniOutput.header (sz - start)]
      ++ (List.range' start.toNat (sz - start).toNat).filterMap
          (fun i => (h[i]?).map MiniOutput.record)
      ++ [MiniOutput.footer]

/-! ## Authentication -/

/-- The loop of `authenticateAccount` from the state `attempts`; `pins` are the
values `askPinInput` will return. The result is the returned flag, the account
afterwards and the unread input. -/
def authLoop (a : Account) : Nat → List Int → Option (Bool × Account × List Int)
  | attempts, pins =>
    if attempts < 3 then
      match pins with
      | [] => none
      | p :: rest => if a.checkPin p then some (true, a, rest) else authLoop a (attempts + 1) rest
    else some (false, a.block, pins)

/-- The function `authenticateAccount` for a live account (no caller passes null). -/
def authenticateAccount (a : Account) (pins : List Int) : Option (Bool × Account × List Int) :=
  if a.isBlocked then some (false, a, pins) else authLoop a 0 pins

/-! ## The menus -/

/-- The program state: the store and the static counter `Account::nextAccNo`. -/
structure State where
  bank : Bank
  nextAccNo : Int
  deriving DecidableEq

/-- The state at the start of `main`. -/
def State.init : State := { bank := [], nextAccNo := 200001 }

/-- What one pass of the ATM menu may read after the choice: the PINs typed at the
authentication prompt and the values of the later prompts. -/
structure ATMInput where
  pins : List Int
  amt : F32
  r : Int
  np : Int
  confirm : String

/-- Lines 309-319 of `userATMMenu`: the transfer after authentication, with `a` the
logged-in account, `r` the receiver number and `amt` the amount read. -/
def transferFunds (b : Bank) (a : Ptr) (r : Int) (amt : F32) : Option Bank :=
  match Bank.search b r with
  | none => some b
  | some recv =>
    match Bank.deref b a with
    | none => none
    | some acc =>
      if amt > 0 ∧ (acc.callWithdraw amt).1 = true then
        let b1 := Bank.update b a (fun x => (x.callWithdraw amt).2)
        let b2 := Bank.update b1 recv (fun x => x.callDeposit amt)
        let b3 := Bank.update b2 a (fun x =>
          x.addHistory ("- " ++ to_string_float amt ++ " Transfer to " ++ to_string_ll r))
        let b4 := Bank.update b3 recv (fun x =>
          x.addHistory ("+ " ++ to_string_float amt ++ " Transfer from "
            ++ to_string_ll acc.getAccNo))
        some b4
      else some b

/-- The branches of one pass of `userATMMenu` after `authenticateAccount(a)` has
returned true, for a choice `ch` from 1 to 7. -/
def userATMMenuChoice (s : State) (a : Ptr) (ch : Int) (inp : ATMInput) : Option (State × Bool) :=
  if ch = 1 then some (s, true)
  else if ch = 2 then
    if inp.amt > 0 then
      some ({ s with bank := Bank.update s.bank a (fun x => x.callDeposit inp.amt) }, true)
    else some (s, true)
  else if ch = 3 then
    if inp.amt > 0 then
      some ({ s with bank := Bank.update s.bank a (fun x => (x.callWithdraw inp.amt).2) }, true)
    else some (s, true)
  else if ch = 4 then some (s, true)
  else if ch = 5 then
    match transferFunds s.bank a inp.r inp.amt with
    | none => none
    | some b => some ({ s with bank := b }, true)
  else if ch = 6 then
    some ({ s with bank := Bank.update s.bank a (fun x => x.changePin inp.np) }, true)
  else
    if inp.confirm = "YES" then
      match Bank.deref s.bank a with
      | none => none
      | some acc =>
        let d := Bank.deleteAccount s.bank acc.getAccNo
        if d.1 then some ({ s with bank := d.2 }, false) else some (s, true)
    else some (s, true)

/-- One pass of the loop of `userATMMenu(bank, a)` with choice `ch`. The result is
the state afterwards and whether the loop goes on; `none` when the pass never
returns (input exhausted) or `a` is not a live pointer. Choice 8 logs out, a
choice outside 1..8 is refused, every other choice starts with
`authenticateAccount(a)`, whose effect on the account is written back. -/
def userATMMenuStep (s : State) (a : Ptr) (ch : Int) (inp : ATMInput) : Option (State × Bool) :=
  if ch = 8 then some (s, false)
  else if ch < 1 ∨ ch > 8 then some (s, true)
  else
    match Bank.deref s.bank a with
    | none => none
    | some acc =>
      match authenticateAccount acc inp.pins with
      | none => none
      | some (ok, acc1, _) =>
        let s1 : State := { s with bank := Bank.update s.bank a (fun _ => acc1) }
        if ok then userATMMenuChoice s1 a ch inp else some (s1, true)

/-- What one pass of the admin menu may read after the choice. -/
structure AdminInput where
  acc : Int
  e : Int
  nm : String
  np : Int

/-- The credential check at the top of `adminMenu`. -/
def adminLogin (u p : String) : Bool := !(u != "admin" || p != "admin123")

/-- One pass of the loop of `adminMenu` with choice `ch`. -/
def adminMenuStep (s : State) (ch : Int) (inp : AdminInput) : State :=
  if ch = 3 then { s with bank := (Bank.deleteAccount s.bank inp.acc).2 }
  else if ch = 4 then
    match Bank.search s.bank inp.acc with
    | none => s
    | some a =>
      if inp.e = 1 then
        match Bank.deref s.bank a with
        | none => s
        | some acc =>
          let r := acc.initNew inp.nm 0 s.nextAccNo
          { bank := Bank.update s.bank a (fun _ => r.1), nextAccNo := r.2 }
      else if inp.e = 2 then
        { s with bank := Bank.update s.bank a (fun x => x.changePin inp.np) }
      else s
  else if ch = 6 then { s with bank := Bank.sortByName s.bank }
  else if ch = 7 then { s with bank := Bank.sortByBalanceDesc s.bank }
  else if ch = 8 then { s with bank := Bank.sortByAccNo s.bank }
  else s

/-- The PIN loop of account creation in `main`: the first value read that has four digits. -/
def readNewPin : List Int → Option Int
  | [] => none
  | p :: rest => if p ≥ 1000 ∧ p ≤ 9999 then some p else readNewPin rest

/-- Choices 1 and 2 of `main`: a new account of kind `k` is initialised and added. -/
def createAccount (s : State) (k : Kind) (name : String) (pins : List Int) : Option State :=
  match readNewPin pins with
  | none => none
  | some p =>
    let r := (Account.new k).initNew name p s.nextAccNo
    some { bank := Bank.addAccount s.bank r.1, nextAccNo := r.2 }

/-- The steps of the program between two prompts of a menu. A login to the ATM
(`bank.search(acc)`) is taken together with one pass of the ATM menu: no pass
changes an account number or the order of the list, so the pointer of the
session is the one `search` finds again. -/
inductive Action where
  | create (k : Kind) (name : String) (pins : List Int)
  | atm (acc : Int) (ch : Int) (inp : ATMInput)
  | admin (u p : String) (ch : Int) (inp : AdminInput)
  | display

/-- The effect of one action; `none` when the program never gets past it. -/
def step (s : State) : Action → Option State
  | Action.create k name pins => createAccount s k name pins
  | Action.atm acc ch inp =>
    match Bank.search s.bank acc with
    | none => some s
    | some a => (userATMMenuStep s a ch inp).map Prod.fst
  | Action.admin u p ch inp => if adminLogin u p then some (adminMenuStep s ch inp) else some s
  | Action.display => some s

/-- The states the program can be in. -/
inductive Reachable : State → Prop where
  | init : Reachable State.init
  | step {s s2 : State} (act : Action) : Reachable s → step s act = some s2 → Reachable s2

/-- The states the program can get to from `s`. -/
inductive ReachableFrom (s : State) : State → Prop where
  | refl : ReachableFrom s s
  | step {s1 s2 : State} (act : Action) :
      ReachableFrom s s1 → step s1 act = some s2 → ReachableFrom s s2

/-- The numbering invariant of the store: every account number is below the
counter and no two accounts have the same number. -/
def State.WellNumbered (s : State) : Prop :=
  (∀ n ∈ s.bank.map Account.accNo, n < s.nextAccNo) ∧ (s.bank.map Account.accNo).Nodup

/-- How the numbering of a later state `s2` relates to that of `s`: `s2` is well
numbered, the counter has not gone down, and every number in the store of `s2`
is one of the store of `s` or was handed out by the counter since. -/
def State.Extends (s s2 : State) : Prop :=
  s2.WellNumbered ∧ s.nextAccNo ≤ s2.nextAccNo ∧
  ∀ n ∈ s2.bank.map Account.accNo, n ∈ s.bank.map Account.accNo ∨ s.nextAccNo ≤ n

/-- The two steps that reach an account without passing its own authentication:
a transfer started from another account that names `id` as the receiver, and
choice 4 of the admin menu (edit customer details) for `id`. -/
def Action.creditsOrEdits (act : Action) (id : Int) : Prop :=
  match act with
  | Action.atm acc ch inp => ch = 5 ∧ inp.r = id ∧ acc ≠ id
  | Action.admin _ _ ch inp => ch = 4 ∧ inp.acc = id
  | _ => False

/-- A relation between an account object before and after that every mutation the
menus apply through a pointer respects: deposits and withdrawals of a positive
amount, `addHistory`, `changePin` and `block`. -/
structure MutatorClosed (R : Account → Account → Prop) : Prop where
  refl : ∀ x, R x x
  trans : ∀ x y z, R x y → R y z → R x z
  deposit : ∀ x amt, 0 < amt → R x (x.callDeposit amt)
  withdraw : ∀ x amt, 0 < amt → R x (x.callWithdraw amt).2
  addHistory : ∀ x d, R x (x.addHistory d)
  changePin : ∀ x np, R x (x.changePin np)
  block : ∀ x, R x x.block

/-- Whether the step is the admin's "Edit Name" for the account numbered `n` of the
store: the one step that gives an existing account object another number. -/
def renumbers (s : State) (act : Action) (n : Int) : Bool :=
  match act with
  | Action.admin u p ch inp =>
    adminLogin u p && decide (ch = 4) && decide (inp.e = 1) && decide (inp.acc = n)
      && (Bank.search s.bank n).isSome
  | _ => false

/-- The number under which the account object numbered `n` in `s` is found after
the step: the value of the counter when the step re-initialises it, `n` otherwise. -/
def numberAfter (s : State) (act : Action) (n : Int) : Int :=
  if renumbers s act n then s.nextAccNo else n

/-- The number under which the account object numbered `n` in `s` is found after a
run of steps. -/
def numberAfterRun : State → List Action → Int → Option Int
  | _, [], n => some n
  | s, act :: rest, n =>
    match step s act with
    | none => none
    | some s1 => numberAfterRun s1 rest (numberAfter s act n)

/-- Running a list of actions from a state. -/
def run (s : State) : List Action → Option State
  | [] => some s
  | act :: rest =>
    match step s act with
    | none => none
    | some s1 => run s1 rest

/-! ## Concrete accounts and stores used as witnesses -/

/-- The actions that open three accounts and pay into each of them. -/
def exActions : List Action :=
  [ Action.create Kind.Current "Asha" [1234],
    Action.create Kind.Savings "Ravi" [5678],
    Action.create Kind.Current "Meera" [4321],
    Action.atm 200001 2 { pins := [1234], amt := 5000, r := 0, np := 0, confirm := "" },
    Action.atm 200002 2 { pins := [5678], amt := 2500, r := 0, np := 0, confirm := "" },
    Action.atm 200003 2 { pins := [4321], amt := 2000, r := 0, np := 0, confirm := "" } ]

/-- A Current account holding 5000. -/
def exCurrent : Account :=
  { kind := Kind.Current, name := "Asha", accNo := 200001, balance := 5000, pin := 1234,
    blocked := false, history := [⟨"+ 5000.000000 Deposit"⟩] }

/-- A Savings account holding 2550: a deposit of 2500 and its interest of 50. -/
def exSavings : Account :=
  { kind := Kind.Savings, name := "Ravi", accNo := 200002, balance := 2550, pin := 5678,
    blocked := false, history := [⟨"+ 2500.000000 Deposit (interest 50.000000)"⟩] }

/-- A second Current account, holding 2000. -/
def exCurrent2 : Account :=
  { kind := Kind.Current, name := "Meera", accNo := 200003, balance := 2000, pin := 4321,
    blocked := false, history := [⟨"+ 2000.000000 Deposit"⟩] }

/-- The store after `exActions`, newest account first. -/
def exBank : Bank := [exCurrent2, exSavings, exCurrent]

/-- The state after `exActions`. -/
def exState : State := { bank := exBank, nextAccNo := 200004 }

/-- The account `exSavings` after three wrong PINs. -/
def exBlocked : Account := { exSavings with blocked := true }

/-- The store `exBank` with the Savings account blocked. -/
def exBankBlocked : Bank := [exCurrent2, exBlocked, exCurrent]

/-- The state in which the Savings account is blocked. -/
def exStateBlocked : State := { bank := exBankBlocked, nextAccNo := 200004 }

/-- The actions of `exActions` followed by three wrong PINs at the ATM of 200002. -/
def exActionsBlocked : List Action :=
  exActions ++
    [Action.atm 200002 1 { pins := [1111, 2222, 3333], amt := 0, r := 0, np := 0, confirm := "" }]

/-- Two accounts opened under the same name, neither paid into. -/
def exTieActions : List Action :=
  [ Action.create Kind.Savings "Kiran" [1111], Action.create Kind.Current "Kiran" [2222] ]

/-- The state after `exTieActions`: equal names and equal balances. -/
def exTieState : State :=
  { bank :=
      [ { kind := Kind.Current, name := "Kiran", accNo := 200002, balance := 0, pin := 2222,
          blocked := false, history := [] },
        { kind := Kind.Savings, name := "Kiran", accNo := 200001, balance := 0, pin := 1111,
          blocked := false, history := [] } ],
    nextAccNo := 200003 }

/-- The admin's "Edit Name" for the blocked account 200002. -/
def exRename : Action :=
  Action.admin "admin" "admin123" 4 { acc := 200002, e := 1, nm := "Ravi K", np := 0 }

/-- The state after `exRename` in `exStateBlocked`: the blocked account has the
number 200004, PIN 0, balance 0, and is still blocked. -/
def exStateRenamed : State :=
  { bank := [exCurrent2,
      { kind := Kind.Savings, name := "Ravi K", accNo := 200004, balance := 0, pin := 0,
        blocked := true, history := [] },
      exCurrent],
    nextAccNo := 200005 }

/-- A Current account holding exactly the floor of 1000. -/
def exFloor : Account :=
  { kind := Kind.Current, name := "Asha", accNo := 200001, balance := 1000, pin := 1234,
    blocked := false, history := [⟨"+ 1000.000000 Deposit"⟩] }

/-- The amount `2 ^ -17`, a binary32 number; in decimals 0.00000762939453125. -/
def exTiny : F32 := F32.ofRat (1 / 131072)

/-- The actions that open a Current account, pay in 1000 and ask for `2 ^ -17`. -/
def exFloorActions : List Action :=
  [ Action.create Kind.Current "Asha" [1234],
    Action.atm 200001 2 { pins := [1234], amt := 1000, r := 0, np := 0, confirm := "" },
    Action.atm 200001 3 { pins := [1234], amt := exTiny, r := 0, np := 0, confirm := "" } ]

/-- A Savings account holding 102000000: a deposit of 100000000 and its interest. -/
def exRich : Account :=
  { kind := Kind.Savings, name := "Ravi", accNo := 200001, balance := 102000000, pin := 5678,
    blocked := false,
    history := [⟨"+ 100000000.000000 Deposit (interest 2000000.000000)"⟩] }

/-- The actions that open a Savings account, pay in 100000000 and ask for 1. -/
def exRichActions : List Action :=
  [ Action.create Kind.Savings "Ravi" [5678],
    Action.atm 200001 2 { pins := [5678], amt := 100000000, r := 0, np := 0, confirm := "" },
    Action.atm 200001 3 { pins := [5678], amt := 1, r := 0, np := 0, confirm := "" } ]

/-- The actions that open two Current accounts, pay 100000000 into the first and
2000 into the second, and send 1 from the first to the second. -/
def exLargeActions : List Action :=
  [ Action.create Kind.Current "Asha" [1234],
    Action.create Kind.Current "Meera" [4321],
    Action.atm 200001 2 { pins := [1234], amt := 100000000, r := 0, np := 0, confirm := "" },
    Action.atm 200002 2 { pins := [4321], amt := 2000, r := 0, np := 0, confirm := "" },
    Action.atm 200001 5 { pins := [1234], amt := 1, r := 200002, np := 0, confirm := "" } ]

/-- A freshly opened Savings account. -/
def exFresh : Account := ((Account.new Kind.Savings).initNew "Ravi" 5678 200001).1

/-- A Current account holding 20000000. -/
def exTwentyMillion : Account :=
  { kind := Kind.Current, name := "Asha", accNo := 200001, balance := 20000000, pin := 1234,
    blocked := false, history := [⟨"+ 20000000.000000 Deposit"⟩] }

/-! ## Binary32 arithmetic: rounding, order and exact results -/

/-! ## Rounding to binary32 -/

theorem pow2_eq (k : Int) : pow2 k = (2 : ℚ) ^ k := by
  unfold pow2
  by_cases h : 0 ≤ k
  · rw [if_pos h]
    obtain ⟨n, rfl⟩ := Int.eq_ofNat_of_zero_le h
    simp
  · rw [if_neg h]
    obtain ⟨n, hn⟩ := Int.eq_ofNat_of_zero_le (show 0 ≤ -k by omega)
    have hk : k = -(n : Int) := by omega
    rw [hn, hk]
    simp

theorem lt_pow_cross (p : Int) (d n : Nat) (hd : 0 < d) :
    p < (d : Int) * ((2 ^ n : Nat) : Int) ↔ (p : ℚ) / (d : ℚ) < (2 : ℚ) ^ n := by
  have hden : (0 : ℚ) < (d : ℚ) := by exact_mod_cast hd
  rw [div_lt_iff₀ hden]
  constructor
  · intro h1
    have : ((p : Int) : ℚ) < (((d : Int) * ((2 ^ n : Nat) : Int) : Int) : ℚ) := by
      exact_mod_cast h1
    push_cast at this
    linarith
  · intro h1
    have : ((p : Int) : ℚ) < (((d : Int) * ((2 ^ n : Nat) : Int) : Int) : ℚ) := by
      push_cast
      linarith
    exact_mod_cast this

theorem lt_inv_pow_cross (p : Int) (d n : Nat) (hd : 0 < d) :
    p * ((2 ^ n : Nat) : Int) < (d : Int) ↔ (p : ℚ) / (d : ℚ) < ((2 : ℚ) ^ n)⁻¹ := by
  have hden : (0 : ℚ) < (d : ℚ) := by exact_mod_cast hd
  have hp : (0 : ℚ) < (2 : ℚ) ^ n := by positivity
  rw [div_lt_iff₀ hden, ← div_eq_inv_mul, lt_div_iff₀ hp]
  constructor
  · intro h1
    have : (((p * ((2 ^ n : Nat) : Int) : Int)) : ℚ) < (((d : Int) : Int) : ℚ) := by
      exact_mod_cast h1
    push_cast at this
    linarith
  · intro h1
    have : (((p * ((2 ^ n : Nat) : Int) : Int)) : ℚ) < (((d : Int) : Int) : ℚ) := by
      push_cast
      linarith
    exact_mod_cast this

theorem ltPow2_iff (a : ℚ) (e : Int) : ltPow2 a e = true ↔ a < (2 : ℚ) ^ e := by
  unfold ltPow2
  by_cases h : 0 ≤ e
  · rw [if_pos h, decide_eq_true_eq]
    obtain ⟨n, rfl⟩ := Int.eq_ofNat_of_zero_le h
    rw [Int.toNat_ofNat, zpow_natCast, lt_pow_cross a.num a.den n a.den_pos, Rat.num_div_den]
  · rw [if_neg h, decide_eq_true_eq]
    obtain ⟨n, hn⟩ := Int.eq_ofNat_of_zero_le (show 0 ≤ -e by omega)
    have he : e = -(n : Int) := by omega
    rw [hn, he, Int.toNat_ofNat, zpow_neg, zpow_natCast,
      lt_inv_pow_cross a.num a.den n a.den_pos, Rat.num_div_den]

theorem roundQ_eq (q : ℚ) :
    roundQ q = (roundEven (q / (2 : ℚ) ^ ulpExp q) : ℚ) * (2 : ℚ) ^ ulpExp q := by
  unfold roundQ
  simp only [pow2_eq]

theorem ulpFrom_spec (a : ℚ) (fuel : Nat) (k0 : Int) :
    k0 ≤ ulpFrom a fuel k0 ∧ ulpFrom a fuel k0 ≤ k0 + fuel ∧
    (ulpFrom a fuel k0 = k0 ∨ (2 : ℚ) ^ (ulpFrom a fuel k0 + 23) ≤ a) ∧
    (a < (2 : ℚ) ^ (ulpFrom a fuel k0 + 24) ∨ ulpFrom a fuel k0 = k0 + fuel) := by
  induction fuel generalizing k0 with
  | zero => simp [ulpFrom]
  | succ n ih =>
    unfold ulpFrom
    simp only [ltPow2_iff]
    by_cases h : a < (2 : ℚ) ^ (k0 + 24)
    · rw [if_pos h]
      refine ⟨le_refl _, ?_, Or.inl rfl, Or.inl h⟩
      push_cast
      omega
    · rw [if_neg h]
      obtain ⟨h1, h2, h3, h4⟩ := ih (k0 + 1)
      refine ⟨by omega, by push_cast; omega, Or.inr ?_, ?_⟩
      · rcases h3 with h3 | h3
        · rw [h3]
          have : k0 + 1 + 23 = k0 + 24 := by ring
          rw [this]
          exact not_lt.mp h
        · exact h3
      · rcases h4 with h4 | h4
        · exact Or.inl h4
        · exact Or.inr (by rw [h4]; push_cast; ring)

/-- The exponent of the spacing: between `-149` and `105`; above `-149` only when
`|q|` has reached `2 ^ (k + 23)`; and `|q|` is below `2 ^ (k + 24)` unless the
search has run out at `105`. -/
theorem ulpExp_spec (q : ℚ) :
    -149 ≤ ulpExp q ∧ ulpExp q ≤ 105 ∧
    (ulpExp q = -149 ∨ (2 : ℚ) ^ (ulpExp q + 23) ≤ |q|) ∧
    (|q| < (2 : ℚ) ^ (ulpExp q + 24) ∨ ulpExp q = 105) := by
  unfold ulpExp
  by_cases hs : ltPow2 |q| 0 = true
  · rw [if_pos hs]
    obtain ⟨h1, h2, h3, h4⟩ := ulpFrom_spec |q| 254 (-149)
    refine ⟨h1, by simpa using h2, h3, ?_⟩
    rcases h4 with h4 | h4
    · exact Or.inl h4
    · exact Or.inr (by rw [h4]; norm_num)
  · rw [if_neg hs]
    rw [ltPow2_iff] at hs
    have hone : (1 : ℚ) ≤ |q| := by simpa using hs
    obtain ⟨h1, h2, h3, h4⟩ := ulpFrom_spec |q| 128 (-23)
    refine ⟨by omega, by simpa using h2, Or.inr ?_, ?_⟩
    · rcases h3 with h3 | h3
      · rw [h3]
        simpa using hone
      · exact h3
    · rcases h4 with h4 | h4
      · exact Or.inl h4
      · exact Or.inr (by rw [h4]; norm_num)

/-- The exponent found is the least one that fits. -/
theorem ulpExp_le (q : ℚ) (j : Int) (hj : -149 ≤ j) (h : |q| < (2 : ℚ) ^ (j + 24)) :
    ulpExp q ≤ j := by
  obtain ⟨_, _, h3, _⟩ := ulpExp_spec q
  rcases h3 with h3 | h3
  · omega
  · have hlt : (2 : ℚ) ^ (ulpExp q + 23) < (2 : ℚ) ^ (j + 24) := lt_of_le_of_lt h3 h
    have := (zpow_lt_zpow_iff_right₀ (by norm_num : (1 : ℚ) < 2)).mp hlt
    omega

theorem ratFloor_eq (t : ℚ) : Rat.floor t = ⌊t⌋ := rfl

theorem roundEven_int (n : Int) : roundEven (n : ℚ) = n := by
  simp [roundEven, ratFloor_eq]

theorem roundEven_ge_floor (t : ℚ) : ⌊t⌋ ≤ roundEven t := by
  unfold roundEven
  simp only [ratFloor_eq]
  split_ifs <;> omega

theorem roundEven_le_floor_succ (t : ℚ) : roundEven t ≤ ⌊t⌋ + 1 := by
  unfold roundEven
  simp only [ratFloor_eq]
  split_ifs <;> omega

theorem roundEven_ge (t : ℚ) (n : Int) (h : (n : ℚ) ≤ t) : n ≤ roundEven t :=
  le_trans (Int.le_floor.mpr h) (roundEven_ge_floor t)

theorem roundEven_le (t : ℚ) (n : Int) (h : t ≤ (n : ℚ)) : roundEven t ≤ n := by
  rcases eq_or_lt_of_le h with h | h
  · rw [h, roundEven_int]
  · have h1 : ⌊t⌋ < n := Int.floor_lt.mpr h
    have := roundEven_le_floor_succ t
    omega

/-- Rounding to the nearest integer is monotone. -/
theorem roundEven_mono (s t : ℚ) (h : s ≤ t) : roundEven s ≤ roundEven t := by
  have hf : ⌊s⌋ ≤ ⌊t⌋ := Int.floor_mono h
  rcases eq_or_lt_of_le hf with hf | hf
  · unfold roundEven
    simp only [ratFloor_eq]
    have hst : s - ⌊s⌋ ≤ t - ⌊t⌋ := by rw [hf]; linarith
    rw [hf]
    split_ifs <;> first | omega | linarith
  · have h1 := roundEven_le_floor_succ s
    have h2 := roundEven_ge_floor t
    omega

theorem two_zpow_pos (k : Int) : (0 : ℚ) < (2 : ℚ) ^ k := zpow_pos (by norm_num) k

theorem two_zpow_le (j k : Int) (h : j ≤ k) : (2 : ℚ) ^ j ≤ (2 : ℚ) ^ k :=
  zpow_le_zpow_right₀ (by norm_num) h

/-- A multiple of `2 ^ j` with `j` at or above the exponent of its own spacing is
left alone by the rounding. -/
theorem roundQ_of_grid (n j : Int) (h : ulpExp ((n : ℚ) * (2 : ℚ) ^ j) ≤ j) :
    roundQ ((n : ℚ) * (2 : ℚ) ^ j) = (n : ℚ) * (2 : ℚ) ^ j := by
  obtain ⟨m, hm⟩ := Int.eq_ofNat_of_zero_le (sub_nonneg.mpr h)
  unfold roundQ
  simp only [pow2_eq]
  generalize ulpExp ((n : ℚ) * (2 : ℚ) ^ j) = k at hm ⊢
  have hj : j = k + m := by omega
  subst hj
  have hk := two_zpow_pos k
  have hq : (n : ℚ) * (2 : ℚ) ^ (k + (m : Int)) / (2 : ℚ) ^ k = ((n * 2 ^ m : Int) : ℚ) := by
    rw [div_eq_iff (ne_of_gt hk), zpow_add₀ (by norm_num : (2 : ℚ) ≠ 0), zpow_natCast]
    push_cast
    ring
  rw [hq, roundEven_int, zpow_add₀ (by norm_num : (2 : ℚ) ≠ 0), zpow_natCast]
  push_cast
  ring

theorem roundQ_nonneg (q : ℚ) (h : 0 ≤ q) : 0 ≤ roundQ q := by
  unfold roundQ
  simp only [pow2_eq]
  have hk := two_zpow_pos (ulpExp q)
  have : (0 : Int) ≤ roundEven (q / (2 : ℚ) ^ ulpExp q) :=
    roundEven_ge _ 0 (by simpa using div_nonneg h (le_of_lt hk))
  have h2 : (0 : ℚ) ≤ (roundEven (q / (2 : ℚ) ^ ulpExp q) : ℚ) := by exact_mod_cast this
  exact mul_nonneg h2 (le_of_lt hk)

theorem roundQ_nonpos (q : ℚ) (h : q ≤ 0) : roundQ q ≤ 0 := by
  unfold roundQ
  simp only [pow2_eq]
  have hk := two_zpow_pos (ulpExp q)
  have : roundEven (q / (2 : ℚ) ^ ulpExp q) ≤ (0 : Int) :=
    roundEven_le _ 0 (by simpa using div_nonpos_of_nonpos_of_nonneg h (le_of_lt hk))
  have h2 : (roundEven (q / (2 : ℚ) ^ ulpExp q) : ℚ) ≤ 0 := by exact_mod_cast this
  exact mul_nonpos_of_nonpos_of_nonneg h2 (le_of_lt hk)

/-- The rounded value stays within the binade bound of the value. -/
theorem roundQ_abs_le (q : ℚ) (j : Int) (hk : ulpExp q ≤ j)
    (h : |q| ≤ (2 : ℚ) ^ (j + 24)) : |roundQ q| ≤ (2 : ℚ) ^ (j + 24) := by
  have hp := two_zpow_pos (ulpExp q)
  obtain ⟨m, hm⟩ := Int.eq_ofNat_of_zero_le (sub_nonneg.mpr hk)
  have hj : j + 24 = ulpExp q + (m + 24 : Nat) := by push_cast; omega
  have hsplit : (2 : ℚ) ^ (j + 24) = ((2 ^ (m + 24) : Int) : ℚ) * (2 : ℚ) ^ ulpExp q := by
    rw [hj, zpow_add₀ (by norm_num : (2 : ℚ) ≠ 0), zpow_natCast]
    push_cast
    ring
  rw [abs_le] at h ⊢
  rw [hsplit] at h ⊢
  unfold roundQ
  simp only [pow2_eq]
  constructor
  · have h1 : ((-(2 ^ (m + 24)) : Int) : ℚ) ≤ q / (2 : ℚ) ^ ulpExp q := by
      rw [le_div_iff₀ hp]
      push_cast
      push_cast at h
      linarith [h.1]
    have h2 := roundEven_ge _ _ h1
    have h3 : ((-(2 ^ (m + 24)) : Int) : ℚ) ≤ (roundEven (q / (2 : ℚ) ^ ulpExp q) : ℚ) := by
      exact_mod_cast h2
    have := mul_le_mul_of_nonneg_right h3 (le_of_lt hp)
    push_cast at this ⊢
    linarith
  · have h1 : q / (2 : ℚ) ^ ulpExp q ≤ ((2 ^ (m + 24) : Int) : ℚ) := by
      rw [div_le_iff₀ hp]
      exact h.2
    have h2 := roundEven_le _ _ h1
    have h3 : (roundEven (q / (2 : ℚ) ^ ulpExp q) : ℚ) ≤ ((2 ^ (m + 24) : Int) : ℚ) := by
      exact_mod_cast h2
    exact mul_le_mul_of_nonneg_right h3 (le_of_lt hp)

/-- Rounding a rounded value changes nothing. -/
theorem roundQ_idem (q : ℚ) : roundQ (roundQ q) = roundQ q := by
  obtain ⟨h1, h2, _, h4⟩ := ulpExp_spec q
  have hr : roundQ q = (roundEven (q / (2 : ℚ) ^ ulpExp q) : ℚ) * (2 : ℚ) ^ ulpExp q := by
    unfold roundQ
    simp only [pow2_eq]
  rcases h4 with h4 | h4
  · have hle := roundQ_abs_le q (ulpExp q) (le_refl _) (le_of_lt h4)
    rcases eq_or_lt_of_le hle with he | hlt
    · have hcases : roundQ q = (2 : ℚ) ^ (ulpExp q + 24) ∨ roundQ q = -(2 : ℚ) ^ (ulpExp q + 24) :=
        (abs_eq (le_of_lt (two_zpow_pos _))).mp he
      have hsplit : (2 : ℚ) ^ (ulpExp q + 24) = ((2 ^ 23 : Int) : ℚ) * (2 : ℚ) ^ (ulpExp q + 1) := by
        have : ulpExp q + 24 = (23 : Nat) + (ulpExp q + 1) := by push_cast; ring
        rw [this, zpow_add₀ (by norm_num : (2 : ℚ) ≠ 0), zpow_natCast]
        push_cast
        ring
      have hfit : |roundQ q| < (2 : ℚ) ^ (ulpExp q + 1 + 24) := by
        rw [he]
        exact (zpow_lt_zpow_iff_right₀ (by norm_num : (1 : ℚ) < 2)).mpr (by omega)
      have hu : ulpExp (roundQ q) ≤ ulpExp q + 1 := ulpExp_le _ _ (by omega) hfit
      rcases hcases with hc | hc
      · have e : roundQ q = ((2 ^ 23 : Int) : ℚ) * (2 : ℚ) ^ (ulpExp q + 1) := by
          rw [hc, hsplit]
        rw [e] at hu ⊢
        exact roundQ_of_grid _ _ hu
      · have e : roundQ q = ((-(2 ^ 23) : Int) : ℚ) * (2 : ℚ) ^ (ulpExp q + 1) := by
          rw [hc, hsplit]
          push_cast
          ring
        rw [e] at hu ⊢
        exact roundQ_of_grid _ _ hu
    · have hu : ulpExp (roundQ q) ≤ ulpExp q := ulpExp_le _ _ h1 hlt
      rw [hr] at hu ⊢
      exact roundQ_of_grid _ _ hu
  · have hu : ulpExp (roundQ q) ≤ ulpExp q := by
      rw [h4]
      exact (ulpExp_spec (roundQ q)).2.1
    rw [hr] at hu ⊢
    exact roundQ_of_grid _ _ hu

/-- The result of `ofRat`: an infinity on overflow, the rounded value otherwise. -/
theorem ofRat_val (q : ℚ) :
    (F32.ofRat q).val =
      if (2 : ℚ) ^ (128 : Nat) ≤ roundQ q then F32Val.pinf
      else if roundQ q ≤ -(2 : ℚ) ^ (128 : Nat) then F32Val.ninf
      else F32Val.fin (roundQ q) := by
  unfold F32.ofRat
  by_cases h1 : (2 : ℚ) ^ (128 : Nat) ≤ roundQ q
  · simp [h1, F32.pinf]
  · by_cases h2 : roundQ q ≤ -(2 : ℚ) ^ (128 : Nat)
    · simp [h1, h2, F32.ninf]
    · have hwf : (F32Val.fin (roundQ q)).wf = true := by
        simp only [F32Val.wf, decide_eq_true_eq]
        refine ⟨roundQ_idem q, ?_⟩
        rw [abs_lt]
        exact ⟨by linarith [not_le.mp h2], not_le.mp h1⟩
      simp [h1, h2, hwf]

/-- A value of the grid below the threshold is its own rounding: the operation
whose exact result it is gives exactly it. -/
theorem ofRat_exact (q : ℚ) (h : (F32Val.fin q).wf = true) :
    (F32.ofRat q).val = F32Val.fin q := by
  simp only [F32Val.wf, decide_eq_true_eq] at h
  rw [ofRat_val, h.1]
  have hb := abs_lt.mp h.2
  rw [if_neg (not_le.mpr hb.2), if_neg (not_le.mpr (by linarith [hb.1]))]

/-- Every value of the grid is a whole multiple of `2 ^ -149`. -/
theorem grid_of_round (a : ℚ) (h : roundQ a = a) : ∃ n : Int, a = (n : ℚ) * (2 : ℚ) ^ (-149 : Int) := by
  obtain ⟨h1, _, _, _⟩ := ulpExp_spec a
  obtain ⟨m, hm⟩ := Int.eq_ofNat_of_zero_le (sub_nonneg.mpr h1)
  refine ⟨roundEven (a / (2 : ℚ) ^ ulpExp a) * 2 ^ m, ?_⟩
  have hk : ulpExp a = (m : Int) + (-149) := by omega
  nth_rewrite 1 [← h]
  unfold roundQ
  simp only [pow2_eq]
  rw [hk, zpow_add₀ (by norm_num : (2 : ℚ) ≠ 0), zpow_natCast]
  push_cast
  ring

/-- A positive multiple of `2 ^ -149` does not round to zero. -/
theorem roundQ_pos_of_grid (d : ℚ) (n : Int) (hd : 0 < d)
    (hn : d = (n : ℚ) * (2 : ℚ) ^ (-149 : Int)) : 0 < roundQ d := by
  obtain ⟨_, _, h3, _⟩ := ulpExp_spec d
  have hp := two_zpow_pos (ulpExp d)
  have hone : (1 : Int) ≤ roundEven (d / (2 : ℚ) ^ ulpExp d) := by
    apply roundEven_ge
    rw [le_div_iff₀ hp]
    rcases h3 with h3 | h3
    · rw [h3, hn]
      have hn1 : (1 : ℚ) ≤ (n : ℚ) := by
        have : 0 < (n : ℚ) := by
          have h149 := two_zpow_pos (-149)
          rw [hn] at hd
          exact (mul_pos_iff_of_pos_right h149).mp hd
        have : 0 < n := by exact_mod_cast this
        exact_mod_cast (show (1 : Int) ≤ n by omega)
      have h149 := two_zpow_pos (-149)
      push_cast
      nlinarith
    · rw [abs_of_pos hd] at h3
      have : (2 : ℚ) ^ ulpExp d ≤ (2 : ℚ) ^ (ulpExp d + 23) := two_zpow_le _ _ (by omega)
      push_cast
      linarith
  unfold roundQ
  simp only [pow2_eq]
  have h2 : (1 : ℚ) ≤ (roundEven (d / (2 : ℚ) ^ ulpExp d) : ℚ) := by exact_mod_cast hone
  nlinarith

/-- The difference of two values of the grid, the first the larger, does not round
to zero. -/
theorem roundQ_sub_pos (a b : ℚ) (ha : roundQ a = a) (hb : roundQ b = b) (h : b < a) :
    0 < roundQ (a - b) := by
  obtain ⟨n, hn⟩ := grid_of_round a ha
  obtain ⟨m, hm⟩ := grid_of_round b hb
  refine roundQ_pos_of_grid (a - b) (n - m) (by linarith) ?_
  rw [hn, hm]
  push_cast
  ring

theorem ulpExp_mono (p q : ℚ) (h : |p| ≤ |q|) : ulpExp p ≤ ulpExp q := by
  obtain ⟨h1, h2, _, h4⟩ := ulpExp_spec q
  rcases h4 with h4 | h4
  · exact ulpExp_le p _ h1 (lt_of_le_of_lt h h4)
  · rw [h4]
    exact (ulpExp_spec p).2.1

/-- Rounding is monotone on the values that are not negative. -/
theorem roundQ_mono (p q : ℚ) (hp : 0 ≤ p) (h : p ≤ q) : roundQ p ≤ roundQ q := by
  have hq : 0 ≤ q := le_trans hp h
  have hk : ulpExp p ≤ ulpExp q := ulpExp_mono p q (by rw [abs_of_nonneg hp, abs_of_nonneg hq]; exact h)
  rcases eq_or_lt_of_le hk with hk | hk
  · unfold roundQ
    simp only [pow2_eq]
    rw [hk]
    have hpos := two_zpow_pos (ulpExp q)
    have : roundEven (p / (2 : ℚ) ^ ulpExp q) ≤ roundEven (q / (2 : ℚ) ^ ulpExp q) :=
      roundEven_mono _ _ (div_le_div_of_nonneg_right h (le_of_lt hpos))
    have h2 : (roundEven (p / (2 : ℚ) ^ ulpExp q) : ℚ) ≤ (roundEven (q / (2 : ℚ) ^ ulpExp q) : ℚ) := by
      exact_mod_cast this
    exact mul_le_mul_of_nonneg_right h2 (le_of_lt hpos)
  · obtain ⟨_, hp2, _, hp4⟩ := ulpExp_spec p
    obtain ⟨hq1, hq2, hq3, _⟩ := ulpExp_spec q
    have hp4' : |p| < (2 : ℚ) ^ (ulpExp p + 24) := by
      rcases hp4 with hp4 | hp4
      · exact hp4
      · omega
    have hq3' : (2 : ℚ) ^ (ulpExp q + 23) ≤ |q| := by
      rcases hq3 with hq3 | hq3
      · omega
      · exact hq3
    have hup : |roundQ p| ≤ (2 : ℚ) ^ (ulpExp p + 24) :=
      roundQ_abs_le p _ (le_refl _) (le_of_lt hp4')
    have hmid : (2 : ℚ) ^ (ulpExp p + 24) ≤ (2 : ℚ) ^ (ulpExp q + 23) := two_zpow_le _ _ (by omega)
    have hlow : (2 : ℚ) ^ (ulpExp q + 23) ≤ roundQ q := by
      rw [abs_of_nonneg hq] at hq3'
      have hpos := two_zpow_pos (ulpExp q)
      have hsplit : (2 : ℚ) ^ (ulpExp q + 23) = ((2 ^ 23 : Int) : ℚ) * (2 : ℚ) ^ ulpExp q := by
        have : ulpExp q + 23 = (23 : Nat) + ulpExp q := by push_cast; ring
        rw [this, zpow_add₀ (by norm_num : (2 : ℚ) ≠ 0), zpow_natCast]
        push_cast
        ring
      rw [hsplit] at hq3' ⊢
      have h1 : ((2 ^ 23 : Int) : ℚ) ≤ q / (2 : ℚ) ^ ulpExp q := by
        rw [le_div_iff₀ hpos]
        exact hq3'
      have h2 := roundEven_ge _ _ h1
      have h3 : ((2 ^ 23 : Int) : ℚ) ≤ (roundEven (q / (2 : ℚ) ^ ulpExp q) : ℚ) := by
        exact_mod_cast h2
      rw [roundQ_eq]
      exact mul_le_mul_of_nonneg_right h3 (le_of_lt hpos)
    have := le_abs_self (roundQ p)
    linarith

theorem roundEven_near (t : ℚ) : |(roundEven t : ℚ) - t| ≤ 1 / 2 := by
  have h1 : ((⌊t⌋ : Int) : ℚ) ≤ t := Int.floor_le t
  have h2 : t < ((⌊t⌋ : Int) : ℚ) + 1 := Int.lt_floor_add_one t
  unfold roundEven
  simp only [ratFloor_eq]
  rw [abs_le]
  split_ifs with c1 c2 c3
  · constructor <;> linarith
  · push_cast
    constructor <;> linarith
  · have : t - ⌊t⌋ = 1 / 2 := le_antisymm (not_lt.mp c2) (not_lt.mp c1)
    constructor <;> linarith
  · have : t - ⌊t⌋ = 1 / 2 := le_antisymm (not_lt.mp c2) (not_lt.mp c1)
    push_cast
    constructor <;> linarith

/-- The rounded value is within half a spacing of the value: no multiple of the
spacing is nearer. -/
theorem roundQ_near (q : ℚ) : |roundQ q - q| ≤ (2 : ℚ) ^ ulpExp q / 2 := by
  have hp := two_zpow_pos (ulpExp q)
  have h := roundEven_near (q / (2 : ℚ) ^ ulpExp q)
  rw [roundQ_eq]
  have e : (roundEven (q / (2 : ℚ) ^ ulpExp q) : ℚ) * (2 : ℚ) ^ ulpExp q - q
      = ((roundEven (q / (2 : ℚ) ^ ulpExp q) : ℚ) - q / (2 : ℚ) ^ ulpExp q)
          * (2 : ℚ) ^ ulpExp q := by
    field_simp
  rw [e, abs_mul, abs_of_pos hp]
  calc |(roundEven (q / (2 : ℚ) ^ ulpExp q) : ℚ) - q / (2 : ℚ) ^ ulpExp q| * (2 : ℚ) ^ ulpExp q
      ≤ 1 / 2 * (2 : ℚ) ^ ulpExp q := mul_le_mul_of_nonneg_right h (le_of_lt hp)
    _ = (2 : ℚ) ^ ulpExp q / 2 := by ring

/-- Known values of the format: 0.1 and 0.02 as binary32 numbers, the tie at
`2 ^ 24 + 1`, the largest finite number, the overflow threshold, the least
subnormal number and the underflow to zero. -/
theorem F32.known_values :
    (F32.ofRat (1 / 10)).val = F32Val.fin (13421773 / 134217728) ∧
    (F32.ofRat (2 / 100)).val = F32Val.fin (5368709 / 268435456) ∧
    (F32.ofRat 16777217).val = F32Val.fin 16777216 ∧
    (F32.ofRat 16777219).val = F32Val.fin 16777220 ∧
    (F32.ofRat (2 ^ 128 - 2 ^ 104)).val = F32Val.fin (2 ^ 128 - 2 ^ 104) ∧
    (F32.ofRat (2 ^ 128 - 2 ^ 103 - 1)).val = F32Val.fin (2 ^ 128 - 2 ^ 104) ∧
    (F32.ofRat (2 ^ 128 - 2 ^ 103)).val = F32Val.pinf ∧
    (F32.ofRat (-(2 ^ 128))).val = F32Val.ninf ∧
    (F32.ofRat (1 / 2 ^ 149)).val = F32Val.fin (1 / 2 ^ 149) ∧
    (F32.ofRat (3 / 2 ^ 151)).val = F32Val.fin (1 / 2 ^ 149) ∧
    (F32.ofRat (1 / 2 ^ 150)).val = F32Val.fin 0 ∧
    (F32.pinf - F32.pinf).val = F32Val.nan ∧
    ((0 : F32) / 0).val = F32Val.nan ∧
    ((1 : F32) / 0).val = F32Val.pinf ∧
    ¬ (F32.nan < F32.nan) ∧ ¬ (F32.nan ≤ F32.nan) := by
  decide!

theorem F32.lt_def (x y : F32) : x < y ↔ F32.blt x y = true := Iff.rfl

theorem F32.le_def (x y : F32) : x ≤ y ↔ F32.ble x y = true := Iff.rfl

theorem F32.add_def (x y : F32) : x + y = F32.add x y := rfl

theorem F32.sub_def (x y : F32) : x - y = F32.sub x y := rfl

theorem F32.mul_def (x y : F32) : x * y = F32.mul x y := rfl

theorem F32.div_def (x y : F32) : x / y = F32.div x y := rfl

theorem F32.zero_val : (0 : F32).val = F32Val.fin 0 := by decide!

theorem F32.two_val : (2 : F32).val = F32Val.fin 2 := by decide!

theorem F32.hundred_val : (100 : F32).val = F32Val.fin 100 := by decide!

theorem F32.thousand_val : (1000 : F32).val = F32Val.fin 1000 := by decide!

/-- A finite value of a binary32 number is one of the grid, below the threshold. -/
theorem F32.fin_wf (x : F32) (a : ℚ) (h : x.val = F32Val.fin a) :
    roundQ a = a ∧ |a| < (2 : ℚ) ^ (128 : Nat) := by
  have hw := x.wf
  rw [h] at hw
  simpa [F32Val.wf] using hw

theorem F32.zero_le_iff (x : F32) :
    0 ≤ x ↔ x.val = F32Val.pinf ∨ ∃ a, x.val = F32Val.fin a ∧ 0 ≤ a := by
  rw [F32.le_def]
  unfold F32.ble
  rw [F32.zero_val]
  cases h : x.val <;> simp

theorem F32.zero_lt_iff (x : F32) :
    0 < x ↔ x.val = F32Val.pinf ∨ ∃ a, x.val = F32Val.fin a ∧ 0 < a := by
  rw [F32.lt_def]
  unfold F32.blt
  rw [F32.zero_val]
  cases h : x.val <;> simp

theorem F32.thousand_le_iff (x : F32) :
    1000 ≤ x ↔ x.val = F32Val.pinf ∨ ∃ a, x.val = F32Val.fin a ∧ 1000 ≤ a := by
  rw [F32.le_def]
  unfold F32.ble
  rw [F32.thousand_val]
  cases h : x.val <;> simp

theorem F32.ofRat_nonneg (q : ℚ) (h : 0 ≤ q) : 0 ≤ F32.ofRat q := by
  rw [F32.zero_le_iff, ofRat_val]
  have hr := roundQ_nonneg q h
  have hp : (0 : ℚ) < (2 : ℚ) ^ (128 : Nat) := by positivity
  by_cases h1 : (2 : ℚ) ^ (128 : Nat) ≤ roundQ q
  · simp [h1]
  · rw [if_neg h1, if_neg (by linarith)]
    exact Or.inr ⟨_, rfl, hr⟩

theorem F32.ofRat_pos (q : ℚ) (h : 0 < roundQ q) : 0 < F32.ofRat q := by
  rw [F32.zero_lt_iff, ofRat_val]
  have hp : (0 : ℚ) < (2 : ℚ) ^ (128 : Nat) := by positivity
  by_cases h1 : (2 : ℚ) ^ (128 : Nat) ≤ roundQ q
  · simp [h1]
  · rw [if_neg h1, if_neg (by linarith)]
    exact Or.inr ⟨_, rfl, h⟩

theorem F32.lt_imp_le (x y : F32) (h : x < y) : x ≤ y := by
  rw [F32.lt_def] at h
  rw [F32.le_def]
  unfold F32.blt at h
  unfold F32.ble
  cases hx : x.val <;> cases hy : y.val <;> simp [hx, hy] at h ⊢
  exact le_of_lt h

theorem F32.lt_self_false (x : F32) : ¬ x < x := by
  rw [F32.lt_def]
  unfold F32.blt
  cases hx : x.val <;> simp

theorem F32.le_imp_not_gt (x y : F32) (h : x ≤ y) : ¬ y < x := by
  rw [F32.le_def] at h
  rw [F32.lt_def]
  unfold F32.ble at h
  unfold F32.blt
  cases hx : x.val <;> cases hy : y.val <;> simp [hx, hy] at h ⊢
  exact h

theorem F32.le_chain (x y z : F32) (h1 : x ≤ y) (h2 : y ≤ z) : x ≤ z := by
  rw [F32.le_def] at h1 h2 ⊢
  unfold F32.ble at h1 h2 ⊢
  cases hx : x.val <;> cases hy : y.val <;> cases hz : z.val <;>
    simp [hx, hy, hz] at h1 h2 ⊢
  exact le_trans h1 h2

theorem F32.add_fin (x y : F32) (a b : ℚ) (hx : x.val = F32Val.fin a) (hy : y.val = F32Val.fin b) :
    x + y = F32.ofRat (a + b) := by
  rw [F32.add_def]
  unfold F32.add
  rw [hx, hy]

theorem F32.sub_fin (x y : F32) (a b : ℚ) (hx : x.val = F32Val.fin a) (hy : y.val = F32Val.fin b) :
    x - y = F32.ofRat (a - b) := by
  rw [F32.sub_def]
  unfold F32.sub
  rw [hx, hy]

theorem F32.pinf_nonneg : (0 : F32) ≤ F32.pinf := by decide!

theorem F32.pinf_pos : (0 : F32) < F32.pinf := by decide!

/-- The sum of two numbers that are not negative is not negative (and is a number). -/
theorem F32.nonneg_add (x y : F32) (hx : 0 ≤ x) (hy : 0 ≤ y) : 0 ≤ x + y := by
  rw [F32.zero_le_iff] at hx hy
  rcases hx with hx | ⟨a, hx, ha⟩ <;> rcases hy with hy | ⟨b, hy, hb⟩
  · have : x + y = F32.pinf := by rw [F32.add_def]; unfold F32.add; rw [hx, hy]
    rw [this]; exact F32.pinf_nonneg
  · have : x + y = F32.pinf := by rw [F32.add_def]; unfold F32.add; rw [hx, hy]
    rw [this]; exact F32.pinf_nonneg
  · have : x + y = F32.pinf := by rw [F32.add_def]; unfold F32.add; rw [hx, hy]
    rw [this]; exact F32.pinf_nonneg
  · rw [F32.add_fin x y a b hx hy]
    exact F32.ofRat_nonneg _ (by linarith)

/-- Twice a number that is not negative is not negative. -/
theorem F32.nonneg_mul_two (x : F32) (hx : 0 ≤ x) : 0 ≤ x * 2 := by
  rw [F32.zero_le_iff] at hx
  rcases hx with hx | ⟨a, hx, ha⟩
  · have : x * 2 = F32.pinf := by
      rw [F32.mul_def]; unfold F32.mul; rw [hx, F32.two_val]; simp [F32.infOf]
    rw [this]; exact F32.pinf_nonneg
  · have : x * 2 = F32.ofRat (a * 2) := by
      rw [F32.mul_def]; unfold F32.mul; rw [hx, F32.two_val]
    rw [this]
    exact F32.ofRat_nonneg _ (by linarith)

/-- A hundredth of a number that is not negative is not negative. -/
theorem F32.nonneg_div_hundred (x : F32) (hx : 0 ≤ x) : 0 ≤ x / 100 := by
  rw [F32.zero_le_iff] at hx
  rcases hx with hx | ⟨a, hx, ha⟩
  · have : x / 100 = F32.pinf := by
      rw [F32.div_def]; unfold F32.div; rw [hx, F32.hundred_val]; simp [F32.infOf]
    rw [this]; exact F32.pinf_nonneg
  · have : x / 100 = F32.ofRat (a / 100) := by
      rw [F32.div_def]; unfold F32.div; rw [hx, F32.hundred_val]; simp
    rw [this]
    exact F32.ofRat_nonneg _ (by positivity)

/-- When `y < x` the binary32 difference `x - y` is more than zero: the two are
whole multiples of `2 ^ -149`, so their difference does not round to zero. -/
theorem F32.sub_pos_of_lt (x y : F32) (h : y < x) : 0 < x - y := by
  rw [F32.lt_def] at h
  unfold F32.blt at h
  cases hx : x.val with
  | fin a =>
    cases hy : y.val with
    | fin b =>
      rw [hx, hy] at h
      simp only [decide_eq_true_eq] at h
      rw [F32.sub_fin x y a b hx hy]
      exact F32.ofRat_pos _ (roundQ_sub_pos a b (F32.fin_wf x a hx).1 (F32.fin_wf y b hy).1 h)
    | pinf => rw [hx, hy] at h; simp at h
    | ninf =>
      have : x - y = F32.pinf := by rw [F32.sub_def]; unfold F32.sub; rw [hx, hy]
      rw [this]; exact F32.pinf_pos
    | nan => rw [hx, hy] at h; simp at h
  | pinf =>
    cases hy : y.val with
    | fin b =>
      have : x - y = F32.pinf := by rw [F32.sub_def]; unfold F32.sub; rw [hx, hy]
      rw [this]; exact F32.pinf_pos
    | pinf => rw [hx, hy] at h; simp at h
    | ninf =>
      have : x - y = F32.pinf := by rw [F32.sub_def]; unfold F32.sub; rw [hx, hy]
      rw [this]; exact F32.pinf_pos
    | nan => rw [hx, hy] at h; simp at h
  | ninf => cases hy : y.val <;> rw [hx, hy] at h <;> simp at h
  | nan => cases hy : y.val <;> rw [hx, hy] at h <;> simp at h

theorem F32.zero_le_zero : (0 : F32) ≤ 0 := by decide!

theorem F32.zero_le_thousand : (0 : F32) ≤ 1000 := by decide!

theorem roundEven_le_pred (t : ℚ) (n : Int) (h : t < (n : ℚ) - 1 / 2) : roundEven t ≤ n - 1 := by
  have hf1 : ((⌊t⌋ : Int) : ℚ) ≤ t := Int.floor_le t
  unfold roundEven
  simp only [ratFloor_eq]
  split_ifs with h1 h2 h3
  · have : ((⌊t⌋ : Int) : ℚ) < (n : ℚ) := by linarith
    have : ⌊t⌋ < n := by exact_mod_cast this
    omega
  · have : ((⌊t⌋ : Int) : ℚ) + 1 < (n : ℚ) := by linarith
    have : ⌊t⌋ + 1 < n := by exact_mod_cast this
    omega
  · have : ((⌊t⌋ : Int) : ℚ) + 1 < (n : ℚ) := by linarith
    have : ⌊t⌋ + 1 < n := by exact_mod_cast this
    omega
  · have : ((⌊t⌋ : Int) : ℚ) + 1 < (n : ℚ) + 1 / 2 := by linarith
    have h5 : ((⌊t⌋ : Int) : ℚ) < (n : ℚ) - 1 / 2 := by linarith
    have h6 : ((⌊t⌋ : Int) : ℚ) < (n : ℚ) := by linarith
    have h7 : ⌊t⌋ < n := by exact_mod_cast h6
    have h8 : t - ⌊t⌋ = 1 / 2 := le_antisymm (not_lt.mp h2) (not_lt.mp h1)
    have h9 : ((⌊t⌋ : Int) : ℚ) + 1 < (n : ℚ) := by linarith
    have : ⌊t⌋ + 1 < n := by exact_mod_cast h9
    omega

theorem roundQ_512 : roundQ 512 = 512 := by decide!

theorem roundQ_below_thousand : roundQ (1000 - 1 / 32768) = 1000 := by decide!

/-- The rounding reaches 1000 exactly from `1000 - 2 ^ -15` on: the binary32
numbers next to 1000 are `1000 - 2 ^ -14` and `1000 + 2 ^ -14`, and the value
half way between the first and 1000 goes to 1000, whose last bit is even. -/
theorem roundQ_thousand_le_iff (q : ℚ) : 1000 ≤ roundQ q ↔ 1000 - 1 / 32768 ≤ q := by
  constructor
  · intro h
    by_contra hq
    have hq : q < 1000 - 1 / 32768 := not_le.mp hq
    rcases le_or_lt q 512 with h5 | h5
    · rcases le_or_lt q 0 with h0 | h0
      · have := roundQ_nonpos q h0
        linarith
      · have := roundQ_mono q 512 (le_of_lt h0) h5
        rw [roundQ_512] at this
        linarith
    · have habs : |q| = q := abs_of_pos (by linarith)
      obtain ⟨h1, h2, _, h4⟩ := ulpExp_spec q
      have hup : ulpExp q ≤ -14 := by
        apply ulpExp_le q (-14) (by norm_num)
        rw [habs]
        norm_num
        linarith
      have hlow : -14 ≤ ulpExp q := by
        rcases h4 with h4 | h4
        · rw [habs] at h4
          have h9 : (2 : ℚ) ^ (9 : Int) < (2 : ℚ) ^ (ulpExp q + 24) := by
            have : (2 : ℚ) ^ (9 : Int) = 512 := by norm_num
            rw [this]
            linarith
          have := (zpow_lt_zpow_iff_right₀ (by norm_num : (1 : ℚ) < 2)).mp h9
          omega
        · omega
      have hk : ulpExp q = -14 := le_antisymm hup hlow
      have hpow : (2 : ℚ) ^ (-14 : Int) = 1 / 16384 := by
        rw [zpow_neg]
        norm_num
      have hr : roundQ q = (roundEven (q / (2 : ℚ) ^ (-14 : Int)) : ℚ) * (2 : ℚ) ^ (-14 : Int) := by
        unfold roundQ
        simp only [pow2_eq]
        rw [hk]
      rw [hr, hpow] at h
      have hle : roundEven (q / (1 / 16384)) ≤ (16384000 : Int) - 1 := by
        apply roundEven_le_pred
        rw [div_lt_iff₀ (by norm_num)]
        push_cast
        linarith
      have hle2 : (roundEven (q / (1 / 16384)) : ℚ) ≤ 16383999 := by exact_mod_cast hle
      linarith
  · intro h
    have := roundQ_mono (1000 - 1 / 32768) q (by norm_num) h
    rw [roundQ_below_thousand] at this
    exact this

/-- The test `x >= 1000.0f` on the binary32 number nearest to `q`. -/
theorem F32.thousand_le_ofRat_iff (q : ℚ) : 1000 ≤ F32.ofRat q ↔ 1000 - 1 / 32768 ≤ q := by
  rw [F32.thousand_le_iff, ofRat_val, ← roundQ_thousand_le_iff]
  have hp : (1000 : ℚ) < (2 : ℚ) ^ (128 : Nat) := by norm_num
  by_cases h1 : (2 : ℚ) ^ (128 : Nat) ≤ roundQ q
  · simp only [h1, if_true, true_or, true_iff]
    linarith
  · rw [if_neg h1]
    by_cases h2 : roundQ q ≤ -(2 : ℚ) ^ (128 : Nat)
    · rw [if_pos h2]
      simp
      linarith
    · rw [if_neg h2]
      simp

theorem F32.val_ofRat_isValue (q : ℚ) (h : F32.isValue q = true) :
    (F32.ofRat q).val = F32Val.fin q := ofRat_exact q h

theorem F32.mul_two_fin (x : F32) (a : ℚ) (hx : x.val = F32Val.fin a) :
    x * 2 = F32.ofRat (a * 2) := by
  rw [F32.mul_def]
  unfold F32.mul
  rw [hx, F32.two_val]

theorem F32.div_hundred_fin (x : F32) (a : ℚ) (hx : x.val = F32Val.fin a) :
    x / 100 = F32.ofRat (a / 100) := by
  rw [F32.div_def]
  unfold F32.div
  rw [hx, F32.hundred_val]
  simp

/-- Two numbers of which neither is not-a-number are comparable. -/
theorem F32.not_lt_imp_le (x y : F32) (hx : x.val ≠ F32Val.nan) (hy : y.val ≠ F32Val.nan)
    (h : ¬ x < y) : y ≤ x := by
  rw [F32.lt_def] at h
  rw [F32.le_def]
  unfold F32.blt at h
  unfold F32.ble
  cases hxv : x.val <;> cases hyv : y.val <;> simp [hxv, hyv] at h hx hy ⊢
  exact h

/-- For finite numbers the comparison is the one of the values. -/
theorem F32.lt_fin (x y : F32) (a b : ℚ) (hx : x.val = F32Val.fin a) (hy : y.val = F32Val.fin b) :
    x < y ↔ a < b := by
  rw [F32.lt_def]
  unfold F32.blt
  rw [hx, hy]
  simp

/-! ## Pointers into the store -/

theorem deref_update_same (b : Bank) (p : Ptr) (f : Account → Account) :
    Bank.deref (Bank.update b p f) p = (Bank.deref b p).map f := by
  induction b generalizing p with
  | nil => simp [Bank.update, Bank.deref]
  | cons a t ih =>
    cases p with
    | zero => simp [Bank.update, Bank.deref]
    | succ p =>
      have h := ih p
      simp only [Bank.deref] at h
      simpa [Bank.update, Bank.deref] using h

theorem deref_update_ne (b : Bank) (p q : Ptr) (f : Account → Account) (h : p ≠ q) :
    Bank.deref (Bank.update b p f) q = Bank.deref b q := by
  induction b generalizing p q with
  | nil => simp [Bank.update, Bank.deref]
  | cons a t ih =>
    cases p with
    | zero =>
      cases q with
      | zero => exact absurd rfl h
      | succ q => simp [Bank.update, Bank.deref]
    | succ p =>
      cases q with
      | zero => simp [Bank.update, Bank.deref]
      | succ q =>
        have h2 := ih p q (fun e => h (by rw [e]))
        simp only [Bank.deref] at h2
        simpa [Bank.update, Bank.deref] using h2

theorem update_id_of_deref (b : Bank) (p : Ptr) (f : Account → Account)
    (h : ∀ x, Bank.deref b p = some x → f x = x) : Bank.update b p f = b := by
  induction b generalizing p with
  | nil => simp [Bank.update]
  | cons a t ih =>
    cases p with
    | zero =>
      have := h a (by simp [Bank.deref])
      simp [Bank.update, this]
    | succ p =>
      have h2 := ih p (fun x hx => h x (by simpa [Bank.deref] using hx))
      simp [Bank.update, h2]

theorem update_length (b : Bank) (p : Ptr) (f : Account → Account) :
    (Bank.update b p f).length = b.length := by
  induction b generalizing p with
  | nil => simp [Bank.update]
  | cons a t ih =>
    cases p with
    | zero => simp [Bank.update]
    | succ p => simp [Bank.update, ih p]

/-! ## Withdrawal and deposit rules -/

theorem savings_withdraw_true (a : Account) (amt : F32) (h : a.balance > amt) :
    SavingsAccount.withdraw a amt =
      (true, { a with balance := a.balance - amt,
                      history := a.history ++ [⟨"- " ++ to_string_float amt ++ " Withdraw"⟩] }) := by
  simp [SavingsAccount.withdraw, h, Account.addHistory]

theorem savings_withdraw_false (a : Account) (amt : F32) (h : ¬ a.balance > amt) :
    SavingsAccount.withdraw a amt = (false, a) := by
  simp [SavingsAccount.withdraw, h]

theorem current_withdraw_true (a : Account) (amt : F32) (h : a.balance - amt ≥ 1000) :
    CurrentAccount.withdraw a amt =
      (true, { a with balance := a.balance - amt,
                      history := a.history ++ [⟨"- " ++ to_string_float amt ++ " Withdraw"⟩] }) := by
  simp [CurrentAccount.withdraw, h, Account.addHistory]

theorem current_withdraw_false (a : Account) (amt : F32) (h : ¬ a.balance - amt ≥ 1000) :
    CurrentAccount.withdraw a amt = (false, a) := by
  simp [CurrentAccount.withdraw, h]

/-- A rejected withdrawal of either kind leaves the account object as it was. -/
theorem callWithdraw_false_eq (a : Account) (amt : F32) (h : (a.callWithdraw amt).1 = false) :
    (a.callWithdraw amt).2 = a := by
  unfold Account.callWithdraw at h ⊢
  cases hk : a.kind with
  | Savings =>
    simp only [hk] at h ⊢
    by_cases hc : a.balance > amt
    · rw [savings_withdraw_true a amt hc] at h; simp at h
    · rw [savings_withdraw_false a amt hc]
  | Current =>
    simp only [hk] at h ⊢
    by_cases hc : a.balance - amt ≥ 1000
    · rw [current_withdraw_true a amt hc] at h; simp at h
    · rw [current_withdraw_false a amt hc]

/-- An accepted withdrawal of either kind leaves the binary32 difference of balance
and amount and changes nothing but balance and history. -/
theorem callWithdraw_true_eq (a : Account) (amt : F32) (h : (a.callWithdraw amt).1 = true) :
    (a.callWithdraw amt).2 =
      { a with balance := a.balance - amt,
               history := a.history ++ [⟨"- " ++ to_string_float amt ++ " Withdraw"⟩] } := by
  unfold Account.callWithdraw at h ⊢
  cases hk : a.kind with
  | Savings =>
    simp only [hk] at h ⊢
    by_cases hc : a.balance > amt
    · rw [savings_withdraw_true a amt hc, hk]
    · rw [savings_withdraw_false a amt hc] at h; simp at h
  | Current =>
    simp only [hk] at h ⊢
    by_cases hc : a.balance - amt ≥ 1000
    · rw [current_withdraw_true a amt hc, hk]
    · rw [current_withdraw_false a amt hc] at h; simp at h

/-! ## Transfers -/

/-- The example store is the one the program is in after `exActions`. -/
theorem exState_reached : run State.init exActions = some exState := by decide!

/-- A transfer between two distinct accounts whose debit is accepted: the source
holds its withdrawal result plus the record of the transfer, the receiver its
deposit result plus the record of the transfer, every other account is as before. -/
theorem transferFunds_success (b : Bank) (a recv : Ptr) (r : Int) (amt : F32) (A B : Account)
    (hA : Bank.deref b a = some A) (hr : Bank.search b r = some recv) (hne : recv ≠ a)
    (hB : Bank.deref b recv = some B) (hamt : amt > 0) (hw : (A.callWithdraw amt).1 = true) :
    ∃ b2, transferFunds b a r amt = some b2 ∧
      Bank.deref b2 a = some ((A.callWithdraw amt).2.addHistory
        ("- " ++ to_string_float amt ++ " Transfer to " ++ to_string_ll r)) ∧
      Bank.deref b2 recv = some ((B.callDeposit amt).addHistory
        ("+ " ++ to_string_float amt ++ " Transfer from " ++ to_string_ll A.getAccNo)) ∧
      ∀ q, q ≠ a → q ≠ recv → Bank.deref b2 q = Bank.deref b q := by
  have hne2 : a ≠ recv := fun e => hne e.symm
  have hT : transferFunds b a r amt = some
      (Bank.update (Bank.update (Bank.update (Bank.update b a (fun x => (x.callWithdraw amt).2))
        recv (fun x => x.callDeposit amt)) a (fun x =>
          x.addHistory ("- " ++ to_string_float amt ++ " Transfer to " ++ to_string_ll r)))
        recv (fun x => x.addHistory ("+ " ++ to_string_float amt ++ " Transfer from "
            ++ to_string_ll A.getAccNo))) := by
    simp only [transferFunds, hr, hA]
    rw [if_pos ⟨hamt, hw⟩]
  refine ⟨_, hT, ?_, ?_, ?_⟩
  · rw [deref_update_ne _ _ _ _ hne, deref_update_same, deref_update_ne _ _ _ _ hne,
      deref_update_same, hA]
    rfl
  · rw [deref_update_same, deref_update_ne _ _ _ _ hne2, deref_update_same,
      deref_update_ne _ _ _ _ hne2, hB]
    rfl
  · intro q hqa hqr
    rw [deref_update_ne _ _ _ _ (Ne.symm hqr), deref_update_ne _ _ _ _ (Ne.symm hqa),
      deref_update_ne _ _ _ _ (Ne.symm hqr), deref_update_ne _ _ _ _ (Ne.symm hqa)]

/-- A transfer whose amount is not positive or whose debit is rejected returns the
store as it was. -/
theorem transferFunds_failure (b : Bank) (a : Ptr) (r : Int) (amt : F32) (A : Account)
    (hA : Bank.deref b a = some A) (hf : amt ≤ 0 ∨ (A.callWithdraw amt).1 = false) :
    transferFunds b a r amt = some b := by
  unfold transferFunds
  cases hs : Bank.search b r with
  | none => rfl
  | some recv =>
    simp only [hA]
    rw [if_neg]
    rintro ⟨h1, h2⟩
    rcases hf with h | h
    · exact absurd h1 (F32.le_imp_not_gt amt 0 h)
    · rw [h] at h2; exact absurd h2 (by simp)

/-- C1 (as stated, refuted): in the reachable store `exBank` the Current account
`exCurrent` (balance 5000) transfers 1000 to the distinct Savings account
`exSavings` (balance 2550). The debit is accepted, yet the receiver ends with
3621 and not with 2550 + 1000 = 3550, and the two balances sum to 7621 and not
to 7550: the credit runs through `SavingsAccount::deposit`, which adds interest. -/
theorem transfer_to_savings_counterexample :
    Bank.deref exBank 2 = some exCurrent ∧ Bank.search exBank 200002 = some 1 ∧
    Bank.deref exBank 1 = some exSavings ∧ (1 : Ptr) ≠ 2 ∧ (1000 : F32) > 0 ∧
    (exCurrent.callWithdraw 1000).1 = true ∧
    (transferFunds exBank 2 200002 1000).map (fun b2 => b2.map Account.getBalance)
      = some [2000, 3621, 4000] ∧
    exSavings.balance + 1000 ≠ 3621 ∧
    exCurrent.balance + exSavings.balance ≠ 4000 + 3621 := by
  decide!

/-- Between two Current accounts the claim fails as well, by rounding: after
`exLargeActions` the account that held 100000000 and sent 1 still holds
100000000 (the binary32 numbers around it are 8 apart), while the receiver went
from 2000 to 2001. -/
theorem transfer_rounding_example :
    (run State.init exLargeActions).map (fun s => s.bank.map Account.getBalance)
      = some [2001, 100000000] ∧
    (100000000 : F32) - 1 = 100000000 ∧ (2000 : F32) + 1 = 2001 := by
  decide!

/-- C1 (amended): for two distinct accounts `A` (source, at `a`) and `B` (receiver,
found by `search r` at `recv`) of the store and an amount `amt > 0` that `A`'s
withdrawal accepts, the transfer leaves `A` with the binary32 difference
`A.balance - amt`; it leaves `B` with the binary32 sum `B.balance + amt` when `B`
is a Current account, and with `(balance + amt) + (balance + amt) * 2 / 100`,
every operation in binary32, when `B` is a Savings account. When `B` is a Current
account, the three numbers are finite (`p`, `q` and `x`) and the exact
difference `p - x` and the exact sum `q + x` are binary32 numbers, nothing is
rounded: `A` ends with `p - x`, `B` with `q + x`, and the sum of the two
balances is the same before and after. -/
theorem transfer_balances (b : Bank) (a recv : Ptr) (r : Int) (amt : F32) (A B : Account)
    (hA : Bank.deref b a = some A) (hr : Bank.search b r = some recv) (hne : recv ≠ a)
    (hB : Bank.deref b recv = some B) (hamt : amt > 0) (hw : (A.callWithdraw amt).1 = true) :
    ∃ b2 A2 B2, transferFunds b a r amt = some b2 ∧
      Bank.deref b2 a = some A2 ∧ Bank.deref b2 recv = some B2 ∧
      A2.balance = A.balance - amt ∧
      (B.kind = Kind.Current → B2.balance = B.balance + amt) ∧
      (B.kind = Kind.Savings →
        B2.balance = (B.balance + amt) + ((B.balance + amt) * 2) / 100) ∧
      (∀ p q x : ℚ, A.balance.val = F32Val.fin p → B.balance.val = F32Val.fin q →
        amt.val = F32Val.fin x → B.kind = Kind.Current →
        F32.isValue (p - x) = true → F32.isValue (q + x) = true →
        A2.balance.val = F32Val.fin (p - x) ∧ B2.balance.val = F32Val.fin (q + x) ∧
        (p - x) + (q + x) = p + q) := by
  obtain ⟨b2, hT, hA2, hB2, _⟩ := transferFunds_success b a recv r amt A B hA hr hne hB hamt hw
  have hAb : ((A.callWithdraw amt).2.addHistory
      ("- " ++ to_string_float amt ++ " Transfer to " ++ to_string_ll r)).balance
        = A.balance - amt := by
    rw [callWithdraw_true_eq A amt hw]
    rfl
  have hBc : B.kind = Kind.Current → ((B.callDeposit amt).addHistory
      ("+ " ++ to_string_float amt ++ " Transfer from " ++ to_string_ll A.getAccNo)).balance
        = B.balance + amt := by
    intro hk
    simp [Account.callDeposit, hk, Account.deposit, Account.addHistory]
  refine ⟨b2, _, _, hT, hA2, hB2, hAb, hBc, ?_, ?_⟩
  · intro hk
    simp [Account.callDeposit, hk, SavingsAccount.deposit, Account.addHistory]
  · intro p q x hp hq hx hk h1 h2
    refine ⟨?_, ?_, by ring⟩
    · rw [hAb, F32.sub_fin _ _ p x hp hx]
      exact F32.val_ofRat_isValue _ h1
    · rw [hBc hk, F32.add_fin _ _ q x hq hx]
      exact F32.val_ofRat_isValue _ h2

/-- C1 (amended), at a concrete input: `exCurrent` sends 1000 to the Current
account `exCurrent2` in `exBank`; 5000 - 1000 and 2000 + 1000 are binary32
numbers, so the source ends with 4000 and the receiver with 3000. -/
theorem transfer_balances_witness :
    Bank.deref exBank 2 = some exCurrent ∧ Bank.search exBank 200003 = some 0 ∧ (0 : Ptr) ≠ 2 ∧
    Bank.deref exBank 0 = some exCurrent2 ∧ (1000 : F32) > 0 ∧
    (exCurrent.callWithdraw 1000).1 = true ∧
    ∃ b2 A2 B2, transferFunds exBank 2 200003 1000 = some b2 ∧
      Bank.deref b2 2 = some A2 ∧ Bank.deref b2 0 = some B2 ∧
      A2.balance = exCurrent.balance - 1000 ∧
      A2.balance.val = F32Val.fin 4000 ∧ B2.balance.val = F32Val.fin 3000 := by
  obtain ⟨b2, A2, B2, h1, h2, h3, h4, _, _, h7⟩ :=
    transfer_balances exBank 2 0 200003 1000 exCurrent exCurrent2
      (by decide!) (by decide!) (by decide) (by decide!) (by decide!) (by decide!)
  obtain ⟨h8, h9, _⟩ := h7 5000 2000 1000 (by decide!) (by decide!) (by decide!) (by decide)
    (by decide!) (by decide!)
  refine ⟨by decide!, by decide!, by decide, by decide!, by decide!, by decide!,
    b2, A2, B2, h1, h2, h3, h4, ?_, ?_⟩
  · rw [h8]
    decide!
  · rw [h9]
    decide!

/-- C2: when the amount is not positive or the source's withdrawal rule rejects
it, the transfer returns the store unchanged: every account, `A` and `B` among
them, keeps its balance and its history, nothing is appended. -/
theorem transfer_failure_leaves_store (b : Bank) (a : Ptr) (r : Int) (amt : F32) (A : Account)
    (hA : Bank.deref b a = some A) (hf : amt ≤ 0 ∨ (A.callWithdraw amt).1 = false) :
    transferFunds b a r amt = some b ∧
    ∀ b2, transferFunds b a r amt = some b2 → ∀ q,
      (Bank.deref b2 q).map Account.balance = (Bank.deref b q).map Account.balance ∧
      (Bank.deref b2 q).map Account.history = (Bank.deref b q).map Account.history := by
  have h := transferFunds_failure b a r amt A hA hf
  refine ⟨h, ?_⟩
  intro b2 hb2 q
  rw [h] at hb2
  cases hb2
  exact ⟨rfl, rfl⟩

/-- C2, at a concrete input: `exCurrent2` (balance 2000, Current) tries to send 1500
to `exSavings`; the floor of 1000 rejects the debit. -/
theorem transfer_failure_leaves_store_witness :
    Bank.deref exBank 0 = some exCurrent2 ∧
    ((1500 : F32) ≤ 0 ∨ (exCurrent2.callWithdraw 1500).1 = false) ∧
    transferFunds exBank 0 200002 1500 = some exBank ∧
    ∀ b2, transferFunds exBank 0 200002 1500 = some b2 → ∀ q,
      (Bank.deref b2 q).map Account.balance = (Bank.deref exBank q).map Account.balance ∧
      (Bank.deref b2 q).map Account.history = (Bank.deref exBank q).map Account.history :=
  ⟨by decide!, Or.inr (by decide!),
    transfer_failure_leaves_store exBank 0 200002 1500 exCurrent2 (by decide!)
      (Or.inr (by decide!))⟩

/-! ## The rules of the two kinds of account -/

/-- C3 (as stated, refuted): the Current account `exFloor` holds 1000 and is asked
for `2 ^ -17`, an amount above 0. The difference `1000 - 2 ^ -17` is below 1000,
yet `withdraw` returns true, appends a record and leaves the balance at 1000, not
at `1000 - 2 ^ -17`: the code compares and stores the binary32 difference, and
the binary32 number nearest to `1000 - 2 ^ -17` is 1000. The program gets there
from its start by `exFloorActions`. -/
theorem current_withdraw_rounding_counterexample :
    exFloor.kind = Kind.Current ∧ exFloor.balance.val = F32Val.fin 1000 ∧
    exTiny.val = F32Val.fin (1 / 131072) ∧ exTiny > 0 ∧
    ¬ ((1000 : ℚ) - 1 / 131072 ≥ 1000) ∧
    (CurrentAccount.withdraw exFloor exTiny).1 = true ∧
    (CurrentAccount.withdraw exFloor exTiny).2.balance.val = F32Val.fin 1000 ∧
    (1000 : ℚ) ≠ 1000 - 1 / 131072 ∧
    (CurrentAccount.withdraw exFloor exTiny).2.history.length = exFloor.history.length + 1 ∧
    (run State.init exFloorActions).map
        (fun s => s.bank.map (fun x => (x.balance, x.history.length)))
      = some [(1000, 2)] := by
  decide!

/-- C3 (amended): `CurrentAccount::withdraw(amt)` on a balance `b` returns true
exactly when the binary32 difference `b - amt` is at least 1000; then the new
balance is that binary32 difference, at least 1000, and one record is appended;
otherwise it returns false and the object is unchanged. For finite `b` and `amt`
it returns true exactly when the difference of the two values is at least
`1000 - 2 ^ -15`: so it does whenever the difference is at least 1000, and it
does not when the difference is 999.99 or less; and when the difference is a
binary32 number, that number is the new balance. The virtual call on a Current
account is this function. Holds for every `amt`, positive or not. -/
theorem current_withdraw_rule (a : Account) (amt : F32) :
    ((CurrentAccount.withdraw a amt).1 = true ↔ a.balance - amt ≥ 1000) ∧
    ((CurrentAccount.withdraw a amt).1 = true →
      (CurrentAccount.withdraw a amt).2.balance = a.balance - amt ∧
      (CurrentAccount.withdraw a amt).2.balance ≥ 1000 ∧
      (CurrentAccount.withdraw a amt).2.history
        = a.history ++ [⟨"- " ++ to_string_float amt ++ " Withdraw"⟩] ∧
      (CurrentAccount.withdraw a amt).2.history.length = a.history.length + 1) ∧
    ((CurrentAccount.withdraw a amt).1 = false → (CurrentAccount.withdraw a amt).2 = a) ∧
    (∀ b x : ℚ, a.balance.val = F32Val.fin b → amt.val = F32Val.fin x →
      ((CurrentAccount.withdraw a amt).1 = true ↔ b - x ≥ 1000 - 1 / 32768) ∧
      (b - x ≥ 1000 → (CurrentAccount.withdraw a amt).1 = true) ∧
      (b - x ≤ 99999 / 100 → CurrentAccount.withdraw a amt = (false, a)) ∧
      (F32.isValue (b - x) = true → (CurrentAccount.withdraw a amt).1 = true →
        (CurrentAccount.withdraw a amt).2.balance.val = F32Val.fin (b - x))) ∧
    (a.kind = Kind.Current → a.callWithdraw amt = CurrentAccount.withdraw a amt) := by
  have hiff : (CurrentAccount.withdraw a amt).1 = true ↔ a.balance - amt ≥ 1000 := by
    by_cases hc : a.balance - amt ≥ 1000
    · rw [current_withdraw_true a amt hc]
      simp [hc]
    · rw [current_withdraw_false a amt hc]
      simp [hc]
  have hsucc : (CurrentAccount.withdraw a amt).1 = true →
      CurrentAccount.withdraw a amt =
        (true, { a with balance := a.balance - amt,
                        history := a.history ++ [⟨"- " ++ to_string_float amt ++ " Withdraw"⟩] }) :=
    fun h => current_withdraw_true a amt (hiff.mp h)
  have hfail : (CurrentAccount.withdraw a amt).1 = false →
      CurrentAccount.withdraw a amt = (false, a) := by
    intro h
    apply current_withdraw_false a amt
    intro hc
    rw [hiff.mpr hc] at h
    exact absurd h (by simp)
  refine ⟨hiff, ?_, ?_, ?_, ?_⟩
  · intro h
    rw [hsucc h]
    exact ⟨rfl, hiff.mp h, rfl, by simp⟩
  · intro h
    rw [hfail h]
  · intro b x hb hx
    have hq : (CurrentAccount.withdraw a amt).1 = true ↔ b - x ≥ 1000 - 1 / 32768 := by
      rw [hiff, F32.sub_fin _ _ b x hb hx]
      exact F32.thousand_le_ofRat_iff (b - x)
    refine ⟨hq, ?_, ?_, ?_⟩
    · intro h
      apply hq.mpr
      have : (1000 : ℚ) - 1 / 32768 ≤ 1000 := by norm_num
      exact le_trans this h
    · intro h
      apply hfail
      cases hv : (CurrentAccount.withdraw a amt).1 with
      | false => rfl
      | true =>
        have h2 := hq.mp hv
        have : (99999 : ℚ) / 100 < 1000 - 1 / 32768 := by norm_num
        linarith
    · intro hv h
      rw [hsucc h]
      show (a.balance - amt).val = F32Val.fin (b - x)
      rw [F32.sub_fin _ _ b x hb hx]
      exact F32.val_ofRat_isValue _ hv
  · intro hk
    simp [Account.callWithdraw, hk]

/-- C3 (amended) at concrete inputs: `exCurrent` (5000) may withdraw 4000, which
leaves exactly 1000, and may not withdraw 4001, which would leave 999. -/
theorem current_withdraw_rule_witness :
    (CurrentAccount.withdraw exCurrent 4000).1 = true ∧
    (CurrentAccount.withdraw exCurrent 4000).2.balance.val = F32Val.fin 1000 ∧
    CurrentAccount.withdraw exCurrent 4001 = (false, exCurrent) := by
  have h1 := ((current_withdraw_rule exCurrent 4000).2.2.2.1 5000 4000
    (by decide!) (by decide!)).2.1 (by norm_num)
  have h2 := ((current_withdraw_rule exCurrent 4000).2.2.2.1 5000 4000
    (by decide!) (by decide!)).2.2.2 (by decide!) h1
  have h3 := ((current_withdraw_rule exCurrent 4001).2.2.2.1 5000 4001
    (by decide!) (by decide!)).2.2.1 (by norm_num)
  refine ⟨h1, ?_, h3⟩
  rw [h2]
  norm_num

/-- C4 (as stated, refuted): the Savings account `exRich` holds 102000000 (a
deposit of 100000000 and its 2%) and is asked for 1. The withdrawal returns true
and appends a record, and the balance is 102000000 as before, not 101999999: the
binary32 numbers around 102000000 are 8 apart, and the difference rounds back.
The program gets there from its start by `exRichActions`. -/
theorem savings_withdraw_rounding_counterexample :
    exRich.kind = Kind.Savings ∧ exRich.balance.val = F32Val.fin 102000000 ∧
    (1 : F32).val = F32Val.fin 1 ∧ (1 : F32) > 0 ∧
    (SavingsAccount.withdraw exRich 1).1 = true ∧
    (SavingsAccount.withdraw exRich 1).2.balance.val = F32Val.fin 102000000 ∧
    (102000000 : ℚ) ≠ 102000000 - 1 ∧
    (SavingsAccount.withdraw exRich 1).2.history.length = exRich.history.length + 1 ∧
    (run State.init exRichActions).map
        (fun s => s.bank.map (fun x => (x.balance, x.history.length)))
      = some [(102000000, 2)] := by
  decide!

/-- C4 (amended): `SavingsAccount::withdraw(amt)` on a balance `b` returns true
exactly when `b > amt` (for finite numbers the comparison of the two values);
then the new balance is the binary32 difference `b - amt`, which is more than 0,
and one record is appended; otherwise it returns false and the object is
unchanged. Withdrawing the whole balance is rejected. When `b` and `amt` are
finite and the difference of the two values is a binary32 number, that number is
the new balance. The virtual call on a Savings account is this function. Holds
for every `amt`, positive or not. -/
theorem savings_withdraw_rule (a : Account) (amt : F32) :
    ((SavingsAccount.withdraw a amt).1 = true ↔ a.balance > amt) ∧
    ((SavingsAccount.withdraw a amt).1 = true →
      (SavingsAccount.withdraw a amt).2.balance = a.balance - amt ∧
      (SavingsAccount.withdraw a amt).2.balance > 0 ∧
      (SavingsAccount.withdraw a amt).2.history
        = a.history ++ [⟨"- " ++ to_string_float amt ++ " Withdraw"⟩] ∧
      (SavingsAccount.withdraw a amt).2.history.length = a.history.length + 1) ∧
    ((SavingsAccount.withdraw a amt).1 = false → (SavingsAccount.withdraw a amt).2 = a) ∧
    (amt = a.balance → SavingsAccount.withdraw a amt = (false, a)) ∧
    (∀ b x : ℚ, a.balance.val = F32Val.fin b → amt.val = F32Val.fin x →
      ((SavingsAccount.withdraw a amt).1 = true ↔ b > x) ∧
      (F32.isValue (b - x) = true → (SavingsAccount.withdraw a amt).1 = true →
        (SavingsAccount.withdraw a amt).2.balance.val = F32Val.fin (b - x))) ∧
    (a.kind = Kind.Savings → a.callWithdraw amt = SavingsAccount.withdraw a amt) := by
  have hiff : (SavingsAccount.withdraw a amt).1 = true ↔ a.balance > amt := by
    by_cases hc : a.balance > amt
    · rw [savings_withdraw_true a amt hc]
      simp [hc]
    · rw [savings_withdraw_false a amt hc]
      simp [hc]
  have hsucc : (SavingsAccount.withdraw a amt).1 = true →
      SavingsAccount.withdraw a amt =
        (true, { a with balance := a.balance - amt,
                        history := a.history ++ [⟨"- " ++ to_string_float amt ++ " Withdraw"⟩] }) :=
    fun h => savings_withdraw_true a amt (hiff.mp h)
  have hfail : (SavingsAccount.withdraw a amt).1 = false →
      SavingsAccount.withdraw a amt = (false, a) := by
    intro h
    apply savings_withdraw_false a amt
    intro hc
    rw [hiff.mpr hc] at h
    exact absurd h (by simp)
  refine ⟨hiff, ?_, ?_, ?_, ?_, ?_⟩
  · intro h
    rw [hsucc h]
    exact ⟨rfl, F32.sub_pos_of_lt _ _ (hiff.mp h), rfl, by simp⟩
  · intro h
    rw [hfail h]
  · intro h
    apply savings_withdraw_false a amt
    rw [h]
    exact F32.lt_self_false _
  · intro b x hb hx
    refine ⟨?_, ?_⟩
    · rw [hiff]
      exact F32.lt_fin amt a.balance x b hx hb
    · intro hv h
      rw [hsucc h]
      show (a.balance - amt).val = F32Val.fin (b - x)
      rw [F32.sub_fin _ _ b x hb hx]
      exact F32.val_ofRat_isValue _ hv
  · intro hk
    simp [Account.callWithdraw, hk]

/-- C4 (amended) at concrete inputs: `exSavings` (2550) may withdraw 2549, which
leaves 1, and may not withdraw 2550. -/
theorem savings_withdraw_rule_witness :
    (SavingsAccount.withdraw exSavings 2549).1 = true ∧
    (SavingsAccount.withdraw exSavings 2549).2.balance.val = F32Val.fin 1 ∧
    SavingsAccount.withdraw exSavings 2550 = (false, exSavings) := by
  have h1 := ((savings_withdraw_rule exSavings 2549).2.2.2.2.1 2550 2549
    (by decide!) (by decide!)).1.mpr (by norm_num)
  have h2 := ((savings_withdraw_rule exSavings 2549).2.2.2.2.1 2550 2549
    (by decide!) (by decide!)).2 (by decide!) h1
  refine ⟨h1, ?_, (savings_withdraw_rule exSavings 2550).2.2.2.1 (by decide!)⟩
  rw [h2]
  norm_num

/-- C5 (as stated, refuted): `deposit(1)` on the freshly opened Savings account
`exFresh` (balance 0) leaves 2139095/2097152, a little below 1.02: 0.02 is not a
binary32 number; the interest is 5368709/268435456 and the sum is rounded
again. And `deposit(1)` on the Current account `exTwentyMillion` leaves 20000000,
not 20000001: the binary32 numbers around it are 2 apart. -/
theorem deposit_rounding_counterexample :
    exFresh.kind = Kind.Savings ∧ exFresh.balance.val = F32Val.fin 0 ∧
    (1 : F32).val = F32Val.fin 1 ∧ (1 : F32) > 0 ∧
    (SavingsAccount.deposit exFresh 1).balance.val = F32Val.fin (2139095 / 2097152) ∧
    ((0 : ℚ) + 1) + ((0 + 1) * 2) / 100 = 51 / 50 ∧ (2139095 / 2097152 : ℚ) ≠ 51 / 50 ∧
    exTwentyMillion.kind = Kind.Current ∧ exTwentyMillion.balance.val = F32Val.fin 20000000 ∧
    (exTwentyMillion.callDeposit 1).balance.val = F32Val.fin 20000000 ∧
    (20000000 : ℚ) ≠ 20000000 + 1 := by
  decide!

/-- C5 (amended): `SavingsAccount::deposit(amt)` on a balance `b` leaves
`(b + amt) + (b + amt) * 2 / 100`, every operation in binary32, and appends one
record, whose text carries the binary32 interest `(b + amt) * 2 / 100`; a freshly
initialised Savings account has balance 1020 and one record after
`deposit(1000)`; the deposit of a Current account (`Account::deposit`) leaves the
binary32 sum `b + amt` and appends one record. When `b` and `amt` are finite and
the sum of the two values is a binary32 number, the Current deposit leaves that
number; when also its double, its 2% and the sum with the 2% are binary32
numbers, the Savings deposit leaves the sum plus 2% of it. Holds for every
`amt`, positive or not. -/
theorem deposit_rule (a : Account) (amt : F32) (name : String) (pin next : Int) :
    (SavingsAccount.deposit a amt).balance = (a.balance + amt) + ((a.balance + amt) * 2) / 100 ∧
    (SavingsAccount.deposit a amt).history
      = a.history ++ [⟨"+ " ++ to_string_float amt ++ " Deposit (interest "
          ++ to_string_float (((a.balance + amt) * 2) / 100) ++ ")"⟩] ∧
    (SavingsAccount.deposit a amt).history.length = a.history.length + 1 ∧
    (((Account.new Kind.Savings).initNew name pin next).1.callDeposit 1000).balance = 1020 ∧
    (((Account.new Kind.Savings).initNew name pin next).1.callDeposit 1000).history.length = 1 ∧
    (Account.deposit a amt).balance = a.balance + amt ∧
    (Account.deposit a amt).history = a.history ++ [⟨"+ " ++ to_string_float amt ++ " Deposit"⟩] ∧
    (Account.deposit a amt).history.length = a.history.length + 1 ∧
    (∀ b x : ℚ, a.balance.val = F32Val.fin b → amt.val = F32Val.fin x →
      F32.isValue (b + x) = true →
      (Account.deposit a amt).balance.val = F32Val.fin (b + x) ∧
      (F32.isValue ((b + x) * 2) = true → F32.isValue ((b + x) * 2 / 100) = true →
        F32.isValue ((b + x) + (b + x) * 2 / 100) = true →
        (SavingsAccount.deposit a amt).balance.val
          = F32Val.fin ((b + x) + (b + x) * 2 / 100))) ∧
    (a.kind = Kind.Savings → a.callDeposit amt = SavingsAccount.deposit a amt) ∧
    (a.kind = Kind.Current → a.callDeposit amt = Account.deposit a amt) := by
  refine ⟨rfl, rfl, ?_, ?_, ?_, rfl, rfl, ?_, ?_, ?_, ?_⟩
  · simp [SavingsAccount.deposit, Account.addHistory]
  · show ((0 : F32) + 1000) + (((0 : F32) + 1000) * 2) / 100 = 1020
    decide!
  · simp [Account.callDeposit, Account.initNew, Account.new, SavingsAccount.deposit,
      Account.addHistory]
  · simp [Account.deposit, Account.addHistory]
  · intro b x hb hx hv
    have hs : (a.balance + amt).val = F32Val.fin (b + x) := by
      rw [F32.add_fin _ _ b x hb hx]
      exact F32.val_ofRat_isValue _ hv
    refine ⟨hs, ?_⟩
    intro hv2 hv3 hv4
    have hd : ((a.balance + amt) * 2).val = F32Val.fin ((b + x) * 2) := by
      rw [F32.mul_two_fin _ _ hs]
      exact F32.val_ofRat_isValue _ hv2
    have hi : (((a.balance + amt) * 2) / 100).val = F32Val.fin ((b + x) * 2 / 100) := by
      rw [F32.div_hundred_fin _ _ hd]
      exact F32.val_ofRat_isValue _ hv3
    show ((a.balance + amt) + ((a.balance + amt) * 2) / 100).val = _
    rw [F32.add_fin _ _ _ _ hs hi]
    exact F32.val_ofRat_isValue _ hv4
  · intro hk
    simp [Account.callDeposit, hk]
  · intro hk
    simp [Account.callDeposit, hk]

/-- C5 (amended) at concrete inputs: 1000 paid into `exSavings` (2550) gives
3550 + 71, and 1000 paid into `exCurrent` (5000) gives 6000. -/
theorem deposit_rule_witness :
    (exSavings.callDeposit 1000).balance.val = F32Val.fin 3621 ∧
    (exCurrent.callDeposit 1000).balance.val = F32Val.fin 6000 := by
  have h := (deposit_rule exSavings 1000 "" 0 0).2.2.2.2.2.2.2.2.1 2550 1000
    (by decide!) (by decide!) (by decide!)
  have h2 := (deposit_rule exCurrent 1000 "" 0 0).2.2.2.2.2.2.2.2.1 5000 1000
    (by decide!) (by decide!) (by decide!)
  refine ⟨?_, ?_⟩
  · rw [(deposit_rule exSavings 1000 "" 0 0).2.2.2.2.2.2.2.2.2.1 (by decide),
      h.2 (by decide!) (by decide!) (by decide!)]
    norm_num
  · rw [(deposit_rule exCurrent 1000 "" 0 0).2.2.2.2.2.2.2.2.2.2 (by decide), h2.1]
    norm_num

/-! ## Authentication -/

/-- Three wrong PINs in a row on an account that is not blocked. -/
theorem authenticate_three_wrong (a : Account) (p1 p2 p3 : Int) (rest : List Int)
    (hb : a.blocked = false) (h1 : p1 ≠ a.pin) (h2 : p2 ≠ a.pin) (h3 : p3 ≠ a.pin) :
    authenticateAccount a (p1 :: p2 :: p3 :: rest) = some (false, a.block, rest) := by
  have e1 : ¬ a.pin = p1 := fun e => h1 e.symm
  have e2 : ¬ a.pin = p2 := fun e => h2 e.symm
  have e3 : ¬ a.pin = p3 := fun e => h3 e.symm
  simp [authenticateAccount, Account.isBlocked, hb, authLoop, Account.checkPin, e1, e2, e3]
  unfold authLoop
  simp

/-- A blocked account is turned away before any PIN is read. -/
theorem authenticate_blocked (a : Account) (pins : List Int) (hb : a.blocked = true) :
    authenticateAccount a pins = some (false, a, pins) := by
  simp [authenticateAccount, Account.isBlocked, hb]

/-- C6: on an account that is not blocked, input whose first three PINs all differ
from the account's PIN makes `authenticateAccount` return false with the blocked
flag set, having read exactly those three; on a blocked account it returns false
with the account and the whole input untouched, whatever the input holds, the
right PIN and the empty input included. -/
theorem authenticate_rule (a : Account) (pins : List Int) :
    (a.blocked = false → ∀ p1 p2 p3 rest, pins = p1 :: p2 :: p3 :: rest →
      p1 ≠ a.pin → p2 ≠ a.pin → p3 ≠ a.pin →
      authenticateAccount a pins = some (false, { a with blocked := true }, rest)) ∧
    (a.blocked = true → authenticateAccount a pins = some (false, a, pins)) := by
  constructor
  · intro hb p1 p2 p3 rest hp h1 h2 h3
    rw [hp]
    exact authenticate_three_wrong a p1 p2 p3 rest hb h1 h2 h3
  · exact authenticate_blocked a pins

/-- C6 at concrete inputs: `exSavings` (PIN 5678) is blocked by 1111, 2222, 3333 and
the fourth entry 5678 is left unread; once blocked, the right PIN is not read. -/
theorem authenticate_rule_witness :
    authenticateAccount exSavings [1111, 2222, 3333, 5678] = some (false, exBlocked, [5678]) ∧
    authenticateAccount exBlocked [5678] = some (false, exBlocked, [5678]) :=
  ⟨(authenticate_rule exSavings [1111, 2222, 3333, 5678]).1 (by decide) 1111 2222 3333 [5678] rfl
      (by decide) (by decide) (by decide),
    (authenticate_rule exBlocked [5678]).2 (by decide)⟩

/-! ## The administrative edit -/

/-- C8 (the code at the failing input): in the reachable state `exState` the admin
edits the name of account 200001 (Current, balance 5000, one record). Afterwards
the same object has the new name and PIN 0, and also the fresh number 200004,
balance 0 and an empty history; `search(200001)` finds nothing and the counter has
moved to 200005. -/
theorem editName_resets_account :
    Bank.search exState.bank 200001 = some 2 ∧
    Bank.deref exState.bank 2 = some exCurrent ∧
    adminLogin "admin" "admin123" = true ∧
    adminMenuStep exState 4 { acc := 200001, e := 1, nm := "Asha K", np := 0 } =
      { bank := [exCurrent2, exSavings,
          { kind := Kind.Current, name := "Asha K", accNo := 200004, balance := 0, pin := 0,
            blocked := false, history := [] }],
        nextAccNo := 200005 } ∧
    Bank.search
      (adminMenuStep exState 4 { acc := 200001, e := 1, nm := "Asha K", np := 0 }).bank 200001
      = none := by
  decide!

/-- What "Edit Name" does to the account it finds, in every state: the object
behind the pointer is re-initialised, so it takes the next number, balance 0 and
an empty history, together with the new name and PIN 0. -/
theorem editName_general (s : State) (id : Int) (nm : String) (np : Int) (a : Ptr)
    (acc : Account) (hs : Bank.search s.bank id = some a) (hd : Bank.deref s.bank a = some acc) :
    adminMenuStep s 4 { acc := id, e := 1, nm := nm, np := np } =
      { bank := Bank.update s.bank a (fun _ =>
          { acc with name := nm, pin := 0, accNo := s.nextAccNo, balance := 0, history := [] }),
        nextAccNo := s.nextAccNo + 1 } := by
  simp [adminMenuStep, hs, hd, Account.initNew]

/-! ## Sorting -/

/-- C10 (the code at the failing input): on the reachable store `exBank`, whose
accounts hold 2000, 2550 and 5000, `sortByBalanceDesc` leaves the balances in the
order 2000, 2550, 5000 (increasing), `sortByName` leaves the names in the order
Ravi, Meera, Asha (decreasing) and `sortByAccNo` leaves the numbers in the order
200003, 200002, 200001 (decreasing): `rebuildFromVector` pushes the sorted
vector onto the head one by one, which reverses it. The keys are pairwise
distinct, so the sorted vector is the same for every conforming `std::sort`. -/
theorem sort_orders_reversed :
    (std_sort compBalanceDesc (Bank.toVector exBank)).map Account.getBalance
      = [5000, 2550, 2000] ∧
    (Bank.sortByBalanceDesc exBank).map Account.getBalance = [2000, 2550, 5000] ∧
    (Bank.sortByName exBank).map Account.getName = ["Ravi", "Meera", "Asha"] ∧
    (Bank.sortByAccNo exBank).map Account.getAccNo = [200003, 200002, 200001] := by
  decide!

/-! ## Account numbers in the store -/

theorem rebuildFromVector_aux (v acc : List Account) :
    v.foldl (fun head a => a :: head) acc = v.reverse ++ acc := by
  induction v generalizing acc with
  | nil => rfl
  | cons x t ih => simp [List.foldl, ih]

/-- Pushing every element at the head reverses the vector. -/
theorem rebuildFromVector_eq (v : List Account) : Bank.rebuildFromVector v = v.reverse := by
  simp [Bank.rebuildFromVector, rebuildFromVector_aux]

theorem sortInsert_perm {α : Type} (comp : α → α → Bool) (val : α) (l : List α) :
    (sortInsert comp val l).Perm (val :: l) := by
  induction l with
  | nil => exact List.Perm.refl _
  | cons x rest ih =>
    unfold sortInsert
    by_cases h : comp val x = true
    · rw [if_pos h]
    · rw [if_neg h]
      exact (List.Perm.cons x ih).trans (List.Perm.swap val x rest)

theorem std_sort_aux_perm {α : Type} (comp : α → α → Bool) (v acc : List α) :
    (v.foldl (fun sorted val => sortInsert comp val sorted) acc).Perm (v ++ acc) := by
  induction v generalizing acc with
  | nil => exact List.Perm.refl _
  | cons x t ih =>
    simp only [List.foldl, List.cons_append]
    refine (ih _).trans ?_
    refine (List.Perm.append_left t (sortInsert_perm comp x acc)).trans ?_
    exact List.perm_middle

/-- The sort returns a permutation of the vector. -/
theorem std_sort_perm {α : Type} (comp : α → α → Bool) (v : List α) :
    (std_sort comp v).Perm v := by
  have h := std_sort_aux_perm comp v []
  simpa [std_sort] using h

/-- Every sort of the store keeps the same accounts. -/
theorem sort_perm (comp : Account → Account → Bool) (b : Bank) :
    (Bank.rebuildFromVector (std_sort comp (Bank.toVector b))).Perm b := by
  rw [rebuildFromVector_eq]
  exact (List.reverse_perm _).trans (std_sort_perm comp b)

theorem search_eq_none_iff (b : Bank) (id : Int) :
    Bank.search b id = none ↔ ∀ x ∈ b, x.accNo ≠ id := by
  induction b with
  | nil => simp [Bank.search]
  | cons a t ih =>
    by_cases h : a.accNo = id
    · simp [Bank.search, Account.getAccNo, h]
    · simp [Bank.search, Account.getAccNo, h, ih]

theorem search_some_deref (b : Bank) (id : Int) (p : Ptr) (h : Bank.search b id = some p) :
    ∃ x, Bank.deref b p = some x ∧ x.accNo = id := by
  induction b generalizing p with
  | nil => simp [Bank.search] at h
  | cons a t ih =>
    by_cases hc : a.accNo = id
    · simp [Bank.search, Account.getAccNo, hc] at h
      subst h
      exact ⟨a, by simp [Bank.deref], hc⟩
    · simp [Bank.search, Account.getAccNo, hc] at h
      obtain ⟨q, hq, rfl⟩ := h
      obtain ⟨x, hx, hxid⟩ := ih q hq
      exact ⟨x, by simpa [Bank.deref] using hx, hxid⟩

theorem deref_mem (b : Bank) (p : Ptr) (x : Account) (h : Bank.deref b p = some x) : x ∈ b := by
  unfold Bank.deref at h
  exact List.mem_iff_getElem?.mpr ⟨p, h⟩

/-- The numbers left by `deleteAccount` are those of the store with the first
occurrence of the number taken out. -/
theorem deleteAccount_numbers (b : Bank) (id : Int) :
    (Bank.deleteAccount b id).2.map Account.accNo = (b.map Account.accNo).erase id := by
  induction b with
  | nil => simp [Bank.deleteAccount]
  | cons a t ih =>
    by_cases h : a.accNo = id
    · simp [Bank.deleteAccount, Account.getAccNo, h]
    · have h2 : (a.accNo == id) = false := by simpa using h
      simp [Bank.deleteAccount, Account.getAccNo, h, ih, List.erase_cons, h2]

theorem deleteAccount_true_mem (b : Bank) (id : Int) (h : (Bank.deleteAccount b id).1 = true) :
    id ∈ b.map Account.accNo := by
  induction b with
  | nil => simp [Bank.deleteAccount] at h
  | cons a t ih =>
    by_cases hc : a.accNo = id
    · simp [hc]
    · simp [Bank.deleteAccount, Account.getAccNo, hc] at h
      simp only [List.map_cons, List.mem_cons]
      exact Or.inr (ih h)

/-- A mutation that keeps the number of the object it is applied to keeps the
list of numbers. -/
theorem update_numbers (b : Bank) (p : Ptr) (f : Account → Account)
    (h : ∀ x, Bank.deref b p = some x → (f x).accNo = x.accNo) :
    (Bank.update b p f).map Account.accNo = b.map Account.accNo := by
  induction b generalizing p with
  | nil => simp [Bank.update]
  | cons a t ih =>
    cases p with
    | zero =>
      have := h a (by simp [Bank.deref])
      simp [Bank.update, this]
    | succ p =>
      have h2 := ih p (fun x hx => h x (by simpa [Bank.deref] using hx))
      simp [Bank.update, h2]

/-- The members of a store after a mutation through a pointer. -/
theorem mem_update (b : Bank) (p : Ptr) (f : Account → Account) (y : Account)
    (h : y ∈ Bank.update b p f) : y ∈ b ∨ ∃ x, Bank.deref b p = some x ∧ y = f x := by
  induction b generalizing p with
  | nil => simp [Bank.update] at h
  | cons a t ih =>
    cases p with
    | zero =>
      simp only [Bank.update, List.mem_cons] at h
      rcases h with h | h
      · exact Or.inr ⟨a, by simp [Bank.deref], h⟩
      · exact Or.inl (List.mem_cons_of_mem _ h)
    | succ p =>
      simp only [Bank.update, List.mem_cons] at h
      rcases h with h | h
      · exact Or.inl (by simp [h])
      · rcases ih p h with h2 | ⟨x, hx, hy⟩
        · exact Or.inl (List.mem_cons_of_mem _ h2)
        · exact Or.inr ⟨x, by simpa [Bank.deref] using hx, hy⟩

/-- Giving one object a number that no account of the store has keeps the numbers
distinct. -/
theorem update_fresh_nodup (b : Bank) (p : Ptr) (g : Account → Account) (n : Int)
    (hg : ∀ x, (g x).accNo = n) (hfresh : ∀ x ∈ b, x.accNo ≠ n)
    (hnd : (b.map Account.accNo).Nodup) :
    ((Bank.update b p g).map Account.accNo).Nodup := by
  induction b generalizing p with
  | nil => simp [Bank.update]
  | cons a t ih =>
    simp only [List.map_cons, List.nodup_cons] at hnd
    have hft : ∀ x ∈ t, x.accNo ≠ n := fun x hx => hfresh x (List.mem_cons_of_mem _ hx)
    cases p with
    | zero =>
      simp only [Bank.update, List.map_cons, List.nodup_cons]
      refine ⟨?_, hnd.2⟩
      rw [hg a]
      intro hmem
      obtain ⟨x, hx, hxn⟩ := List.mem_map.mp hmem
      exact hft x hx hxn
    | succ p =>
      simp only [Bank.update, List.map_cons, List.nodup_cons]
      refine ⟨?_, ih p hft hnd.2⟩
      intro hmem
      obtain ⟨y, hy, hya⟩ := List.mem_map.mp hmem
      rcases mem_update t p g y hy with h1 | ⟨x, _, hyx⟩
      · exact hnd.1 (List.mem_map.mpr ⟨y, h1, hya⟩)
      · rw [hyx, hg x] at hya
        exact hfresh a (List.mem_cons_self _ _) hya.symm

/-! ## What a step does to the numbers -/

theorem callWithdraw_accNo (x : Account) (amt : F32) : (x.callWithdraw amt).2.accNo = x.accNo := by
  cases h : (x.callWithdraw amt).1 with
  | false => rw [callWithdraw_false_eq x amt h]
  | true => rw [callWithdraw_true_eq x amt h]

theorem callDeposit_accNo (x : Account) (amt : F32) : (x.callDeposit amt).accNo = x.accNo := by
  unfold Account.callDeposit
  cases x.kind <;> rfl

theorem addHistory_accNo (x : Account) (d : String) : (x.addHistory d).accNo = x.accNo := rfl

theorem changePin_accNo (x : Account) (np : Int) : (x.changePin np).accNo = x.accNo := rfl

theorem authLoop_result (a : Account) (n : Nat) (pins : List Int) (ok : Bool) (a1 : Account)
    (rest : List Int) (h : authLoop a n pins = some (ok, a1, rest)) :
    (ok = true ∧ a1 = a) ∨ (ok = false ∧ a1 = a.block) := by
  induction pins generalizing n with
  | nil =>
    unfold authLoop at h
    by_cases hn : n < 3
    · simp [hn] at h
    · simp [hn] at h
      obtain ⟨rfl, rfl, _⟩ := h
      simp
  | cons p t ih =>
    unfold authLoop at h
    by_cases hn : n < 3
    · by_cases hp : a.checkPin p = true
      · simp [hn, hp] at h
        obtain ⟨rfl, rfl, _⟩ := h
        simp
      · simp [hn, hp] at h
        exact ih (n + 1) h
    · simp [hn] at h
      obtain ⟨rfl, rfl, _⟩ := h
      simp

/-- The outcomes of `authenticateAccount`: success leaves the account as it is,
failure leaves it as it is (already blocked) or blocks it. -/
theorem authenticate_result (a : Account) (pins : List Int) (ok : Bool) (a1 : Account)
    (rest : List Int) (h : authenticateAccount a pins = some (ok, a1, rest)) :
    (ok = true ∧ a1 = a ∧ a.blocked = false) ∨ (ok = false ∧ (a1 = a ∨ a1 = a.block)) := by
  unfold authenticateAccount at h
  by_cases hb : a.isBlocked = true
  · simp [hb] at h
    obtain ⟨rfl, rfl, _⟩ := h
    simp
  · simp [hb] at h
    rcases authLoop_result a 0 pins ok a1 rest h with ⟨h1, h2⟩ | ⟨h1, h2⟩
    · refine Or.inl ⟨h1, h2, ?_⟩
      simpa [Account.isBlocked] using hb
    · exact Or.inr ⟨h1, Or.inr h2⟩

theorem authenticate_accNo (a : Account) (pins : List Int) (ok : Bool) (a1 : Account)
    (rest : List Int) (h : authenticateAccount a pins = some (ok, a1, rest)) :
    a1.accNo = a.accNo := by
  rcases authenticate_result a pins ok a1 rest h with ⟨_, h2, _⟩ | ⟨_, h2 | h2⟩
  · rw [h2]
  · rw [h2]
  · rw [h2]
    rfl

/-- A transfer, accepted or not, keeps the list of account numbers. -/
theorem transferFunds_numbers (b b2 : Bank) (a : Ptr) (r : Int) (amt : F32)
    (h : transferFunds b a r amt = some b2) :
    b2.map Account.accNo = b.map Account.accNo := by
  unfold transferFunds at h
  cases hs : Bank.search b r with
  | none =>
    simp [hs] at h
    rw [← h]
  | some recv =>
    cases hd : Bank.deref b a with
    | none => simp [hs, hd] at h
    | some acc =>
      simp only [hs, hd] at h
      by_cases hc : amt > 0 ∧ (acc.callWithdraw amt).1 = true
      · rw [if_pos hc] at h
        cases h
        rw [update_numbers _ _ _ (fun x _ => addHistory_accNo x _),
          update_numbers _ _ _ (fun x _ => addHistory_accNo x _),
          update_numbers _ _ _ (fun x _ => callDeposit_accNo x amt),
          update_numbers _ _ _ (fun x _ => callWithdraw_accNo x amt)]
      · rw [if_neg hc] at h
        cases h
        rfl

/-- After authentication, a pass of the ATM menu keeps the counter and can only
take a number out of the store. -/
theorem userATMMenuChoice_numbers (s s2 : State) (a : Ptr) (ch : Int) (inp : ATMInput) (c : Bool)
    (h : userATMMenuChoice s a ch inp = some (s2, c)) :
    s2.nextAccNo = s.nextAccNo ∧
    (s2.bank.map Account.accNo).Sublist (s.bank.map Account.accNo) := by
  unfold userATMMenuChoice at h
  split_ifs at h with h1 h2 h2a h3 h3a h4 h5 h6 h7
  · cases h; exact ⟨rfl, List.Sublist.refl _⟩
  · cases h
    refine ⟨rfl, ?_⟩
    simp only
    rw [update_numbers _ _ _ (fun x _ => callDeposit_accNo x inp.amt)]
  · cases h; exact ⟨rfl, List.Sublist.refl _⟩
  · cases h
    refine ⟨rfl, ?_⟩
    simp only
    rw [update_numbers _ _ _ (fun x _ => callWithdraw_accNo x inp.amt)]
  · cases h; exact ⟨rfl, List.Sublist.refl _⟩
  · cases h; exact ⟨rfl, List.Sublist.refl _⟩
  · cases ht : transferFunds s.bank a inp.r inp.amt with
    | none => simp [ht] at h
    | some b =>
      simp [ht] at h
      obtain ⟨h, _⟩ := h
      subst h
      refine ⟨rfl, ?_⟩
      simp only
      rw [transferFunds_numbers _ _ _ _ _ ht]
  · cases h
    refine ⟨rfl, ?_⟩
    simp only
    rw [update_numbers _ _ _ (fun x _ => changePin_accNo x inp.np)]
  · cases hd : Bank.deref s.bank a with
    | none => simp [hd] at h
    | some acc =>
      simp only [hd] at h
      by_cases hdel : (Bank.deleteAccount s.bank acc.getAccNo).1 = true
      · simp [hdel] at h
        obtain ⟨h, _⟩ := h
        subst h
        refine ⟨rfl, ?_⟩
        simp only
        rw [deleteAccount_numbers]
        exact List.erase_sublist _ _
      · simp [hdel] at h
        obtain ⟨h, _⟩ := h
        subst h
        exact ⟨rfl, List.Sublist.refl _⟩
  · cases h; exact ⟨rfl, List.Sublist.refl _⟩

/-- A pass of the ATM menu keeps the counter and can only take a number out of
the store. -/
theorem userATMMenuStep_numbers (s s2 : State) (a : Ptr) (ch : Int) (inp : ATMInput) (c : Bool)
    (h : userATMMenuStep s a ch inp = some (s2, c)) :
    s2.nextAccNo = s.nextAccNo ∧
    (s2.bank.map Account.accNo).Sublist (s.bank.map Account.accNo) := by
  unfold userATMMenuStep at h
  split_ifs at h with h8 hr
  · cases h; exact ⟨rfl, List.Sublist.refl _⟩
  · cases h; exact ⟨rfl, List.Sublist.refl _⟩
  · cases hd : Bank.deref s.bank a with
    | none => simp [hd] at h
    | some acc =>
      simp only [hd] at h
      cases hau : authenticateAccount acc inp.pins with
      | none => simp [hau] at h
      | some res =>
        obtain ⟨ok, acc1, rest⟩ := res
        simp only [hau] at h
        have hacc : acc1.accNo = acc.accNo := authenticate_accNo acc inp.pins ok acc1 rest hau
        have hnum : (Bank.update s.bank a (fun _ => acc1)).map Account.accNo
            = s.bank.map Account.accNo :=
          update_numbers _ _ _ (fun x hx => by
            rw [hd] at hx
            cases hx
            exact hacc)
        cases ok with
        | true =>
          simp only [if_true] at h
          have := userATMMenuChoice_numbers _ _ _ _ _ _ h
          simp only at this
          rw [hnum] at this
          exact this
        | false =>
          simp at h
          obtain ⟨h, _⟩ := h
          subst h
          exact ⟨rfl, by simp only; rw [hnum]⟩

theorem extends_of_subset (s s2 : State) (hI : s.WellNumbered)
    (hn : s2.nextAccNo = s.nextAccNo)
    (hsub : ∀ n ∈ s2.bank.map Account.accNo, n ∈ s.bank.map Account.accNo)
    (hnd : (s2.bank.map Account.accNo).Nodup) : s.Extends s2 := by
  refine ⟨⟨?_, hnd⟩, le_of_eq hn.symm, fun n h => Or.inl (hsub n h)⟩
  intro n h
  rw [hn]
  exact hI.1 n (hsub n h)

theorem extends_of_sublist (s s2 : State) (hI : s.WellNumbered)
    (hn : s2.nextAccNo = s.nextAccNo)
    (hsub : (s2.bank.map Account.accNo).Sublist (s.bank.map Account.accNo)) : s.Extends s2 :=
  extends_of_subset s s2 hI hn (fun _ h => hsub.subset h) (hI.2.sublist hsub)

theorem extends_of_perm (s s2 : State) (hI : s.WellNumbered)
    (hn : s2.nextAccNo = s.nextAccNo) (hp : s2.bank.Perm s.bank) : s.Extends s2 :=
  extends_of_subset s s2 hI hn (fun _ h => (hp.map Account.accNo).subset h)
    ((hp.map Account.accNo).nodup_iff.mpr hI.2)

theorem extends_refl (s : State) (hI : s.WellNumbered) : s.Extends s :=
  extends_of_sublist s s hI rfl (List.Sublist.refl _)

theorem extends_trans (s s1 s2 : State) (h1 : s.Extends s1) (h2 : s1.Extends s2) :
    s.Extends s2 := by
  refine ⟨h2.1, le_trans h1.2.1 h2.2.1, ?_⟩
  intro n hn
  rcases h2.2.2 n hn with h | h
  · exact h1.2.2 n h
  · exact Or.inr (le_trans h1.2.1 h)

/-- Opening an account hands out the value of the counter and moves the counter. -/
theorem createAccount_eq (s s2 : State) (k : Kind) (name : String) (pins : List Int)
    (h : createAccount s k name pins = some s2) :
    ∃ x, s2.bank = x :: s.bank ∧ x.accNo = s.nextAccNo ∧ s2.nextAccNo = s.nextAccNo + 1 := by
  unfold createAccount at h
  cases hp : readNewPin pins with
  | none => simp [hp] at h
  | some p =>
    simp only [hp] at h
    cases h
    exact ⟨_, rfl, rfl, rfl⟩

theorem createAccount_extends (s s2 : State) (k : Kind) (name : String) (pins : List Int)
    (hI : s.WellNumbered) (h : createAccount s k name pins = some s2) : s.Extends s2 := by
  obtain ⟨x, hb, hx, hn⟩ := createAccount_eq s s2 k name pins h
  refine ⟨⟨?_, ?_⟩, by rw [hn]; linarith, ?_⟩
  · intro n hmem
    rw [hb, List.map_cons, List.mem_cons] at hmem
    rw [hn]
    rcases hmem with h1 | h1
    · rw [h1, hx]; linarith
    · have := hI.1 n h1
      linarith
  · rw [hb, List.map_cons, List.nodup_cons]
    refine ⟨?_, hI.2⟩
    intro hmem
    have := hI.1 _ hmem
    rw [hx] at this
    exact lt_irrefl _ this
  · intro n hmem
    rw [hb, List.map_cons, List.mem_cons] at hmem
    rcases hmem with h1 | h1
    · exact Or.inr (by rw [h1, hx])
    · exact Or.inl h1

theorem adminMenuStep_extends (s : State) (ch : Int) (inp : AdminInput) (hI : s.WellNumbered) :
    s.Extends (adminMenuStep s ch inp) := by
  unfold adminMenuStep
  split_ifs with h3 h4 e1 e2 h6 h7 h8
  · exact extends_of_sublist _ _ hI rfl (by
      simp only
      rw [deleteAccount_numbers]
      exact List.erase_sublist _ _)
  · cases hs : Bank.search s.bank inp.acc with
    | none => exact extends_refl s hI
    | some a =>
      cases hd : Bank.deref s.bank a with
      | none =>
        simp only [hd]
        exact extends_refl s hI
      | some acc =>
        simp only [hd, Account.initNew]
        have hfresh : ∀ x ∈ s.bank, x.accNo ≠ s.nextAccNo := fun x hx =>
          ne_of_lt (hI.1 _ (List.mem_map.mpr ⟨x, hx, rfl⟩))
        refine ⟨⟨?_, ?_⟩, by simp, ?_⟩
        · intro n hmem
          obtain ⟨y, hy, hyn⟩ := List.mem_map.mp hmem
          simp only
          rcases mem_update _ _ _ y hy with h1 | ⟨x, _, hyx⟩
          · have := hI.1 n (List.mem_map.mpr ⟨y, h1, hyn⟩)
            linarith
          · rw [hyx] at hyn
            simp only at hyn
            rw [← hyn]
            linarith
        · exact update_fresh_nodup _ _ _ s.nextAccNo (fun _ => rfl) hfresh hI.2
        · intro n hmem
          obtain ⟨y, hy, hyn⟩ := List.mem_map.mp hmem
          rcases mem_update _ _ _ y hy with h1 | ⟨x, _, hyx⟩
          · exact Or.inl (List.mem_map.mpr ⟨y, h1, hyn⟩)
          · rw [hyx] at hyn
            simp only at hyn
            exact Or.inr (le_of_eq hyn)
  · cases hs : Bank.search s.bank inp.acc with
    | none => exact extends_refl s hI
    | some a =>
      exact extends_of_sublist _ _ hI rfl (by
        simp only
        rw [update_numbers _ _ _ (fun x _ => changePin_accNo x inp.np)])
  · cases hs : Bank.search s.bank inp.acc with
    | none => exact extends_refl s hI
    | some a => exact extends_refl s hI
  · exact extends_of_perm _ _ hI rfl (sort_perm compName s.bank)
  · exact extends_of_perm _ _ hI rfl (sort_perm compBalanceDesc s.bank)
  · exact extends_of_perm _ _ hI rfl (sort_perm compAccNo s.bank)
  · exact extends_refl s hI

/-- Every step keeps the store well numbered, never lowers the counter and brings
in only numbers handed out by the counter. -/
theorem step_extends (s s2 : State) (act : Action) (hI : s.WellNumbered)
    (h : step s act = some s2) : s.Extends s2 := by
  cases act with
  | create k name pins => exact createAccount_extends s s2 k name pins hI h
  | atm acc ch inp =>
    simp only [step] at h
    cases hs : Bank.search s.bank acc with
    | none =>
      simp [hs] at h
      subst h
      exact extends_refl s hI
    | some a =>
      simp only [hs] at h
      cases hu : userATMMenuStep s a ch inp with
      | none => simp [hu] at h
      | some res =>
        obtain ⟨s3, c⟩ := res
        simp [hu] at h
        subst h
        obtain ⟨hn, hsub⟩ := userATMMenuStep_numbers s s3 a ch inp c hu
        exact extends_of_sublist s s3 hI hn hsub
  | admin u p ch inp =>
    simp only [step] at h
    split_ifs at h
    · cases h
      exact adminMenuStep_extends s ch inp hI
    · cases h
      exact extends_refl s hI
  | display =>
    simp only [step] at h
    cases h
    exact extends_refl s hI

theorem init_wellNumbered : State.init.WellNumbered := by
  simp [State.WellNumbered, State.init]

/-- Every reachable state is well numbered. -/
theorem reachable_wellNumbered (s : State) (h : Reachable s) : s.WellNumbered := by
  induction h with
  | init => exact init_wellNumbered
  | step act _ hstep ih => exact (step_extends _ _ act ih hstep).1

theorem reachableFrom_extends (s s2 : State) (hI : s.WellNumbered) (h : ReachableFrom s s2) :
    s.Extends s2 := by
  induction h with
  | refl => exact extends_refl s hI
  | step act _ hstep ih => exact extends_trans _ _ _ ih (step_extends _ _ act ih.1 hstep)

theorem reachable_of_reachableFrom (s s2 : State) (hs : Reachable s) (h : ReachableFrom s s2) :
    Reachable s2 := by
  induction h with
  | refl => exact hs
  | step act _ hstep ih => exact Reachable.step act ih hstep

theorem reachableFrom_run (s s2 : State) (acts : List Action) (h : run s acts = some s2) :
    ReachableFrom s s2 := by
  have key : ∀ (acts : List Action) (s1 : State), ReachableFrom s s1 → run s1 acts = some s2 →
      ReachableFrom s s2 := by
    intro acts
    induction acts with
    | nil =>
      intro s1 h1 hr
      simp only [run] at hr
      cases hr
      exact h1
    | cons act rest ih =>
      intro s1 h1 hr
      simp only [run] at hr
      cases hst : step s1 act with
      | none => simp [hst] at hr
      | some s3 =>
        simp only [hst] at hr
        exact ih s3 (ReachableFrom.step act h1 hst) hr
  exact key acts s ReachableFrom.refl h

/-- What a run from the initial state ends in is reachable. -/
theorem reachable_run (s : State) (acts : List Action) (h : run State.init acts = some s) :
    Reachable s :=
  reachable_of_reachableFrom _ _ Reachable.init (reachableFrom_run _ _ acts h)

/-! ## Deleted numbers -/

/-- A number that is below the counter and absent from the store stays absent in
every later state, and no account opened later gets it. -/
theorem absent_number_stays_absent (s s2 : State) (id : Int) (hI : s.WellNumbered)
    (hlt : id < s.nextAccNo) (habs : id ∉ s.bank.map Account.accNo)
    (h : ReachableFrom s s2) :
    Bank.search s2.bank id = none ∧ id < s2.nextAccNo := by
  have hE := reachableFrom_extends s s2 hI h
  refine ⟨?_, lt_of_lt_of_le hlt hE.2.1⟩
  rw [search_eq_none_iff]
  intro x hx hxid
  rcases hE.2.2 id (List.mem_map.mpr ⟨x, hx, hxid⟩) with h1 | h1
  · exact habs h1
  · exact absurd hlt (not_lt.mpr h1)

/-- C9: in every reachable state, after `deleteAccount(id)` the search for `id`
finds nothing; and when `id` was the number of an account of the store (the
deletion returned true), the search for `id` finds nothing in any state the
program reaches afterwards and every account opened afterwards gets a number
different from `id`. -/
theorem deleted_number_never_returns (s : State) (hs : Reachable s) (id : Int) :
    Bank.search (Bank.deleteAccount s.bank id).2 id = none ∧
    ((Bank.deleteAccount s.bank id).1 = true →
      ∀ s2, ReachableFrom { s with bank := (Bank.deleteAccount s.bank id).2 } s2 →
        Bank.search s2.bank id = none ∧
        ∀ k name pins s3, createAccount s2 k name pins = some s3 →
          ∃ x, s3.bank = x :: s2.bank ∧ x.accNo ≠ id) := by
  have hI := reachable_wellNumbered s hs
  have habs : id ∉ (Bank.deleteAccount s.bank id).2.map Account.accNo := by
    rw [deleteAccount_numbers]
    exact hI.2.not_mem_erase
  constructor
  · rw [search_eq_none_iff]
    intro x hx hxid
    exact habs (List.mem_map.mpr ⟨x, hx, hxid⟩)
  · intro hdel s2 hr
    have hId : State.WellNumbered { s with bank := (Bank.deleteAccount s.bank id).2 } :=
      (extends_of_sublist s { s with bank := (Bank.deleteAccount s.bank id).2 } hI rfl (by
        simp only
        rw [deleteAccount_numbers]
        exact List.erase_sublist _ _)).1
    have hlt : id < s.nextAccNo := hI.1 id (deleteAccount_true_mem s.bank id hdel)
    obtain ⟨h1, h2⟩ := absent_number_stays_absent _ s2 id hId hlt habs hr
    refine ⟨h1, ?_⟩
    intro k name pins s3 hc
    obtain ⟨x, hb, hx, _⟩ := createAccount_eq s2 s3 k name pins hc
    exact ⟨x, hb, by rw [hx]; exact (ne_of_lt h2).symm⟩

/-- C9 at a concrete input: in the reachable state `exState` the account 200002 is
deleted. -/
theorem deleted_number_never_returns_witness :
    Reachable exState ∧ (Bank.deleteAccount exState.bank 200002).1 = true ∧
    Bank.search (Bank.deleteAccount exState.bank 200002).2 200002 = none ∧
    ((Bank.deleteAccount exState.bank 200002).1 = true →
      ∀ s2, ReachableFrom { exState with bank := (Bank.deleteAccount exState.bank 200002).2 } s2 →
        Bank.search s2.bank 200002 = none ∧
        ∀ k name pins s3, createAccount s2 k name pins = some s3 →
          ∃ x, s3.bank = x :: s2.bank ∧ x.accNo ≠ 200002) :=
  ⟨reachable_run exState exActions exState_reached, by decide!,
    deleted_number_never_returns exState (reachable_run exState exActions exState_reached) 200002⟩

/-! ## Blocked accounts -/

/-- Two accounts of a well-numbered store with the same number are the same account. -/
theorem eq_of_accNo_eq (b : Bank) (hnd : (b.map Account.accNo).Nodup) (x y : Account)
    (hx : x ∈ b) (hy : y ∈ b) (h : x.accNo = y.accNo) : x = y :=
  List.inj_on_of_nodup_map hnd hx hy h

theorem deleteAccount_sublist (b : Bank) (id : Int) : (Bank.deleteAccount b id).2.Sublist b := by
  induction b with
  | nil => simp [Bank.deleteAccount]
  | cons a t ih =>
    by_cases h : a.accNo = id
    · simp [Bank.deleteAccount, Account.getAccNo, h]
    · simp [Bank.deleteAccount, Account.getAccNo, h, ih]

theorem deref_number (b : Bank) (p : Ptr) (x : Account) (h : Bank.deref b p = some x) :
    (b.map Account.accNo)[p]? = some x.accNo := by
  unfold Bank.deref at h
  simp [h]

/-- An account of the store after a number-preserving mutation through `p` is an
account of the store before or carries the number found at `p`. -/
theorem mem_update_number (b : Bank) (p : Ptr) (f : Account → Account) (y : Account)
    (hf : ∀ x, (f x).accNo = x.accNo) (hy : y ∈ Bank.update b p f) :
    y ∈ b ∨ (b.map Account.accNo)[p]? = some y.accNo := by
  rcases mem_update b p f y hy with h | ⟨x, hx, hyx⟩
  · exact Or.inl h
  · refine Or.inr ?_
    rw [hyx, hf x]
    exact deref_number b p x hx

/-- The accounts of the store after a transfer are accounts of the store before,
or carry the number of the source or the number `r` of the receiver. -/
theorem transferFunds_mem (b b2 : Bank) (a : Ptr) (r : Int) (amt : F32) (A : Account)
    (hA : Bank.deref b a = some A) (h : transferFunds b a r amt = some b2) :
    ∀ y ∈ b2, y ∈ b ∨ y.accNo = A.accNo ∨ y.accNo = r := by
  unfold transferFunds at h
  cases hs : Bank.search b r with
  | none =>
    simp [hs] at h
    subst h
    exact fun y hy => Or.inl hy
  | some recv =>
    simp only [hs, hA] at h
    by_cases hc : amt > 0 ∧ (A.callWithdraw amt).1 = true
    · rw [if_pos hc] at h
      cases h
      obtain ⟨R, hR, hRr⟩ := search_some_deref b r recv hs
      have nA : (b.map Account.accNo)[a]? = some A.accNo := deref_number b a A hA
      have nR : (b.map Account.accNo)[recv]? = some r := by
        rw [← hRr]
        exact deref_number b recv R hR
      have e1 := update_numbers b a (fun x => (x.callWithdraw amt).2)
        (fun x _ => callWithdraw_accNo x amt)
      have e2 := update_numbers (Bank.update b a (fun x => (x.callWithdraw amt).2)) recv
        (fun x => x.callDeposit amt) (fun x _ => callDeposit_accNo x amt)
      have e3 := update_numbers (Bank.update (Bank.update b a (fun x => (x.callWithdraw amt).2))
        recv (fun x => x.callDeposit amt)) a
        (fun x => x.addHistory ("- " ++ to_string_float amt ++ " Transfer to " ++ to_string_ll r))
        (fun x _ => addHistory_accNo x _)
      intro y hy
      rcases mem_update_number _ _ _ y (fun x => addHistory_accNo x _) hy with h4 | h4
      · rcases mem_update_number _ _ _ y (fun x => addHistory_accNo x _) h4 with h3 | h3
        · rcases mem_update_number _ _ _ y (fun x => callDeposit_accNo x amt) h3 with h2 | h2
          · rcases mem_update_number _ _ _ y (fun x => callWithdraw_accNo x amt) h2 with h1 | h1
            · exact Or.inl h1
            · rw [nA] at h1
              exact Or.inr (Or.inl (Option.some.inj h1).symm)
          · rw [e1, nR] at h2
            exact Or.inr (Or.inr (Option.some.inj h2).symm)
        · rw [e2, e1, nA] at h3
          exact Or.inr (Or.inl (Option.some.inj h3).symm)
      · rw [e3, e2, e1, nR] at h4
        exact Or.inr (Or.inr (Option.some.inj h4).symm)
    · rw [if_neg hc] at h
      cases h
      exact fun y hy => Or.inl hy

/-- The accounts of the store after an authenticated pass of the ATM menu are
accounts of the store before, or carry the number of the logged-in account or,
in a transfer, the number of the receiver. -/
theorem userATMMenuChoice_mem (s s2 : State) (a : Ptr) (ch : Int) (inp : ATMInput) (c : Bool)
    (A : Account) (hA : Bank.deref s.bank a = some A)
    (h : userATMMenuChoice s a ch inp = some (s2, c)) :
    ∀ y ∈ s2.bank, y ∈ s.bank ∨ y.accNo = A.accNo ∨ (ch = 5 ∧ y.accNo = inp.r) := by
  have nA : (s.bank.map Account.accNo)[a]? = some A.accNo := deref_number s.bank a A hA
  have upd : ∀ (f : Account → Account), (∀ x, (f x).accNo = x.accNo) →
      ∀ y ∈ Bank.update s.bank a f, y ∈ s.bank ∨ y.accNo = A.accNo ∨ (ch = 5 ∧ y.accNo = inp.r) := by
    intro f hf y hy
    rcases mem_update_number _ _ _ y hf hy with h1 | h1
    · exact Or.inl h1
    · rw [nA] at h1
      exact Or.inr (Or.inl (Option.some.inj h1).symm)
  unfold userATMMenuChoice at h
  split_ifs at h with h1 h2 h2a h3 h3a h4 h5 h6 h7
  · cases h; exact fun y hy => Or.inl hy
  · cases h; exact upd _ (fun x => callDeposit_accNo x inp.amt)
  · cases h; exact fun y hy => Or.inl hy
  · cases h; exact upd _ (fun x => callWithdraw_accNo x inp.amt)
  · cases h; exact fun y hy => Or.inl hy
  · cases h; exact fun y hy => Or.inl hy
  · cases ht : transferFunds s.bank a inp.r inp.amt with
    | none => simp [ht] at h
    | some b =>
      simp [ht] at h
      obtain ⟨h, _⟩ := h
      subst h
      intro y hy
      rcases transferFunds_mem _ _ _ _ _ A hA ht y hy with h | h | h
      · exact Or.inl h
      · exact Or.inr (Or.inl h)
      · exact Or.inr (Or.inr ⟨h5, h⟩)
  · cases h; exact upd _ (fun x => changePin_accNo x inp.np)
  · simp only [hA] at h
    by_cases hdel : (Bank.deleteAccount s.bank A.getAccNo).1 = true
    · simp [hdel] at h
      obtain ⟨h, _⟩ := h
      subst h
      exact fun y hy => Or.inl ((deleteAccount_sublist s.bank A.getAccNo).subset hy)
    · simp [hdel] at h
      obtain ⟨h, _⟩ := h
      subst h
      exact fun y hy => Or.inl hy
  · cases h; exact fun y hy => Or.inl hy

/-- The same for a whole pass of the ATM menu, authentication included. -/
theorem userATMMenuStep_mem (s s2 : State) (a : Ptr) (ch : Int) (inp : ATMInput) (c : Bool)
    (A : Account) (hA : Bank.deref s.bank a = some A)
    (h : userATMMenuStep s a ch inp = some (s2, c)) :
    ∀ y ∈ s2.bank, y ∈ s.bank ∨ y.accNo = A.accNo ∨ (ch = 5 ∧ y.accNo = inp.r) := by
  unfold userATMMenuStep at h
  split_ifs at h with h8 hr
  · cases h; exact fun y hy => Or.inl hy
  · cases h; exact fun y hy => Or.inl hy
  · simp only [hA] at h
    cases hau : authenticateAccount A inp.pins with
    | none => simp [hau] at h
    | some res =>
      obtain ⟨ok, acc1, rest⟩ := res
      simp only [hau] at h
      have hacc : acc1.accNo = A.accNo := authenticate_accNo A inp.pins ok acc1 rest hau
      have hs1 : ∀ y ∈ Bank.update s.bank a (fun _ => acc1), y ∈ s.bank ∨ y.accNo = A.accNo := by
        intro y hy
        rcases mem_update _ _ _ y hy with h1 | ⟨x, _, hyx⟩
        · exact Or.inl h1
        · exact Or.inr (by rw [hyx]; exact hacc)
      have hd1 : Bank.deref (Bank.update s.bank a (fun _ => acc1)) a = some acc1 := by
        rw [deref_update_same, hA]
        rfl
      cases ok with
      | true =>
        simp only [if_true] at h
        intro y hy
        rcases userATMMenuChoice_mem _ _ _ _ _ _ acc1 hd1 h y hy with h1 | h1 | h1
        · rcases hs1 y h1 with h2 | h2
          · exact Or.inl h2
          · exact Or.inr (Or.inl h2)
        · exact Or.inr (Or.inl (h1.trans hacc))
        · exact Or.inr (Or.inr h1)
      | false =>
        simp at h
        obtain ⟨h, _⟩ := h
        subst h
        intro y hy
        rcases hs1 y hy with h2 | h2
        · exact Or.inl h2
        · exact Or.inr (Or.inl h2)

/-- Every pass of the ATM menu of a blocked account returns with the state as it was. -/
theorem userATMMenuStep_blocked (s : State) (a : Ptr) (ch : Int) (inp : ATMInput) (B : Account)
    (hB : Bank.deref s.bank a = some B) (hb : B.blocked = true) :
    ∃ c, userATMMenuStep s a ch inp = some (s, c) := by
  unfold userATMMenuStep
  split_ifs with h8 hr
  · exact ⟨false, rfl⟩
  · exact ⟨true, rfl⟩
  · refine ⟨true, ?_⟩
    simp only [hB, authenticate_blocked B inp.pins hb]
    have hu : Bank.update s.bank a (fun _ => B) = s.bank :=
      update_id_of_deref s.bank a _ (fun x hx => by
        rw [hB] at hx
        exact Option.some.inj hx)
    simp [hu]

/-- The accounts of the store after a pass of the admin menu are accounts of the
store before, or come out of choice 4 (edit), carrying the number asked for or
the number the counter hands out. -/
theorem adminMenuStep_mem (s : State) (ch : Int) (inp : AdminInput) :
    ∀ y ∈ (adminMenuStep s ch inp).bank,
      y ∈ s.bank ∨ (ch = 4 ∧ (y.accNo = s.nextAccNo ∨ y.accNo = inp.acc)) := by
  unfold adminMenuStep
  split_ifs with h3 h4 e1 e2 h6 h7 h8
  · exact fun y hy => Or.inl ((deleteAccount_sublist s.bank inp.acc).subset hy)
  · cases hs : Bank.search s.bank inp.acc with
    | none => exact fun y hy => Or.inl hy
    | some a =>
      cases hd : Bank.deref s.bank a with
      | none =>
        simp only [hd]
        exact fun y hy => Or.inl hy
      | some acc =>
        simp only [hd, Account.initNew]
        intro y hy
        rcases mem_update _ _ _ y hy with h1 | ⟨x, _, hyx⟩
        · exact Or.inl h1
        · exact Or.inr ⟨h4, Or.inl (by rw [hyx])⟩
  · cases hs : Bank.search s.bank inp.acc with
    | none => exact fun y hy => Or.inl hy
    | some a =>
      simp only
      intro y hy
      obtain ⟨R, hR, hRr⟩ := search_some_deref s.bank inp.acc a hs
      rcases mem_update_number _ _ _ y (fun x => changePin_accNo x inp.np) hy with h1 | h1
      · exact Or.inl h1
      · rw [deref_number s.bank a R hR, hRr] at h1
        exact Or.inr ⟨h4, Or.inr (Option.some.inj h1).symm⟩
  · cases hs : Bank.search s.bank inp.acc with
    | none => exact fun y hy => Or.inl hy
    | some a => exact fun y hy => Or.inl hy
  · exact fun y hy => Or.inl ((sort_perm compName s.bank).subset hy)
  · exact fun y hy => Or.inl ((sort_perm compBalanceDesc s.bank).subset hy)
  · exact fun y hy => Or.inl ((sort_perm compAccNo s.bank).subset hy)
  · exact fun y hy => Or.inl hy

/-- The state with the blocked Savings account is the one the program is in after
`exActionsBlocked`. -/
theorem exStateBlocked_reached : run State.init exActionsBlocked = some exStateBlocked := by
  decide!

/-- C7 (as stated, refuted): in the reachable state `exStateBlocked` the Savings
account 200002 is blocked, with balance 2550 and PIN 5678. A transfer of 1000
from account 200001 to it leaves it blocked with balance 3621, and the admin's
"Change PIN" for it leaves it blocked with PIN 9999. -/
theorem blocked_account_changed_counterexample :
    run State.init exActionsBlocked = some exStateBlocked ∧
    Bank.deref exStateBlocked.bank 1 = some exBlocked ∧
    (exBlocked.blocked, exBlocked.balance, exBlocked.pin) = (true, 2550, 5678) ∧
    (step exStateBlocked
        (Action.atm 200001 5 { pins := [1234], amt := 1000, r := 200002, np := 0, confirm := "" })).map
      (fun s => (Bank.deref s.bank 1).map (fun x => (x.accNo, x.blocked, x.balance, x.pin)))
      = some (some (200002, true, 3621, 5678)) ∧
    (step exStateBlocked
        (Action.admin "admin" "admin123" 4 { acc := 200002, e := 2, nm := "", np := 9999 })).map
      (fun s => (Bank.deref s.bank 1).map (fun x => (x.accNo, x.blocked, x.balance, x.pin)))
      = some (some (200002, true, 2550, 9999)) := by
  decide!

/-- C7 (amended): in every reachable state, a step of the program other than a
transfer from another account that names the blocked account as receiver and
other than the admin's edit of the blocked account leaves a blocked account, as
long as it is still in the store, with the same balance and the same PIN, and
blocked. In particular every choice of the blocked account's own ATM menu
(deposit, withdraw, transfer out, PIN change, delete) changes nothing. -/
theorem blocked_account_inert (s s2 : State) (act : Action) (B : Account)
    (hs : Reachable s) (hB : B ∈ s.bank) (hb : B.blocked = true)
    (hact : ¬ act.creditsOrEdits B.accNo) (hstep : step s act = some s2) :
    ∀ B2 ∈ s2.bank, B2.accNo = B.accNo →
      B2.balance = B.balance ∧ B2.pin = B.pin ∧ B2.blocked = true := by
  have hI := reachable_wellNumbered s hs
  have key : ∀ y ∈ s.bank, y.accNo = B.accNo →
      y.balance = B.balance ∧ y.pin = B.pin ∧ y.blocked = true := by
    intro y hy hyB
    have := eq_of_accNo_eq s.bank hI.2 y B hy hB hyB
    rw [this]
    exact ⟨rfl, rfl, hb⟩
  have hlt : B.accNo < s.nextAccNo := hI.1 _ (List.mem_map.mpr ⟨B, hB, rfl⟩)
  intro B2 hB2 hnum
  cases act with
  | create k name pins =>
    obtain ⟨x, hbk, hx, _⟩ := createAccount_eq s s2 k name pins hstep
    rw [hbk, List.mem_cons] at hB2
    rcases hB2 with h | h
    · rw [h, hx] at hnum
      exact absurd hnum (ne_of_gt hlt)
    · exact key B2 h hnum
  | atm acc ch inp =>
    simp only [step] at hstep
    cases hsr : Bank.search s.bank acc with
    | none =>
      simp [hsr] at hstep
      subst hstep
      exact key B2 hB2 hnum
    | some a =>
      simp only [hsr] at hstep
      obtain ⟨A, hA, hAacc⟩ := search_some_deref s.bank acc a hsr
      cases hu : userATMMenuStep s a ch inp with
      | none => simp [hu] at hstep
      | some res =>
        obtain ⟨s3, c⟩ := res
        simp [hu] at hstep
        subst hstep
        by_cases hacc : acc = B.accNo
        · have hAB : A = B :=
            eq_of_accNo_eq s.bank hI.2 A B (deref_mem s.bank a A hA) hB (hAacc.trans hacc)
          rw [hAB] at hA
          obtain ⟨c2, hc2⟩ := userATMMenuStep_blocked s a ch inp B hA hb
          rw [hc2] at hu
          cases hu
          exact key B2 hB2 hnum
        · rcases userATMMenuStep_mem s s3 a ch inp c A hA hu B2 hB2 with h | h | ⟨h5, hr⟩
          · exact key B2 h hnum
          · exact absurd ((hAacc.symm.trans h.symm).trans hnum) hacc
          · exact absurd ⟨h5, hr.symm.trans hnum, hacc⟩ hact
  | admin u p ch inp =>
    simp only [step] at hstep
    split_ifs at hstep
    · cases hstep
      rcases adminMenuStep_mem s ch inp B2 hB2 with h | ⟨h4, h | h⟩
      · exact key B2 h hnum
      · rw [h] at hnum
        exact absurd hnum (ne_of_gt hlt)
      · exact absurd ⟨h4, h.symm.trans hnum⟩ hact
    · cases hstep
      exact key B2 hB2 hnum
  | display =>
    simp only [step] at hstep
    cases hstep
    exact key B2 hB2 hnum

/-- C7 (amended), at a concrete input: the blocked account 200002 asks its own ATM
menu for a withdrawal of 100 and types the right PIN. -/
theorem blocked_account_inert_witness :
    Reachable exStateBlocked ∧ exBlocked ∈ exStateBlocked.bank ∧ exBlocked.blocked = true ∧
    ¬ (Action.atm 200002 3
        { pins := [5678], amt := 100, r := 0, np := 0, confirm := "" }).creditsOrEdits
        exBlocked.accNo ∧
    step exStateBlocked
      (Action.atm 200002 3 { pins := [5678], amt := 100, r := 0, np := 0, confirm := "" })
      = some exStateBlocked ∧
    ∀ B2 ∈ exStateBlocked.bank, B2.accNo = exBlocked.accNo →
      B2.balance = exBlocked.balance ∧ B2.pin = exBlocked.pin ∧ B2.blocked = true :=
  ⟨reachable_run exStateBlocked exActionsBlocked exStateBlocked_reached, by decide!, by decide,
    by simp [Action.creditsOrEdits], by decide!,
    blocked_account_inert exStateBlocked exStateBlocked
      (Action.atm 200002 3 { pins := [5678], amt := 100, r := 0, np := 0, confirm := "" })
      exBlocked (reachable_run exStateBlocked exActionsBlocked exStateBlocked_reached)
      (by decide!) (by decide) (by simp [Action.creditsOrEdits]) (by decide!)⟩

/-! ## The order a sort leaves -/

theorem sortInsert_sorted {α : Type} (comp : α → α → Bool) (le : α → α → Prop) (P : α → Prop)
    (htrans : ∀ a b c, le a b → le b c → le a c)
    (hlt : ∀ a b, comp a b = true → le a b)
    (hge : ∀ a b, P a → P b → comp a b = false → le b a)
    (val : α) (l : List α) (hval : P val) (hP : ∀ x ∈ l, P x) (hl : l.Pairwise le) :
    (sortInsert comp val l).Pairwise le := by
  induction l with
  | nil => simp [sortInsert]
  | cons x rest ih =>
    rw [List.pairwise_cons] at hl
    unfold sortInsert
    by_cases h : comp val x = true
    · rw [if_pos h]
      have hvx : le val x := hlt val x h
      refine List.Pairwise.cons ?_ (List.Pairwise.cons hl.1 hl.2)
      intro y hy
      rcases List.mem_cons.mp hy with hy | hy
      · rw [hy]; exact hvx
      · exact htrans _ _ _ hvx (hl.1 y hy)
    · rw [if_neg h]
      have hxv : le x val :=
        hge val x hval (hP x (List.mem_cons_self x rest)) (by simpa using h)
      refine List.Pairwise.cons ?_
        (ih (fun y hy => hP y (List.mem_cons_of_mem x hy)) hl.2)
      intro y hy
      rcases List.mem_cons.mp ((sortInsert_perm comp val rest).subset hy) with hy | hy
      · rw [hy]; exact hxv
      · exact hl.1 y hy

theorem std_sort_aux_sorted {α : Type} (comp : α → α → Bool) (le : α → α → Prop) (P : α → Prop)
    (htrans : ∀ a b c, le a b → le b c → le a c)
    (hlt : ∀ a b, comp a b = true → le a b)
    (hge : ∀ a b, P a → P b → comp a b = false → le b a)
    (v acc : List α) (hv : ∀ x ∈ v, P x) (hP : ∀ x ∈ acc, P x) (hacc : acc.Pairwise le) :
    (v.foldl (fun sorted val => sortInsert comp val sorted) acc).Pairwise le := by
  induction v generalizing acc with
  | nil => exact hacc
  | cons x t ih =>
    refine ih _ (fun y hy => hv y (List.mem_cons_of_mem x hy)) ?_
      (sortInsert_sorted comp le P htrans hlt hge x acc (hv x (List.mem_cons_self x t)) hP hacc)
    intro y hy
    rcases List.mem_cons.mp ((sortInsert_perm comp x acc).subset hy) with hy | hy
    · rw [hy]; exact hv x (List.mem_cons_self x t)
    · exact hP y hy

/-- The sort leaves the vector ordered by the relation the comparator decides, when
the relation is transitive and any two elements of the vector are comparable. -/
theorem std_sort_sorted {α : Type} (comp : α → α → Bool) (le : α → α → Prop) (P : α → Prop)
    (htrans : ∀ a b c, le a b → le b c → le a c)
    (hlt : ∀ a b, comp a b = true → le a b)
    (hge : ∀ a b, P a → P b → comp a b = false → le b a)
    (v : List α) (hv : ∀ x ∈ v, P x) :
    (std_sort comp v).Pairwise le :=
  std_sort_aux_sorted comp le P htrans hlt hge v [] hv (fun _ h => absurd h (List.not_mem_nil _))
    List.Pairwise.nil

/-- The order of the list after each sort, for every store: the reverse of the
order of the comparator. After `sortByBalanceDesc` the balances never decrease
along the list (when no balance is not-a-number, as in every state the program
reaches), after `sortByName` the names never increase, after `sortByAccNo` the
numbers never increase. -/
theorem sorts_leave_reverse_order (b : Bank) :
    ((∀ x ∈ b, x.balance.val ≠ F32Val.nan) →
      (Bank.sortByBalanceDesc b).Pairwise (fun x y => x.balance ≤ y.balance)) ∧
    (Bank.sortByName b).Pairwise (fun x y => y.name ≤ x.name) ∧
    (Bank.sortByAccNo b).Pairwise (fun x y => y.accNo ≤ x.accNo) := by
  refine ⟨?_, ?_, ?_⟩
  · intro hnan
    unfold Bank.sortByBalanceDesc
    rw [rebuildFromVector_eq, List.pairwise_reverse]
    exact std_sort_sorted compBalanceDesc (fun x y : Account => y.balance ≤ x.balance)
      (fun x => x.balance.val ≠ F32Val.nan)
      (fun x y z h1 h2 => F32.le_chain _ _ _ h2 h1)
      (fun x y h => by
        simp only [compBalanceDesc, Account.getBalance, decide_eq_true_eq] at h
        exact F32.lt_imp_le _ _ h)
      (fun x y hx hy h => by
        simp only [compBalanceDesc, Account.getBalance, decide_eq_false_iff_not] at h
        exact F32.not_lt_imp_le _ _ hy hx h)
      (Bank.toVector b) hnan
  · unfold Bank.sortByName
    rw [rebuildFromVector_eq, List.pairwise_reverse]
    exact std_sort_sorted compName (fun x y : Account => x.name ≤ y.name) (fun _ => True)
      (fun x y z h1 h2 => le_trans h1 h2)
      (fun x y h => by
        simp only [compName, Account.getName, decide_eq_true_eq] at h
        exact le_of_lt h)
      (fun x y _ _ h => by
        simp only [compName, Account.getName, decide_eq_false_iff_not] at h
        exact not_lt.mp h)
      (Bank.toVector b) (fun _ _ => trivial)
  · unfold Bank.sortByAccNo
    rw [rebuildFromVector_eq, List.pairwise_reverse]
    exact std_sort_sorted compAccNo (fun x y : Account => x.accNo ≤ y.accNo) (fun _ => True)
      (fun x y z h1 h2 => le_trans h1 h2)
      (fun x y h => by
        simp only [compAccNo, Account.getAccNo, decide_eq_true_eq] at h
        exact le_of_lt h)
      (fun x y _ _ h => by
        simp only [compAccNo, Account.getAccNo, decide_eq_false_iff_not] at h
        exact not_lt.mp h)
      (Bank.toVector b) (fun _ _ => trivial)

/-! ## Amounts that are not positive -/

/-- Writing the result of `authenticateAccount` back through the pointer leaves the
balance and the history behind every pointer as they were. -/
theorem writeBack_fields (b : Bank) (a : Ptr) (A A1 : Account)
    (hA : Bank.deref b a = some A) (h : A1 = A ∨ A1 = A.block) (q : Ptr) :
    (Bank.deref (Bank.update b a (fun _ => A1)) q).map Account.balance
      = (Bank.deref b q).map Account.balance ∧
    (Bank.deref (Bank.update b a (fun _ => A1)) q).map Account.history
      = (Bank.deref b q).map Account.history := by
  by_cases hq : q = a
  · subst hq
    rw [deref_update_same, hA]
    rcases h with h | h <;> subst h <;> exact ⟨rfl, rfl⟩
  · rw [deref_update_ne _ _ _ _ (Ne.symm hq)]
    exact ⟨rfl, rfl⟩

theorem authenticate_cases (a : Account) (pins : List Int) (ok : Bool) (a1 : Account)
    (rest : List Int) (h : authenticateAccount a pins = some (ok, a1, rest)) :
    a1 = a ∨ a1 = a.block := by
  rcases authenticate_result a pins ok a1 rest h with ⟨_, h2, _⟩ | ⟨_, h2⟩
  · exact Or.inl h2
  · exact h2

/-- C11 (as stated, refuted): the withdraw methods do not look at the sign of the
amount. On `exSavings` (balance 2550) `withdraw(-50)` returns true and leaves 2600;
on `exCurrent` (balance 5000) `withdraw(-50)` returns true and leaves 5050; and
`withdraw(0)` on `exSavings` returns true as well. -/
theorem withdraw_nonpositive_counterexample :
    (-50 : F32) ≤ 0 ∧ exSavings.kind = Kind.Savings ∧ exSavings.balance = 2550 ∧
    (exSavings.callWithdraw (-50)).1 = true ∧ (exSavings.callWithdraw (-50)).2.balance = 2600 ∧
    exCurrent.kind = Kind.Current ∧ exCurrent.balance = 5000 ∧
    (exCurrent.callWithdraw (-50)).1 = true ∧ (exCurrent.callWithdraw (-50)).2.balance = 5050 ∧
    (exSavings.callWithdraw 0).1 = true := by
  decide!

/-- C11 (amended): for every account (behind the pointer `a`, of either kind), in
every state, and every amount `≤ 0`, a pass of the ATM menu with choice 3
(withdraw) or 5 (transfer) whose authentication returns ends with the state as
authentication left it: the guard `amt > 0` stops the amount before `withdraw`
is called, and the balance and the history behind every pointer are unchanged. -/
theorem nonpositive_amount_rejected (s : State) (a : Ptr) (ch : Int) (inp : ATMInput)
    (A A1 : Account) (ok : Bool) (rest : List Int)
    (hch : ch = 3 ∨ ch = 5) (hA : Bank.deref s.bank a = some A)
    (hau : authenticateAccount A inp.pins = some (ok, A1, rest)) (hamt : inp.amt ≤ 0) :
    userATMMenuStep s a ch inp
      = some ({ s with bank := Bank.update s.bank a (fun _ => A1) }, true) ∧
    ∀ q, (Bank.deref (Bank.update s.bank a (fun _ => A1)) q).map Account.balance
          = (Bank.deref s.bank q).map Account.balance ∧
         (Bank.deref (Bank.update s.bank a (fun _ => A1)) q).map Account.history
          = (Bank.deref s.bank q).map Account.history := by
  refine ⟨?_, writeBack_fields s.bank a A A1 hA (authenticate_cases A inp.pins ok A1 rest hau)⟩
  have hnot : ¬ inp.amt > 0 := F32.le_imp_not_gt inp.amt 0 hamt
  have hd1 : Bank.deref (Bank.update s.bank a (fun _ => A1)) a = some A1 := by
    rw [deref_update_same, hA]
    rfl
  unfold userATMMenuStep
  rcases hch with h | h
  · subst h
    simp only [hA, hau]
    cases ok with
    | true => simp [userATMMenuChoice, hnot]
    | false => simp
  · subst h
    simp only [hA, hau]
    cases ok with
    | true =>
      have ht := transferFunds_failure (Bank.update s.bank a (fun _ => A1)) a inp.r inp.amt A1
        hd1 (Or.inl hamt)
      simp [userATMMenuChoice, ht]
    | false => simp

/-- C11 (amended), at a concrete input: in `exState` the Savings account 200002 asks
for a withdrawal of -50 with the right PIN. -/
theorem nonpositive_amount_rejected_witness :
    ((3 : Int) = 3 ∨ (3 : Int) = 5) ∧ Bank.deref exState.bank 1 = some exSavings ∧
    authenticateAccount exSavings [5678] = some (true, exSavings, []) ∧ (-50 : F32) ≤ 0 ∧
    userATMMenuStep exState 1 3 { pins := [5678], amt := -50, r := 0, np := 0, confirm := "" }
      = some ({ exState with bank := Bank.update exState.bank 1 (fun _ => exSavings) }, true) ∧
    ∀ q, (Bank.deref (Bank.update exState.bank 1 (fun _ => exSavings)) q).map Account.balance
          = (Bank.deref exState.bank q).map Account.balance ∧
         (Bank.deref (Bank.update exState.bank 1 (fun _ => exSavings)) q).map Account.history
          = (Bank.deref exState.bank q).map Account.history :=
  ⟨Or.inl rfl, by decide!, by decide!, by decide!,
    nonpositive_amount_rejected exState 1 3
      { pins := [5678], amt := -50, r := 0, np := 0, confirm := "" } exSavings exSavings true []
      (Or.inl rfl) (by decide!) (by decide!) (by decide!)⟩

/-! ## Records appended -/

theorem callDeposit_history_length (x : Account) (amt : F32) :
    (x.callDeposit amt).history.length = x.history.length + 1 := by
  unfold Account.callDeposit
  cases x.kind <;> simp [SavingsAccount.deposit, Account.deposit, Account.addHistory]

theorem callWithdraw_history_length (x : Account) (amt : F32) (h : (x.callWithdraw amt).1 = true) :
    (x.callWithdraw amt).2.history.length = x.history.length + 1 := by
  rw [callWithdraw_true_eq x amt h]
  simp

/-- C12 (as stated, refuted): in the reachable store `exBank` the account 200001
(one record) sends 1000 to the account 200003 (one record). Afterwards each of
the two has three records and not two: the source got the record of the
withdrawal and the record of the transfer, the receiver the record of the
deposit and the record of the transfer. -/
theorem transfer_records_counterexample :
    Bank.deref exBank 2 = some exCurrent ∧ Bank.search exBank 200003 = some 0 ∧
    Bank.deref exBank 0 = some exCurrent2 ∧ (exCurrent.callWithdraw 1000).1 = true ∧
    exCurrent.history.length = 1 ∧ exCurrent2.history.length = 1 ∧
    (transferFunds exBank 2 200003 1000).map
        (fun b2 => b2.map (fun x => (x.accNo, x.history.map Transaction.detail)))
      = some [(200003, ["+ 2000.000000 Deposit", "+ 1000.000000 Deposit",
                        "+ 1000.000000 Transfer from 200001"]),
              (200002, ["+ 2500.000000 Deposit (interest 50.000000)"]),
              (200001, ["+ 5000.000000 Deposit", "- 1000.000000 Withdraw",
                        "- 1000.000000 Transfer to 200003"])] := by
  decide!

/-- C12 (amended): every deposit and every accepted withdrawal lengthens the
history of the account by exactly one record; an accepted transfer between two
distinct accounts lengthens the history of the source by exactly two records,
the record of the withdrawal followed by a record naming the receiver's number,
and the history of the receiver by exactly two records, the record of the
deposit followed by a record naming the source's number. -/
theorem history_growth (b : Bank) (a recv : Ptr) (r : Int) (amt : F32) (A B : Account)
    (hA : Bank.deref b a = some A) (hr : Bank.search b r = some recv) (hne : recv ≠ a)
    (hB : Bank.deref b recv = some B) (hamt : amt > 0) (hw : (A.callWithdraw amt).1 = true) :
    (∀ (x : Account) (d : F32), (x.callDeposit d).history.length = x.history.length + 1) ∧
    (∀ (x : Account) (d : F32), (x.callWithdraw d).1 = true →
      (x.callWithdraw d).2.history.length = x.history.length + 1) ∧
    ∃ b2 A2 B2, transferFunds b a r amt = some b2 ∧
      Bank.deref b2 a = some A2 ∧ Bank.deref b2 recv = some B2 ∧
      A2.history = A.history ++
        [⟨"- " ++ to_string_float amt ++ " Withdraw"⟩,
         ⟨"- " ++ to_string_float amt ++ " Transfer to " ++ to_string_ll B.accNo⟩] ∧
      B2.history = (B.callDeposit amt).history ++
        [⟨"+ " ++ to_string_float amt ++ " Transfer from " ++ to_string_ll A.accNo⟩] ∧
      A2.history.length = A.history.length + 2 ∧
      B2.history.length = B.history.length + 2 := by
  refine ⟨callDeposit_history_length, callWithdraw_history_length, ?_⟩
  obtain ⟨b2, hT, hA2, hB2, _⟩ := transferFunds_success b a recv r amt A B hA hr hne hB hamt hw
  obtain ⟨x, hx, hxr⟩ := search_some_deref b r recv hr
  rw [hB] at hx
  cases hx
  refine ⟨b2, _, _, hT, hA2, hB2, ?_, ?_, ?_, ?_⟩
  · rw [callWithdraw_true_eq A amt hw, hxr]
    simp [Account.addHistory]
  · rfl
  · rw [callWithdraw_true_eq A amt hw]
    simp [Account.addHistory]
  · simp [Account.addHistory, callDeposit_history_length]

/-- C12 (amended), at a concrete input: `exCurrent` sends 1000 to `exCurrent2` in
`exBank`. -/
theorem history_growth_witness :
    Bank.deref exBank 2 = some exCurrent ∧ Bank.search exBank 200003 = some 0 ∧ (0 : Ptr) ≠ 2 ∧
    Bank.deref exBank 0 = some exCurrent2 ∧ (1000 : F32) > 0 ∧
    (exCurrent.callWithdraw 1000).1 = true ∧
    ∃ b2 A2 B2, transferFunds exBank 2 200003 1000 = some b2 ∧
      Bank.deref b2 2 = some A2 ∧ Bank.deref b2 0 = some B2 ∧
      A2.history.length = exCurrent.history.length + 2 ∧
      B2.history.length = exCurrent2.history.length + 2 := by
  have h := history_growth exBank 2 0 200003 1000 exCurrent exCurrent2
    (by decide!) (by decide!) (by decide) (by decide!) (by decide!) (by decide!)
  obtain ⟨_, _, b2, A2, B2, h1, h2, h3, _, _, h6, h7⟩ := h
  exact ⟨by decide!, by decide!, by decide, by decide!, by decide!, by decide!,
    b2, A2, B2, h1, h2, h3, h6, h7⟩

/-! ## Where the accounts of the next state come from -/

theorem update_rel (R : Account → Account → Prop) (hR : MutatorClosed R) (b0 b : Bank) (p : Ptr)
    (f : Account → Account) (hf : ∀ x, R x (f x)) (hb : ∀ y ∈ b, ∃ x ∈ b0, R x y) :
    ∀ y ∈ Bank.update b p f, ∃ x ∈ b0, R x y := by
  intro y hy
  rcases mem_update b p f y hy with h | ⟨z, hz, hyz⟩
  · exact hb y h
  · obtain ⟨x, hx, hxz⟩ := hb z (deref_mem b p z hz)
    exact ⟨x, hx, hR.trans x z y hxz (by rw [hyz]; exact hf z)⟩

theorem transferFunds_rel (R : Account → Account → Prop) (hR : MutatorClosed R) (b0 b b2 : Bank)
    (a : Ptr) (r : Int) (amt : F32) (h : transferFunds b a r amt = some b2)
    (hb : ∀ y ∈ b, ∃ x ∈ b0, R x y) : ∀ y ∈ b2, ∃ x ∈ b0, R x y := by
  unfold transferFunds at h
  cases hs : Bank.search b r with
  | none =>
    simp [hs] at h
    subst h
    exact hb
  | some recv =>
    cases hd : Bank.deref b a with
    | none => simp [hs, hd] at h
    | some acc =>
      simp only [hs, hd] at h
      by_cases hc : amt > 0 ∧ (acc.callWithdraw amt).1 = true
      · rw [if_pos hc] at h
        cases h
        refine update_rel R hR b0 _ _ _ (fun x => hR.addHistory x _) ?_
        refine update_rel R hR b0 _ _ _ (fun x => hR.addHistory x _) ?_
        refine update_rel R hR b0 _ _ _ (fun x => hR.deposit x amt hc.1) ?_
        exact update_rel R hR b0 _ _ _ (fun x => hR.withdraw x amt hc.1) hb
      · rw [if_neg hc] at h
        cases h
        exact hb

theorem userATMMenuChoice_rel (R : Account → Account → Prop) (hR : MutatorClosed R) (b0 : Bank)
    (s s2 : State) (a : Ptr) (ch : Int) (inp : ATMInput) (c : Bool)
    (h : userATMMenuChoice s a ch inp = some (s2, c))
    (hb : ∀ y ∈ s.bank, ∃ x ∈ b0, R x y) : ∀ y ∈ s2.bank, ∃ x ∈ b0, R x y := by
  unfold userATMMenuChoice at h
  split_ifs at h with h1 h2 h2a h3 h3a h4 h5 h6 h7
  · cases h; exact hb
  · cases h; exact update_rel R hR b0 _ _ _ (fun x => hR.deposit x inp.amt h2a) hb
  · cases h; exact hb
  · cases h; exact update_rel R hR b0 _ _ _ (fun x => hR.withdraw x inp.amt h3a) hb
  · cases h; exact hb
  · cases h; exact hb
  · cases ht : transferFunds s.bank a inp.r inp.amt with
    | none => simp [ht] at h
    | some b =>
      simp [ht] at h
      obtain ⟨h, _⟩ := h
      subst h
      exact transferFunds_rel R hR b0 _ _ _ _ _ ht hb
  · cases h; exact update_rel R hR b0 _ _ _ (fun x => hR.changePin x inp.np) hb
  · cases hd : Bank.deref s.bank a with
    | none => simp [hd] at h
    | some acc =>
      simp only [hd] at h
      by_cases hdel : (Bank.deleteAccount s.bank acc.getAccNo).1 = true
      · simp [hdel] at h
        obtain ⟨h, _⟩ := h
        subst h
        exact fun y hy => hb y ((deleteAccount_sublist s.bank acc.getAccNo).subset hy)
      · simp [hdel] at h
        obtain ⟨h, _⟩ := h
        subst h
        exact hb
  · cases h; exact hb

/-- Every account of the store after a pass of the ATM menu is related to an
account of the store before. -/
theorem userATMMenuStep_rel (R : Account → Account → Prop) (hR : MutatorClosed R)
    (s s2 : State) (a : Ptr) (ch : Int) (inp : ATMInput) (c : Bool)
    (h : userATMMenuStep s a ch inp = some (s2, c)) : ∀ y ∈ s2.bank, ∃ x ∈ s.bank, R x y := by
  have h0 : ∀ y ∈ s.bank, ∃ x ∈ s.bank, R x y := fun y hy => ⟨y, hy, hR.refl y⟩
  unfold userATMMenuStep at h
  split_ifs at h with h8 hr
  · cases h; exact h0
  · cases h; exact h0
  · cases hd : Bank.deref s.bank a with
    | none => simp [hd] at h
    | some acc =>
      simp only [hd] at h
      cases hau : authenticateAccount acc inp.pins with
      | none => simp [hau] at h
      | some res =>
        obtain ⟨ok, acc1, rest⟩ := res
        simp only [hau] at h
        have hs1 : ∀ y ∈ Bank.update s.bank a (fun _ => acc1), ∃ x ∈ s.bank, R x y := by
          intro y hy
          rcases mem_update _ _ _ y hy with h1 | ⟨z, hz, hyz⟩
          · exact h0 y h1
          · rw [hd] at hz
            cases hz
            refine ⟨acc, deref_mem s.bank a acc hd, ?_⟩
            rw [hyz]
            rcases authenticate_cases acc inp.pins ok acc1 rest hau with e | e
            · rw [e]; exact hR.refl acc
            · rw [e]; exact hR.block acc
        cases ok with
        | true =>
          simp only [if_true] at h
          exact userATMMenuChoice_rel R hR s.bank _ _ _ _ _ _ h hs1
        | false =>
          simp at h
          obtain ⟨h, _⟩ := h
          subst h
          exact hs1

/-- Every account of the store after a pass of the admin menu is related to an
account of the store before, or is the account "Edit Name" has re-initialised. -/
theorem adminMenuStep_rel (R : Account → Account → Prop) (hR : MutatorClosed R)
    (s : State) (ch : Int) (inp : AdminInput) :
    ∀ y ∈ (adminMenuStep s ch inp).bank,
      (∃ x ∈ s.bank, R x y) ∨
      (∃ x ∈ s.bank, ch = 4 ∧ inp.e = 1 ∧ x.accNo = inp.acc ∧
        y = (x.initNew inp.nm 0 s.nextAccNo).1) := by
  have h0 : ∀ y ∈ s.bank, ∃ x ∈ s.bank, R x y := fun y hy => ⟨y, hy, hR.refl y⟩
  unfold adminMenuStep
  split_ifs with h3 h4 e1 e2 h6 h7 h8
  · exact fun y hy => Or.inl (h0 y ((deleteAccount_sublist s.bank inp.acc).subset hy))
  · cases hs : Bank.search s.bank inp.acc with
    | none => exact fun y hy => Or.inl (h0 y hy)
    | some a =>
      obtain ⟨x0, hx0, hx0n⟩ := search_some_deref s.bank inp.acc a hs
      simp only [hx0]
      intro y hy
      rcases mem_update _ _ _ y hy with h1 | ⟨z, hz, hyz⟩
      · exact Or.inl (h0 y h1)
      · exact Or.inr ⟨x0, deref_mem s.bank a x0 hx0, h4, e1, hx0n, hyz⟩
  · cases hs : Bank.search s.bank inp.acc with
    | none => exact fun y hy => Or.inl (h0 y hy)
    | some a =>
      exact fun y hy => Or.inl
        (update_rel R hR s.bank _ _ _ (fun x => hR.changePin x inp.np) h0 y hy)
  · cases hs : Bank.search s.bank inp.acc with
    | none => exact fun y hy => Or.inl (h0 y hy)
    | some a => exact fun y hy => Or.inl (h0 y hy)
  · exact fun y hy => Or.inl (h0 y ((sort_perm compName s.bank).subset hy))
  · exact fun y hy => Or.inl (h0 y ((sort_perm compBalanceDesc s.bank).subset hy))
  · exact fun y hy => Or.inl (h0 y ((sort_perm compAccNo s.bank).subset hy))
  · exact fun y hy => Or.inl (h0 y hy)

/-- Every account of the store after a step is related to an account of the store
before, or is a newly opened account, or is the account "Edit Name" has
re-initialised. -/
theorem step_accounts (R : Account → Account → Prop) (hR : MutatorClosed R)
    (s s2 : State) (act : Action) (h : step s act = some s2) :
    ∀ y ∈ s2.bank,
      (∃ x ∈ s.bank, R x y) ∨
      (∃ k nm p, (∀ m, renumbers s act m = false) ∧
        y = ((Account.new k).initNew nm p s.nextAccNo).1) ∨
      (∃ x ∈ s.bank, ∃ nm, renumbers s act x.accNo = true ∧
        y = (x.initNew nm 0 s.nextAccNo).1) := by
  have h0 : ∀ y ∈ s.bank, ∃ x ∈ s.bank, R x y := fun y hy => ⟨y, hy, hR.refl y⟩
  cases act with
  | create k name pins =>
    unfold step createAccount at h
    cases hp : readNewPin pins with
    | none => simp [hp] at h
    | some p =>
      simp only [hp] at h
      cases h
      intro y hy
      rcases List.mem_cons.mp hy with h1 | h1
      · exact Or.inr (Or.inl ⟨k, name, p, fun _ => rfl, h1⟩)
      · exact Or.inl (h0 y h1)
  | atm acc ch inp =>
    simp only [step] at h
    cases hs : Bank.search s.bank acc with
    | none =>
      simp [hs] at h
      subst h
      exact fun y hy => Or.inl (h0 y hy)
    | some a =>
      simp only [hs] at h
      cases hu : userATMMenuStep s a ch inp with
      | none => simp [hu] at h
      | some res =>
        obtain ⟨s3, c⟩ := res
        simp [hu] at h
        subst h
        exact fun y hy => Or.inl (userATMMenuStep_rel R hR s s3 a ch inp c hu y hy)
  | admin u p ch inp =>
    simp only [step] at h
    by_cases hl : adminLogin u p = true
    · rw [if_pos hl] at h
      cases h
      intro y hy
      rcases adminMenuStep_rel R hR s ch inp y hy with h1 | ⟨x, hx, h4, e1, hxn, hyx⟩
      · exact Or.inl h1
      · refine Or.inr (Or.inr ⟨x, hx, inp.nm, ?_, hyx⟩)
        have hsome : (Bank.search s.bank x.accNo).isSome = true := by
          cases hsr : Bank.search s.bank x.accNo with
          | none => exact absurd rfl ((search_eq_none_iff s.bank x.accNo).mp hsr x hx)
          | some q => rfl
        rw [hxn] at hsome
        simp [renumbers, hl, h4, e1, hxn, hsome]
    · rw [if_neg hl] at h
      cases h
      exact fun y hy => Or.inl (h0 y hy)
  | display =>
    simp only [step] at h
    cases h
    exact fun y hy => Or.inl (h0 y hy)

/-! ## Histories -/

/-- C13 (the code at the failing input): in the reachable state `exState` the
account behind pointer 2 (number 200001) has the history
`["+ 5000.000000 Deposit"]`. After the admin's "Edit Name" for 200001 the same
account object, still behind pointer 2, has an empty history: the record is
gone, and the history before is not a prefix of the history after. -/
theorem editName_clears_history :
    Bank.search exState.bank 200001 = some 2 ∧
    (Bank.deref exState.bank 2).map Account.history = some [⟨"+ 5000.000000 Deposit"⟩] ∧
    adminLogin "admin" "admin123" = true ∧
    (Bank.deref
        (adminMenuStep exState 4 { acc := 200001, e := 1, nm := "Asha K", np := 0 }).bank 2).map
      Account.history = some [] ∧
    ¬ ([⟨"+ 5000.000000 Deposit"⟩] : List Transaction) <+: [] := by
  refine ⟨by decide!, by decide!, by decide!, by decide!, ?_⟩
  simp

theorem prefix_closed :
    MutatorClosed (fun x y => x.accNo = y.accNo ∧ x.history <+: y.history) where
  refl := fun x => ⟨rfl, List.prefix_refl _⟩
  trans := fun x y z h1 h2 => ⟨h1.1.trans h2.1, h1.2.trans h2.2⟩
  deposit := fun x amt _ => by
    refine ⟨(callDeposit_accNo x amt).symm, ?_⟩
    unfold Account.callDeposit
    cases x.kind
    · exact List.prefix_append _ _
    · exact List.prefix_append _ _
  withdraw := fun x amt _ => by
    refine ⟨(callWithdraw_accNo x amt).symm, ?_⟩
    cases h : (x.callWithdraw amt).1 with
    | false =>
      rw [callWithdraw_false_eq x amt h]
    | true =>
      rw [callWithdraw_true_eq x amt h]
      exact List.prefix_append _ _
  addHistory := fun x d => ⟨rfl, List.prefix_append _ _⟩
  changePin := fun x np => ⟨rfl, List.prefix_refl _⟩
  block := fun x => ⟨rfl, List.prefix_refl _⟩

theorem initNew_accNo (x : Account) (nm : String) (p n : Int) : (x.initNew nm p n).1.accNo = n :=
  rfl

/-- Every step other than "Edit Name" keeps the histories append-only: in a
reachable state, the history of an account is a prefix of the history the
account with the same number has after the step. (An account re-initialised by
"Edit Name" has another number afterwards and does not occur here.) -/
theorem history_prefix_by_number (s s2 : State) (act : Action) (hs : Reachable s)
    (h : step s act = some s2) (x y : Account) (hx : x ∈ s.bank) (hy : y ∈ s2.bank)
    (hn : y.accNo = x.accNo) : x.history <+: y.history := by
  have hI := reachable_wellNumbered s hs
  have hlt : x.accNo < s.nextAccNo := hI.1 _ (List.mem_map.mpr ⟨x, hx, rfl⟩)
  rcases step_accounts _ prefix_closed s s2 act h y hy with
    ⟨z, hz, hzn, hzp⟩ | ⟨k, nm, p, _, hyk⟩ | ⟨z, _, nm, _, hyz⟩
  · have : z = x := eq_of_accNo_eq s.bank hI.2 z x hz hx (hzn.trans hn)
    rw [← this]
    exact hzp
  · rw [hyk, initNew_accNo] at hn
    exact absurd hn.symm (ne_of_lt hlt)
  · rw [hyz, initNew_accNo] at hn
    exact absurd hn.symm (ne_of_lt hlt)

/-! ## Distinct numbers -/

/-- C14: in every reachable state the account numbers in the store are pairwise
distinct and each of them is below the counter `nextAccNo`, which starts at
200001. Reachability is over every step of the program, the opening and
deleting of accounts, the sorts and the admin's edits among them. -/
theorem numbers_distinct_and_below_counter (s : State) (hs : Reachable s) :
    State.init.nextAccNo = 200001 ∧ State.init.bank = [] ∧
    (s.bank.map Account.accNo).Nodup ∧
    (∀ x ∈ s.bank, ∀ y ∈ s.bank, x.accNo = y.accNo → x = y) ∧
    (∀ x ∈ s.bank, x.accNo < s.nextAccNo) := by
  have hI := reachable_wellNumbered s hs
  refine ⟨rfl, rfl, hI.2, ?_, ?_⟩
  · exact fun x hx y hy hxy => eq_of_accNo_eq s.bank hI.2 x y hx hy hxy
  · exact fun x hx => hI.1 _ (List.mem_map.mpr ⟨x, hx, rfl⟩)

/-- C14 at a concrete input: the reachable state `exState`. -/
theorem numbers_distinct_and_below_counter_witness :
    Reachable exState ∧
    (exState.bank.map Account.accNo).Nodup ∧ (∀ x ∈ exState.bank, x.accNo < exState.nextAccNo) :=
  ⟨reachable_run exState exActions exState_reached,
    (numbers_distinct_and_below_counter exState
      (reachable_run exState exActions exState_reached)).2.2.1,
    (numbers_distinct_and_below_counter exState
      (reachable_run exState exActions exState_reached)).2.2.2.2⟩

/-! ## No overdraft -/

theorem nonneg_closed : MutatorClosed (fun x y => 0 ≤ x.balance → 0 ≤ y.balance) where
  refl := fun _ h => h
  trans := fun _ _ _ h1 h2 h => h2 (h1 h)
  deposit := fun x amt hamt hx => by
    have hs : 0 ≤ x.balance + amt := F32.nonneg_add _ _ hx (F32.lt_imp_le _ _ hamt)
    unfold Account.callDeposit
    cases x.kind
    · show 0 ≤ (x.balance + amt) + ((x.balance + amt) * 2) / 100
      exact F32.nonneg_add _ _ hs (F32.nonneg_div_hundred _ (F32.nonneg_mul_two _ hs))
    · exact hs
  withdraw := fun x amt _ hx => by
    cases h : (x.callWithdraw amt).1 with
    | false =>
      rw [callWithdraw_false_eq x amt h]
      exact hx
    | true =>
      unfold Account.callWithdraw at h ⊢
      cases hk : x.kind with
      | Savings =>
        simp only [hk] at h ⊢
        by_cases hc : x.balance > amt
        · rw [savings_withdraw_true x amt hc]
          show 0 ≤ x.balance - amt
          exact F32.lt_imp_le _ _ (F32.sub_pos_of_lt _ _ hc)
        · rw [savings_withdraw_false x amt hc] at h
          simp at h
      | Current =>
        simp only [hk] at h ⊢
        by_cases hc : x.balance - amt ≥ 1000
        · rw [current_withdraw_true x amt hc]
          show 0 ≤ x.balance - amt
          exact F32.le_chain 0 1000 _ F32.zero_le_thousand hc
        · rw [current_withdraw_false x amt hc] at h
          simp at h
  addHistory := fun _ _ h => h
  changePin := fun _ _ h => h
  block := fun _ h => h

/-- No step makes a balance negative. -/
theorem step_balances_nonneg (s s2 : State) (act : Action) (h : step s act = some s2)
    (hb : ∀ x ∈ s.bank, 0 ≤ x.balance) : ∀ y ∈ s2.bank, 0 ≤ y.balance := by
  intro y hy
  rcases step_accounts _ nonneg_closed s s2 act h y hy with
    ⟨z, hz, hzy⟩ | ⟨k, nm, p, _, hyk⟩ | ⟨z, _, nm, _, hyz⟩
  · exact hzy (hb z hz)
  · rw [hyk]
    exact F32.zero_le_zero
  · rw [hyz]
    exact F32.zero_le_zero

theorem reachable_balances_nonneg (s : State) (hs : Reachable s) :
    ∀ x ∈ s.bank, 0 ≤ x.balance := by
  induction hs with
  | init => simp [State.init]
  | step act _ hstep ih => exact step_balances_nonneg _ _ act hstep ih

/-- What an accepted withdrawal leaves: more than 0 in a Savings account, at least
1000 in a Current account. -/
theorem callWithdraw_floor (x : Account) (amt : F32) (hw : (x.callWithdraw amt).1 = true) :
    (x.kind = Kind.Savings → (x.callWithdraw amt).2.balance > 0) ∧
    (x.kind = Kind.Current → (x.callWithdraw amt).2.balance ≥ 1000) := by
  constructor
  · intro hk
    unfold Account.callWithdraw at hw ⊢
    simp only [hk] at hw ⊢
    by_cases hc : x.balance > amt
    · rw [savings_withdraw_true x amt hc]
      show x.balance - amt > 0
      exact F32.sub_pos_of_lt _ _ hc
    · rw [savings_withdraw_false x amt hc] at hw
      simp at hw
  · intro hk
    unfold Account.callWithdraw at hw ⊢
    simp only [hk] at hw ⊢
    by_cases hc : x.balance - amt ≥ 1000
    · rw [current_withdraw_true x amt hc]
      exact hc
    · rw [current_withdraw_false x amt hc] at hw
      simp at hw

/-- C19: in every reachable state every balance is at least 0 (accounts are opened
with balance 0 and the menus pass only positive amounts on); and right after an
accepted withdrawal, the debit of a transfer included, a Savings account holds
more than 0 and a Current account at least 1000. -/
theorem no_overdraft (s : State) (hs : Reachable s) :
    (∀ x ∈ s.bank, 0 ≤ x.balance) ∧
    (∀ x ∈ s.bank, ∀ amt : F32, (x.callWithdraw amt).1 = true →
      (x.kind = Kind.Savings → (x.callWithdraw amt).2.balance > 0) ∧
      (x.kind = Kind.Current → (x.callWithdraw amt).2.balance ≥ 1000)) :=
  ⟨reachable_balances_nonneg s hs, fun x _ amt hw => callWithdraw_floor x amt hw⟩

/-- C19 at a concrete input: the reachable state `exState`, where `exSavings` may
withdraw 2549 and `exCurrent` 4000. -/
theorem no_overdraft_witness :
    Reachable exState ∧ (∀ x ∈ exState.bank, 0 ≤ x.balance) ∧
    (exSavings.callWithdraw 2549).2.balance > 0 ∧
    (exCurrent.callWithdraw 4000).2.balance ≥ 1000 :=
  ⟨reachable_run exState exActions exState_reached,
    (no_overdraft exState (reachable_run exState exActions exState_reached)).1,
    ((no_overdraft exState (reachable_run exState exActions exState_reached)).2
      exSavings (by decide!) 2549 (by decide!)).1 (by decide),
    ((no_overdraft exState (reachable_run exState exActions exState_reached)).2
      exCurrent (by decide!) 4000 (by decide!)).2 (by decide)⟩

/-! ## The counter of wrong PINs -/

/-- At most two wrong PINs and then the right one: the call returns true, with the
account as it was and the rest of the input unread. -/
theorem authenticate_success (a : Account) (wrong rest : List Int) (hb : a.blocked = false)
    (hlen : wrong.length ≤ 2) (hw : ∀ w ∈ wrong, w ≠ a.pin) :
    authenticateAccount a (wrong ++ a.pin :: rest) = some (true, a, rest) := by
  match wrong, hlen, hw with
  | [], _, _ =>
    simp [authenticateAccount, Account.isBlocked, hb, authLoop, Account.checkPin]
  | [w1], _, hw =>
    have e1 : ¬ a.pin = w1 := fun e => hw w1 (by simp) e.symm
    simp [authenticateAccount, Account.isBlocked, hb, authLoop, Account.checkPin, e1]
  | [w1, w2], _, hw =>
    have e1 : ¬ a.pin = w1 := fun e => hw w1 (by simp) e.symm
    have e2 : ¬ a.pin = w2 := fun e => hw w2 (by simp) e.symm
    simp [authenticateAccount, Account.isBlocked, hb, authLoop, Account.checkPin, e1, e2]
  | _ :: _ :: _ :: _, hlen, _ => simp at hlen

/-- A pass of the ATM menu with choice 1 (check balance) whose authentication
succeeds leaves the state as it was. -/
theorem balance_pass_keeps_state (s : State) (acc : Int) (p : Ptr) (a : Account)
    (inp : ATMInput) (rest : List Int) (hs : Bank.search s.bank acc = some p)
    (hd : Bank.deref s.bank p = some a)
    (hau : authenticateAccount a inp.pins = some (true, a, rest)) :
    step s (Action.atm acc 1 inp) = some s := by
  have hu : Bank.update s.bank p (fun _ => a) = s.bank :=
    update_id_of_deref s.bank p _ (fun x hx => by
      rw [hd] at hx
      exact Option.some.inj hx)
  simp [step, hs, userATMMenuStep, hd, hau, hu, userATMMenuChoice]

/-- C15: the counter of wrong PINs lives in one call of `authenticateAccount`. On
an account that is not blocked, a call that reads at most two wrong PINs and then
the right one returns true and leaves the account, every field of it, as it was.
Hence any number of such calls one after the other all return true and end with
the same, unblocked account; and any number of ATM passes (check balance) with
such input leave the whole state as it was, however many wrong PINs they hold in
total. -/
theorem wrong_pin_counter_is_local (a : Account) (hb : a.blocked = false) :
    (∀ wrong rest : List Int, wrong.length ≤ 2 → (∀ w ∈ wrong, w ≠ a.pin) →
      authenticateAccount a (wrong ++ a.pin :: rest) = some (true, a, rest)) ∧
    (∀ calls : List (List Int × List Int),
      (∀ c ∈ calls, c.1.length ≤ 2 ∧ ∀ w ∈ c.1, w ≠ a.pin) →
      calls.foldl (fun (cur : Option Account) c =>
          cur.bind (fun x =>
            (authenticateAccount x (c.1 ++ x.pin :: c.2)).bind
              (fun res => if res.1 = true then some res.2.1 else none)))
        (some a) = some a) ∧
    (∀ (s : State) (acc : Int) (p : Ptr) (calls : List (List Int × List Int)),
      Bank.search s.bank acc = some p → Bank.deref s.bank p = some a →
      (∀ c ∈ calls, c.1.length ≤ 2 ∧ ∀ w ∈ c.1, w ≠ a.pin) →
      run s (calls.map (fun c => Action.atm acc 1
          { pins := c.1 ++ a.pin :: c.2, amt := 0, r := 0, np := 0, confirm := "" })) = some s) := by
  refine ⟨fun wrong rest hlen hw => authenticate_success a wrong rest hb hlen hw, ?_, ?_⟩
  · intro calls
    induction calls with
    | nil => intro _; rfl
    | cons c t ih =>
      intro hc
      have h1 := hc c (List.mem_cons_self _ _)
      simp only [List.foldl, Option.bind]
      rw [authenticate_success a c.1 c.2 hb h1.1 h1.2]
      simp only [Option.bind, if_true]
      exact ih (fun c2 hc2 => hc c2 (List.mem_cons_of_mem _ hc2))
  · intro s acc p calls hs hd
    induction calls with
    | nil => intro _; rfl
    | cons c t ih =>
      intro hc
      have h1 := hc c (List.mem_cons_self _ _)
      simp only [List.map, run]
      rw [balance_pass_keeps_state s acc p a _ c.2 hs hd
        (authenticate_success a c.1 c.2 hb h1.1 h1.2)]
      exact ih (fun c2 hc2 => hc c2 (List.mem_cons_of_mem _ hc2))

/-- C15 at a concrete input: `exSavings` (PIN 5678) is given 1111, 2222 and then
5678. -/
theorem wrong_pin_counter_is_local_witness :
    exSavings.blocked = false ∧
    authenticateAccount exSavings ([1111, 2222] ++ exSavings.pin :: []) = some (true, exSavings, []) :=
  ⟨by decide, (wrong_pin_counter_is_local exSavings (by decide)).1 [1111, 2222] []
    (by decide) (by decide)⟩

/-! ## Sorting keeps the accounts -/

/-- C16: each of the three sorts leaves a permutation of the accounts of the store:
every account object, with its balance, name, number, PIN, blocked flag and
history, is in the store after the sort exactly as often as before, and no
other account is. -/
theorem sorts_preserve_accounts (b : Bank) :
    (Bank.sortByName b).Perm b ∧ (Bank.sortByBalanceDesc b).Perm b ∧
    (Bank.sortByAccNo b).Perm b ∧
    (Bank.sortByName b).length = b.length ∧ (Bank.sortByBalanceDesc b).length = b.length ∧
    (Bank.sortByAccNo b).length = b.length ∧
    (∀ x, (x ∈ Bank.sortByName b ↔ x ∈ b) ∧ (x ∈ Bank.sortByBalanceDesc b ↔ x ∈ b) ∧
      (x ∈ Bank.sortByAccNo b ↔ x ∈ b)) := by
  have h1 : (Bank.sortByName b).Perm b := sort_perm compName b
  have h2 : (Bank.sortByBalanceDesc b).Perm b := sort_perm compBalanceDesc b
  have h3 : (Bank.sortByAccNo b).Perm b := sort_perm compAccNo b
  exact ⟨h1, h2, h3, h1.length_eq, h2.length_eq, h3.length_eq,
    fun x => ⟨h1.mem_iff, h2.mem_iff, h3.mem_iff⟩⟩

/-! ## The mini statement -/

/-- Visiting the indices from `start` up to the end of `h` yields the elements of
`h` from `start` on, in their order. -/
theorem visit_from {α β : Type} (f : α → β) (h : List α) (k start : Nat)
    (hk : start + k = h.length) :
    (List.range' start k).filterMap (fun i => (h[i]?).map f) = (h.drop start).map f := by
  induction k generalizing start with
  | zero =>
    have : h.length ≤ start := by omega
    simp [List.drop_eq_nil_of_le this]
  | succ k ih =>
    have hlt : start < h.length := by omega
    rw [List.range'_succ, List.filterMap_cons, List.drop_eq_getElem_cons hlt]
    have hget : h[start]? = some h[start] := List.getElem?_eq_getElem hlt
    simp only [hget, Option.map_some', List.map_cons]
    rw [ih (start + 1) (by omega)]

/-- C17: for every account and every `n ≥ 0`, `showMiniStatement(a, n)` writes, for
an empty history, the notice and nothing else; for a history of `len > 0`
records, the header with the count `min(n, len)`, then exactly the last
`min(n, len)` records in the order in which they are stored, then the closing
rule. It only reads the account, and the pass of the ATM menu that calls it
(choice 4) leaves the state as it is. -/
theorem mini_statement (a : Account) (n : Int) (hn : 0 ≤ n) :
    (a.history = [] → showMiniStatement a n = [MiniOutput.noTransactions]) ∧
    (a.history ≠ [] →
      showMiniStatement a n =
        [MiniOutput.header (min n a.history.length)]
          ++ (a.history.drop (a.history.length - min n.toNat a.history.length)).map
              MiniOutput.record
          ++ [MiniOutput.footer]) ∧
    (a.history.drop (a.history.length - min n.toNat a.history.length)).length
      = min n.toNat a.history.length ∧
    (∀ (s : State) (p : Ptr) (inp : ATMInput), userATMMenuChoice s p 4 inp = some (s, true)) := by
  obtain ⟨m, rfl⟩ := Int.eq_ofNat_of_zero_le hn
  refine ⟨?_, ?_, ?_, ?_⟩
  · intro he
    simp [showMiniStatement, Account.getHistory, he]
  · intro hne
    have hlen : a.history.length ≠ 0 := fun e => hne (List.length_eq_zero.mp e)
    have hsz : ¬ ((a.history.length : Int) = 0) := by exact_mod_cast hlen
    simp only [showMiniStatement, Account.getHistory, hsz, if_false, Int.toNat_ofNat]
    by_cases hc : m ≤ a.history.length
    · have e1 : max (0 : Int) ((a.history.length : Int) - (m : Int))
          = ((a.history.length - m : Nat) : Int) := by
        rw [Int.ofNat_sub hc]
        exact max_eq_right (by omega)
      have e2 : (a.history.length : Int) - ((a.history.length - m : Nat) : Int) = (m : Int) := by
        omega
      have e3 : min (m : Int) (a.history.length : Int) = (m : Int) := min_eq_left (by omega)
      have e4 : min m a.history.length = m := min_eq_left hc
      rw [e1, e2, e3, e4, Int.toNat_ofNat, Int.toNat_ofNat]
      rw [visit_from MiniOutput.record a.history m (a.history.length - m) (by omega)]
    · have hc2 : a.history.length ≤ m := by omega
      have e1 : max (0 : Int) ((a.history.length : Int) - (m : Int)) = 0 :=
        max_eq_left (by omega)
      have e3 : min (m : Int) (a.history.length : Int) = (a.history.length : Int) :=
        min_eq_right (by omega)
      have e4 : min m a.history.length = a.history.length := min_eq_right hc2
      rw [e1, e3, e4]
      simp only [sub_zero, Int.toNat_zero, Int.toNat_ofNat, Nat.sub_self, List.drop_zero]
      rw [visit_from MiniOutput.record a.history a.history.length 0 (by omega)]
      simp
  · simp only [Int.toNat_ofNat, List.length_drop]
    omega
  · intro s p inp
    simp [userATMMenuChoice]

/-- C17 at a concrete input: the account 200001 after its transfer, with three
records, asked for the last two. -/
theorem mini_statement_witness :
    (0 : Int) ≤ 2 ∧
    showMiniStatement
      { exCurrent with history := [⟨"+ 5000.000000 Deposit"⟩, ⟨"- 1000.000000 Withdraw"⟩,
          ⟨"- 1000.000000 Transfer to 200003"⟩] } 2
      = [MiniOutput.header 2, MiniOutput.record ⟨"- 1000.000000 Withdraw"⟩,
         MiniOutput.record ⟨"- 1000.000000 Transfer to 200003"⟩, MiniOutput.footer] :=
  ⟨by decide, by
    have h := (mini_statement
      { exCurrent with history := [⟨"+ 5000.000000 Deposit"⟩, ⟨"- 1000.000000 Withdraw"⟩,
          ⟨"- 1000.000000 Transfer to 200003"⟩] } 2 (by decide)).2.1 (by simp)
    rw [h]
    decide⟩

/-! ## Ties in a sort -/

/-- C18 (as stated, refuted): in the reachable state `exTieState` the accounts
200002 and 200001 have the same name and the same balance and stand in this
order. After `sortByName`, and after `sortByBalanceDesc`, they stand in the
order 200001, 200002. -/
theorem sort_ties_counterexample :
    run State.init exTieActions = some exTieState ∧
    exTieState.bank.map (fun x => (x.accNo, x.name, x.balance))
      = [(200002, "Kiran", 0), (200001, "Kiran", 0)] ∧
    (Bank.sortByName exTieState.bank).map Account.accNo = [200001, 200002] ∧
    (Bank.sortByBalanceDesc exTieState.bank).map Account.accNo = [200001, 200002] := by
  decide!

/-- C18 (amended): each sort keeps every two accounts with equal sort key in the
store, each as often as before; nothing is said about their relative order. -/
theorem tied_accounts_kept (b : Bank) (x y : Account) (hx : x ∈ b) (hy : y ∈ b) :
    (x.name = y.name →
      x ∈ Bank.sortByName b ∧ y ∈ Bank.sortByName b ∧
      (Bank.sortByName b).count x = b.count x ∧ (Bank.sortByName b).count y = b.count y) ∧
    (x.balance = y.balance →
      x ∈ Bank.sortByBalanceDesc b ∧ y ∈ Bank.sortByBalanceDesc b ∧
      (Bank.sortByBalanceDesc b).count x = b.count x ∧
      (Bank.sortByBalanceDesc b).count y = b.count y) ∧
    (x.accNo = y.accNo →
      x ∈ Bank.sortByAccNo b ∧ y ∈ Bank.sortByAccNo b ∧
      (Bank.sortByAccNo b).count x = b.count x ∧ (Bank.sortByAccNo b).count y = b.count y) := by
  have h1 : (Bank.sortByName b).Perm b := sort_perm compName b
  have h2 : (Bank.sortByBalanceDesc b).Perm b := sort_perm compBalanceDesc b
  have h3 : (Bank.sortByAccNo b).Perm b := sort_perm compAccNo b
  exact ⟨fun _ => ⟨h1.mem_iff.mpr hx, h1.mem_iff.mpr hy, h1.count_eq x, h1.count_eq y⟩,
    fun _ => ⟨h2.mem_iff.mpr hx, h2.mem_iff.mpr hy, h2.count_eq x, h2.count_eq y⟩,
    fun _ => ⟨h3.mem_iff.mpr hx, h3.mem_iff.mpr hy, h3.count_eq x, h3.count_eq y⟩⟩

/-- C18 (amended), at a concrete input: the two accounts of `exTieState`. -/
theorem tied_accounts_kept_witness :
    exTieState.bank.get? 0 = some
      { kind := Kind.Current, name := "Kiran", accNo := 200002, balance := 0, pin := 2222,
        blocked := false, history := [] } ∧
    ({ kind := Kind.Current, name := "Kiran", accNo := 200002, balance := 0, pin := 2222,
        blocked := false, history := [] } : Account) ∈ Bank.sortByName exTieState.bank ∧
    ({ kind := Kind.Savings, name := "Kiran", accNo := 200001, balance := 0, pin := 1111,
        blocked := false, history := [] } : Account) ∈ Bank.sortByName exTieState.bank := by
  have h := (tied_accounts_kept exTieState.bank
    { kind := Kind.Current, name := "Kiran", accNo := 200002, balance := 0, pin := 2222,
      blocked := false, history := [] }
    { kind := Kind.Savings, name := "Kiran", accNo := 200001, balance := 0, pin := 1111,
      blocked := false, history := [] }
    (by simp [exTieState]) (by simp [exTieState])).1 rfl
  exact ⟨rfl, h.1, h.2.1⟩

/-! ## Blocking is never undone -/

theorem blocked_closed :
    MutatorClosed (fun x y => x.accNo = y.accNo ∧ (x.blocked = true → y.blocked = true)) where
  refl := fun _ => ⟨rfl, fun h => h⟩
  trans := fun _ _ _ h1 h2 => ⟨h1.1.trans h2.1, fun h => h2.2 (h1.2 h)⟩
  deposit := fun x amt _ => by
    refine ⟨(callDeposit_accNo x amt).symm, ?_⟩
    unfold Account.callDeposit
    cases x.kind
    · exact fun h => h
    · exact fun h => h
  withdraw := fun x amt _ => by
    refine ⟨(callWithdraw_accNo x amt).symm, ?_⟩
    cases h : (x.callWithdraw amt).1 with
    | false =>
      rw [callWithdraw_false_eq x amt h]
      exact fun h => h
    | true =>
      rw [callWithdraw_true_eq x amt h]
      exact fun h => h
  addHistory := fun _ _ => ⟨rfl, fun h => h⟩
  changePin := fun _ _ => ⟨rfl, fun h => h⟩
  block := fun _ => ⟨rfl, fun _ => rfl⟩

/-- A step re-initialises at most one number. -/
theorem renumbers_eq (s : State) (act : Action) (n m : Int)
    (hn : renumbers s act n = true) (hm : renumbers s act m = true) : n = m := by
  cases act with
  | admin u p ch inp =>
    simp [renumbers] at hn hm
    exact hn.1.2.symm.trans hm.1.2
  | create k name pins => simp [renumbers] at hn
  | atm acc ch inp => simp [renumbers] at hn
  | display => simp [renumbers] at hn

/-- The step that re-initialises an account moves the counter. -/
theorem renumbers_counter (s s2 : State) (act : Action) (n : Int)
    (h : step s act = some s2) (hr : renumbers s act n = true) :
    s2.nextAccNo = s.nextAccNo + 1 := by
  cases act with
  | admin u p ch inp =>
    simp [renumbers] at hr
    obtain ⟨⟨⟨⟨hl, h4⟩, e1⟩, hacc⟩, hsome⟩ := hr
    simp only [step, hl, if_true] at h
    cases h
    cases hs : Bank.search s.bank n with
    | none => simp [hs] at hsome
    | some a =>
      obtain ⟨x, hx, _⟩ := search_some_deref s.bank n a hs
      simp [adminMenuStep, h4, e1, hacc, hs, hx, Account.initNew]
  | create k name pins => simp [renumbers] at hr
  | atm acc ch inp => simp [renumbers] at hr
  | display => simp [renumbers] at hr

/-- One step: when every account numbered `n` is blocked and `n` is below the
counter, the same holds afterwards for the number the account is then found under. -/
theorem blocked_step (s s2 : State) (act : Action) (n : Int) (hs : Reachable s)
    (h : step s act = some s2) (hlt : n < s.nextAccNo)
    (hb : ∀ x ∈ s.bank, x.accNo = n → x.blocked = true) :
    numberAfter s act n < s2.nextAccNo ∧
    ∀ y ∈ s2.bank, y.accNo = numberAfter s act n → y.blocked = true := by
  have hI := reachable_wellNumbered s hs
  have hE := step_extends s s2 act hI h
  constructor
  · unfold numberAfter
    by_cases hr : renumbers s act n = true
    · rw [if_pos hr, renumbers_counter s s2 act n h hr]
      linarith
    · rw [if_neg hr]
      exact lt_of_lt_of_le hlt hE.2.1
  · intro y hy hyn
    unfold numberAfter at hyn
    rcases step_accounts _ blocked_closed s s2 act h y hy with
      ⟨z, hz, hzn, hzb⟩ | ⟨k, nm, p, hno, hyk⟩ | ⟨z, hz, nm, hrz, hyz⟩
    · have hzlt : z.accNo < s.nextAccNo := hI.1 _ (List.mem_map.mpr ⟨z, hz, rfl⟩)
      by_cases hr : renumbers s act n = true
      · rw [if_pos hr] at hyn
        rw [hzn, hyn] at hzlt
        exact absurd hzlt (lt_irrefl _)
      · rw [if_neg hr] at hyn
        exact hzb (hb z hz (hzn.trans hyn))
    · rw [hno n] at hyn
      simp only [Bool.false_eq_true, if_false] at hyn
      rw [hyk, initNew_accNo] at hyn
      rw [hyn] at hlt
      exact absurd hlt (lt_irrefl _)
    · by_cases hr : renumbers s act n = true
      · have hzn : z.accNo = n := renumbers_eq s act z.accNo n hrz hr
        rw [hyz]
        exact hb z hz hzn
      · rw [if_neg hr] at hyn
        rw [hyz, initNew_accNo] at hyn
        rw [hyn] at hlt
        exact absurd hlt (lt_irrefl _)

/-- The same along a run of steps. -/
theorem blocked_run (acts : List Action) (s s2 : State) (n : Int) (hs : Reachable s)
    (hrun : run s acts = some s2) (hlt : n < s.nextAccNo)
    (hb : ∀ x ∈ s.bank, x.accNo = n → x.blocked = true) :
    ∃ n2, numberAfterRun s acts n = some n2 ∧
      ∀ y ∈ s2.bank, y.accNo = n2 → y.blocked = true := by
  induction acts generalizing s n with
  | nil =>
    simp only [run] at hrun
    cases hrun
    exact ⟨n, rfl, hb⟩
  | cons act rest ih =>
    simp only [run] at hrun
    cases hst : step s act with
    | none => simp [hst] at hrun
    | some s1 =>
      simp only [hst] at hrun
      obtain ⟨h1, h2⟩ := blocked_step s s1 act n hs hst hlt hb
      obtain ⟨n2, hn2, hy⟩ := ih s1 (numberAfter s act n) (Reachable.step act hs hst) hrun h1 h2
      exact ⟨n2, by simp only [numberAfterRun, hst]; exact hn2, hy⟩

/-- C20: no step of the program turns a blocked account back into an unblocked
one. `initNew` (the admin's "Edit Name") and `changePin` leave the flag as it
is; and when an account of a reachable state is blocked, then after every run
of steps the account, under the number it is then found (its own, or the one
"Edit Name" has given it), is blocked if it is still in the store, and
`authenticateAccount` on it returns false without reading a PIN. -/
theorem blocking_never_undone (s s2 : State) (acts : List Action) (B : Account)
    (hs : Reachable s) (hB : B ∈ s.bank) (hb : B.blocked = true)
    (hrun : run s acts = some s2) :
    (∀ (x : Account) (nm : String) (p n np : Int),
      (x.initNew nm p n).1.blocked = x.blocked ∧ (x.changePin np).blocked = x.blocked) ∧
    ∃ n2, numberAfterRun s acts B.accNo = some n2 ∧
      ∀ B2 ∈ s2.bank, B2.accNo = n2 →
        B2.blocked = true ∧ ∀ pins, authenticateAccount B2 pins = some (false, B2, pins) := by
  have hI := reachable_wellNumbered s hs
  refine ⟨fun _ _ _ _ _ => ⟨rfl, rfl⟩, ?_⟩
  have hlt : B.accNo < s.nextAccNo := hI.1 _ (List.mem_map.mpr ⟨B, hB, rfl⟩)
  have hall : ∀ x ∈ s.bank, x.accNo = B.accNo → x.blocked = true := by
    intro x hx hxn
    rw [eq_of_accNo_eq s.bank hI.2 x B hx hB hxn]
    exact hb
  obtain ⟨n2, hn2, hy⟩ := blocked_run acts s s2 B.accNo hs hrun hlt hall
  exact ⟨n2, hn2, fun B2 hB2 hnum =>
    ⟨hy B2 hB2 hnum, fun pins => authenticate_blocked B2 pins (hy B2 hB2 hnum)⟩⟩

/-- C20 at a concrete input: in `exStateBlocked` the admin edits the name of the
blocked account 200002; it is then found under 200004 and is still blocked. -/
theorem blocking_never_undone_witness :
    Reachable exStateBlocked ∧ exBlocked ∈ exStateBlocked.bank ∧ exBlocked.blocked = true ∧
    run exStateBlocked [exRename] = some exStateRenamed ∧
    numberAfterRun exStateBlocked [exRename] exBlocked.accNo = some 200004 ∧
    ∀ B2 ∈ exStateRenamed.bank, B2.accNo = 200004 →
      B2.blocked = true ∧ ∀ pins, authenticateAccount B2 pins = some (false, B2, pins) := by
  have hr : Reachable exStateBlocked :=
    reachable_run exStateBlocked exActionsBlocked exStateBlocked_reached
  have hrun : run exStateBlocked [exRename] = some exStateRenamed := by decide!
  have hnum : numberAfterRun exStateBlocked [exRename] exBlocked.accNo = some 200004 := by
    decide!
  obtain ⟨_, n2, hn2, h⟩ :=
    blocking_never_undone exStateBlocked exStateRenamed [exRename] exBlocked hr
      (by decide!) (by decide) hrun
  rw [hnum] at hn2
  cases hn2
  exact ⟨hr, by decide!, by decide, hrun, hnum, h⟩

end BankManagement
